import Mathlib

/-!
# Monte Carlo pricing of an up-and-out barrier call

Shallow embedding of `BarrierOption::price` (src/BarrierOption.cpp) and of
`GetOneGaussianByBoxMuller` (src/Random1.cpp).

* The C++ type `double` is a type parameter `α` carrying the operations the
  program applies to doubles (`DoubleOps`).  The program text is translated once,
  generically; it is executable for any executable interpretation of the
  operations.  Structural properties (counting, draw consumption, determinism) are
  proved for every interpretation.
* `Dbl` interprets the operations as exact arithmetic on the reals extended by
  `+inf`, `-inf` and `NaN`, with the IEEE 754 rules for the special values.  It has no
  rounding, no overflow, no underflow and no signed zero, so on finite operands it is not
  the arithmetic of the machine.  It is used for what does not depend on that: the
  special values (`0/0`, `sqrt` of a negative number, propagation of `NaN`), comparisons
  and signs, and the evaluation of runs whose intermediate results are exactly
  representable.  Statements about finite results of the program are made in the
  program's own operations, for every interpretation.
* `DblRange` is `Dbl` with the range of binary64: a result of magnitude `2^1024` or more
  overflows to an infinity and one of magnitude at most `2^(-1075)` underflows to `0`.
  It is used to exhibit runs in which a spot overflows or a discount factor underflows.
* `rand()` is the stream of its outputs `rand : Nat → Nat` together with the
  position of the next output; `RAND_MAX` (from `<cstdlib>`) is a parameter.
* The unbounded rejection loop of the Box-Muller routine takes a fuel argument;
  the normal source of `price` is a parameter `draw` of `priceWith`, and `price` is
  `priceWith` wired to `GetOneGaussianByBoxMuller`.
-/

namespace BarrierMC

/-! ## Definitions -/

/-- Operations on `double` used by the two translation units.  `ofNat` is the
conversion of a non-negative integer (an `int`, a `size_t`, or an integer-valued
literal such as `100.0`) to `double`; `half` is the literal `0.5`; `ge` and `lt`
are the comparison operators `>=` and `<`. -/
class DoubleOps (α : Type) extends Add α, Sub α, Mul α, Div α, Neg α where
  ofNat : Nat → α
  half : α
  exp : α → α
  sqrt : α → α
  log : α → α
  ge : α → α → Bool
  lt : α → α → Bool

open DoubleOps

/-- `std::max(a, b)` on doubles: `(a < b) ? b : a`. -/
def dmax {α : Type} [DoubleOps α] (a b : α) : α :=
  if lt a b then b else a

/-- Modulus of `size_t` arithmetic (64-bit `size_t`). -/
def SIZE_MOD : Nat := 2 ^ 64

/-- Subtraction of two `size_t` values, wrapping modulo `2 ^ 64`. -/
def size_t_sub (a b : Nat) : Nat := (a + (SIZE_MOD - b % SIZE_MOD)) % SIZE_MOD

/-- The member variables of `class BarrierOption` (BarrierOption.h). -/
structure BarrierOption (α : Type) where
  S0 : α
  K : α
  sigma : α
  r : α
  T : α
  b : α
  nSim : Int

/-- One line written to `std::cout` by `price`: either the breach message
"Trajectory i+1: barrier reached at time step t+1 with price this_spot" or a
recorded trajectory "Trajectory i+1: price price ...". -/
inductive Output (α : Type) where
  | barrierReached (trajectoryNo : Nat) (timeStep : Nat) (spot : α)
  | trajectoryLine (trajectoryNo : Nat) (prices : List α)

/-- Local state of one simulated path (body of the outer loop), together with the
output stream and the state of the normal source. -/
structure PathState (α σ : Type) where
  hitBarrier : Bool
  this_spot : α
  trajectory : List α
  cout : List (Output α)
  gen : σ

/-- State of the outer simulation loop of `price`. -/
structure SimState (α σ : Type) where
  running_sum : α
  barrierHits : Int
  payoffs : List α
  printedTrajectories : List (List α)
  cout : List (Output α)
  gen : σ

/-- Everything `price` produces: the returned value, the two reference
parameters, the local vectors at the end of the run, the output stream and the
state of the normal source. -/
structure PriceResult (α σ : Type) where
  value : α
  stddev_price : α
  barrierHits : Int
  payoffs : List α
  printedTrajectories : List (List α)
  cout : List (Output α)
  gen : σ

/-- `GetOneGaussianByBoxMuller` (Random1.cpp).  `rand pos` is the next output of
`rand()`; every attempt of the do-while loop consumes two outputs.  The loop has
no bound in the source; `none` is returned when `fuel` attempts were all
rejected.  The result is the variate and the position after the call. -/
def GetOneGaussianByBoxMuller {α : Type} [DoubleOps α] (RAND_MAX : Nat) (rand : Nat → Nat) :
    Nat → Nat → Option (α × Nat)
  | 0, _ => none
  | fuel + 1, pos =>
    let x : α := ofNat 2 * ofNat (rand pos) / ofNat RAND_MAX - ofNat 1
    let y : α := ofNat 2 * ofNat (rand (pos + 1)) / ofNat RAND_MAX - ofNat 1
    let sizeSquared : α := x * x + y * y
    if ge sizeSquared (ofNat 1) then
      GetOneGaussianByBoxMuller RAND_MAX rand fuel (pos + 2)
    else
      some (x * sqrt (-(ofNat 2) * log sizeSquared / sizeSquared), pos + 2)

/-- The inner loop `for (int t = 0; t < 100; ++t)` of `price` for path `i`:
`remaining` is `100 - t`.  Each iteration draws one normal variate, updates the
spot, records it, and leaves the loop at the first spot `>= b`. -/
def stepLoop {α σ : Type} [DoubleOps α] (p : BarrierOption α) (draw : σ → Option (α × σ))
    (i : Nat) : Nat → Nat → PathState α σ → Option (PathState α σ)
  | 0, _, st => some st
  | remaining + 1, t, st =>
    match draw st.gen with
    | none => none
    | some (thisGaussian, g) =>
      let dt : α := p.T / ofNat 100
      let this_spot : α := st.this_spot *
        exp ((p.r - half * p.sigma * p.sigma) * dt + p.sigma * sqrt dt * thisGaussian)
      let trajectory := st.trajectory ++ [this_spot]
      if ge this_spot p.b then
        some { hitBarrier := true, this_spot := this_spot, trajectory := trajectory,
               cout := if i < 5 then st.cout ++ [Output.barrierReached (i + 1) (t + 1) this_spot]
                       else st.cout,
               gen := g }
      else
        stepLoop p draw i remaining (t + 1)
          { hitBarrier := st.hitBarrier, this_spot := this_spot, trajectory := trajectory,
            cout := st.cout, gen := g }

/-- Body of the outer loop `for (int i = 0; i < nSim; ++i)` of `price`. -/
def pathIter {α σ : Type} [DoubleOps α] (p : BarrierOption α) (draw : σ → Option (α × σ))
    (i : Nat) (st : SimState α σ) : Option (SimState α σ) :=
  match stepLoop p draw i 100 0
      { hitBarrier := false, this_spot := p.S0, trajectory := [], cout := st.cout,
        gen := st.gen } with
  | none => none
  | some ps =>
    let printed := if i < 5 then st.printedTrajectories ++ [ps.trajectory]
                   else st.printedTrajectories
    if ps.hitBarrier = false then
      let this_payoff : α := dmax (ps.this_spot - p.K) (ofNat 0)
      some { running_sum := st.running_sum + this_payoff, barrierHits := st.barrierHits,
             payoffs := st.payoffs ++ [this_payoff], printedTrajectories := printed,
             cout := ps.cout, gen := ps.gen }
    else
      some { running_sum := st.running_sum, barrierHits := st.barrierHits + 1,
             payoffs := st.payoffs, printedTrajectories := printed,
             cout := ps.cout, gen := ps.gen }

/-- The outer loop of `price`: `remaining` is `nSim - i`. -/
def simLoop {α σ : Type} [DoubleOps α] (p : BarrierOption α) (draw : σ → Option (α × σ)) :
    Nat → Nat → SimState α σ → Option (SimState α σ)
  | 0, _, st => some st
  | remaining + 1, i, st =>
    match pathIter p draw i st with
    | none => none
    | some st' => simLoop p draw remaining (i + 1) st'

/-- The lines written by the final printing loop over `printedTrajectories`,
numbered from `start + 1`. -/
def trajectoryLines {α : Type} : Nat → List (List α) → List (Output α)
  | _, [] => []
  | start, tr :: rest => Output.trajectoryLine (start + 1) tr :: trajectoryLines (start + 1) rest

/-- The body of `BarrierOption::price` with the normal source `draw` as a parameter
(the source calls `GetOneGaussianByBoxMuller()`), started in generator state `g`. -/
def BarrierOption.priceWith {α σ : Type} [DoubleOps α] (p : BarrierOption α)
    (draw : σ → Option (α × σ)) (g : σ) : Option (PriceResult α σ) :=
  -- `variance`, `root_variance`, `ito_correction` and `moved_spot` are computed and never used
  let variance : α := p.sigma * p.sigma * p.T
  let root_variance : α := sqrt variance
  let ito_correction : α := -half * variance
  let moved_spot : α := p.S0 * exp (p.r * p.T + ito_correction)
  match simLoop p draw p.nSim.toNat 0
      { running_sum := ofNat 0, barrierHits := 0, payoffs := [], printedTrajectories := [],
        cout := [], gen := g } with
  | none => none
  | some st =>
    let mean : α := st.running_sum / ofNat st.payoffs.length
    let sum_squared_diff : α :=
      st.payoffs.foldl (fun acc payoff => acc + (payoff - mean) * (payoff - mean)) (ofNat 0)
    let variance_price : α := sum_squared_diff / ofNat (size_t_sub st.payoffs.length 1)
    some { value := mean * exp (-p.r * p.T), stddev_price := sqrt variance_price,
           barrierHits := st.barrierHits, payoffs := st.payoffs,
           printedTrajectories := st.printedTrajectories,
           cout := st.cout ++ trajectoryLines 0 st.printedTrajectories, gen := st.gen }

/-- `BarrierOption::price`: `priceWith` with `GetOneGaussianByBoxMuller` as the normal
source; the generator state is the position in the stream of `rand()` outputs. -/
def BarrierOption.price {α : Type} [DoubleOps α] (RAND_MAX : Nat) (rand : Nat → Nat)
    (fuel : Nat) (p : BarrierOption α) (pos : Nat) : Option (PriceResult α Nat) :=
  p.priceWith (GetOneGaussianByBoxMuller RAND_MAX rand fuel) pos

/-- A normal source that hands out the given sequence of draws one by one; its
state is the index of the next draw. -/
def seqDraw {α : Type} (z : Nat → α) : Nat → Option (α × Nat) :=
  fun n => some (z n, n + 1)

/-! ### The unconstrained walk of one path -/

/-- The factor `std::exp((r - 0.5 * sigma * sigma) * dt + sigma * std::sqrt(dt) * thisGaussian)`
applied to the spot in one time step, with `dt = T / 100.0`. -/
def stepFactor {α : Type} [DoubleOps α] (p : BarrierOption α) (thisGaussian : α) : α :=
  exp ((p.r - half * p.sigma * p.sigma) * (p.T / ofNat 100)
    + p.sigma * sqrt (p.T / ofNat 100) * thisGaussian)

/-- The spot after `k` updates of a path that starts at draw number `off` of the
sequence `z`, computed as the source computes it (repeated `this_spot *= ...`),
the barrier test left out. -/
def walk {α : Type} [DoubleOps α] (p : BarrierOption α) (z : Nat → α) (off : Nat) : Nat → α
  | 0 => p.S0
  | k + 1 => walk p z off k * stepFactor p (z (off + k))

/-- Whether one of the steps `k + 1, ..., k + n` of the walk is `>= b`. -/
def breached {α : Type} [DoubleOps α] (p : BarrierOption α) (z : Nat → α) (off : Nat) :
    Nat → Nat → Bool
  | 0, _ => false
  | n + 1, k => if ge (walk p z off (k + 1)) p.b then true else breached p z off n (k + 1)

/-- The step at which the inner loop stops when it still has `n` steps to go after
step `k`: the first step in `k + 1, ..., k + n` whose spot is `>= b`, and `k + n`
when there is none. -/
def stopStep {α : Type} [DoubleOps α] (p : BarrierOption α) (z : Nat → α) (off : Nat) :
    Nat → Nat → Nat
  | 0, k => k
  | n + 1, k => if ge (walk p z off (k + 1)) p.b then k + 1 else stopStep p z off n (k + 1)

/-- The spots visited during the first `m` steps of the walk. -/
def visited {α : Type} [DoubleOps α] (p : BarrierOption α) (z : Nat → α) (off : Nat)
    (m : Nat) : List α :=
  (List.range m).map (fun j => walk p z off (j + 1))

/-- The index of the first draw of path `i` when the run starts at draw `g`: every
earlier path has consumed one draw per step up to its stopping step. -/
def pathStart {α : Type} [DoubleOps α] (p : BarrierOption α) (z : Nat → α) (g : Nat) : Nat → Nat
  | 0 => g
  | i + 1 => pathStart p z g i + stopStep p z (pathStart p z g i) 100 0

/-! ### Exact arithmetic with the IEEE special values -/

/-- A `double` in exact arithmetic: a real number, `+inf`, `-inf` or `NaN`.  Finite
results are not rounded and never leave the range. -/
inductive Dbl where
  | fin (x : ℝ)
  | pinf
  | ninf
  | nan

namespace Dbl

/-- Addition: `inf + (-inf)` is `NaN`. -/
noncomputable def add : Dbl → Dbl → Dbl
  | fin x, fin y => fin (x + y)
  | nan, _ => nan
  | _, nan => nan
  | pinf, ninf => nan
  | ninf, pinf => nan
  | pinf, _ => pinf
  | _, pinf => pinf
  | ninf, _ => ninf
  | _, ninf => ninf

/-- Unary minus. -/
noncomputable def neg : Dbl → Dbl
  | fin x => fin (-x)
  | pinf => ninf
  | ninf => pinf
  | nan => nan

/-- Subtraction `a - b` as `a + (-b)`. -/
noncomputable def sub (a b : Dbl) : Dbl := add a (neg b)

/-- The product of an infinity (`pinf` when `pos`) with the finite number `y`. -/
noncomputable def infTimes (pos : Bool) (y : ℝ) : Dbl :=
  if 0 < y then (if pos then pinf else ninf)
  else if y < 0 then (if pos then ninf else pinf)
  else nan

/-- Multiplication: `0 * inf` is `NaN`. -/
noncomputable def mul : Dbl → Dbl → Dbl
  | fin x, fin y => fin (x * y)
  | nan, _ => nan
  | _, nan => nan
  | pinf, pinf => pinf
  | ninf, ninf => pinf
  | pinf, ninf => ninf
  | ninf, pinf => ninf
  | pinf, fin y => infTimes true y
  | ninf, fin y => infTimes false y
  | fin x, pinf => infTimes true x
  | fin x, ninf => infTimes false x

/-- Division: `0 / 0` and `inf / inf` are `NaN`, `x / 0` is an infinity for `x ≠ 0`
(the zero divisors of the program are conversions of `size_t` values, so `+0`). -/
noncomputable def div : Dbl → Dbl → Dbl
  | fin x, fin y =>
    if y = 0 then (if x = 0 then nan else if 0 < x then pinf else ninf) else fin (x / y)
  | nan, _ => nan
  | _, nan => nan
  | fin _, pinf => fin 0
  | fin _, ninf => fin 0
  | pinf, fin y => if y < 0 then ninf else pinf
  | ninf, fin y => if y < 0 then pinf else ninf
  | pinf, pinf => nan
  | pinf, ninf => nan
  | ninf, pinf => nan
  | ninf, ninf => nan

/-- `std::exp`. -/
noncomputable def exp : Dbl → Dbl
  | fin x => fin (Real.exp x)
  | pinf => pinf
  | ninf => fin 0
  | nan => nan

/-- `std::sqrt`: `NaN` on negative arguments. -/
noncomputable def sqrt : Dbl → Dbl
  | fin x => if x < 0 then nan else fin (Real.sqrt x)
  | pinf => pinf
  | ninf => nan
  | nan => nan

/-- `std::log`: `NaN` on negative arguments, `-inf` at `0`. -/
noncomputable def log : Dbl → Dbl
  | fin x => if x < 0 then nan else if x = 0 then ninf else fin (Real.log x)
  | pinf => pinf
  | ninf => nan
  | nan => nan

/-- `a >= b`: false when an operand is `NaN`. -/
noncomputable def ge : Dbl → Dbl → Bool
  | fin x, fin y => decide (y ≤ x)
  | nan, _ => false
  | _, nan => false
  | pinf, _ => true
  | _, ninf => true
  | fin _, pinf => false
  | ninf, fin _ => false
  | ninf, pinf => false

/-- `a < b`: false when an operand is `NaN`. -/
noncomputable def lt : Dbl → Dbl → Bool
  | fin x, fin y => decide (x < y)
  | nan, _ => false
  | _, nan => false
  | pinf, _ => false
  | _, ninf => false
  | fin _, pinf => true
  | ninf, fin _ => true
  | ninf, pinf => true

end Dbl

noncomputable instance : DoubleOps Dbl where
  add := Dbl.add
  sub := Dbl.sub
  mul := Dbl.mul
  div := Dbl.div
  neg := Dbl.neg
  ofNat := fun n => Dbl.fin n
  half := Dbl.fin (1 / 2)
  exp := Dbl.exp
  sqrt := Dbl.sqrt
  log := Dbl.log
  ge := Dbl.ge
  lt := Dbl.lt

/-- An option whose six `double` members are the given real numbers. -/
def BarrierOption.ofReal (S0 K sigma r T b : ℝ) (nSim : Int) : BarrierOption Dbl :=
  { S0 := Dbl.fin S0, K := Dbl.fin K, sigma := Dbl.fin sigma, r := Dbl.fin r,
    T := Dbl.fin T, b := Dbl.fin b, nSim := nSim }

/-! ### The quantities of the specification, over the reals -/

/-- The exponent of one step: `(r - 0.5*sigma^2)*dt + sigma*sqrt(dt)*z` with `dt = T/100`. -/
noncomputable def logIncrement (sigma r T z : ℝ) : ℝ :=
  (r - 0.5 * sigma ^ 2) * (T / 100) + sigma * Real.sqrt (T / 100) * z

/-- The spot after step `k` as the specification writes it:
`S0 * prod_{i<=k} exp((r - 0.5*sigma^2)*dt + sigma*sqrt(dt)*z_i)`, the draws of the
path being `z off, z (off + 1), ...`. -/
noncomputable def spotAt (S0 sigma r T : ℝ) (z : Nat → ℝ) (off k : Nat) : ℝ :=
  S0 * ∏ i in Finset.range k, Real.exp (logIncrement sigma r T (z (off + i)))

/-! ### The attempts of the rejection loop -/

/-- The value `2.0*rand()/static_cast<double>(RAND_MAX)-1` assigned to `x` (and to `y`)
when `rand()` returns `u`. -/
def uniformOf {α : Type} [DoubleOps α] (RAND_MAX u : Nat) : α :=
  ofNat 2 * ofNat u / ofNat RAND_MAX - ofNat 1

/-- The value `x*x + y*y` of the attempt that reads the outputs number `pos` and `pos + 1`. -/
def sizeSquaredAt {α : Type} [DoubleOps α] (RAND_MAX : Nat) (rand : Nat → Nat) (pos : Nat) : α :=
  uniformOf RAND_MAX (rand pos) * uniformOf RAND_MAX (rand pos)
    + uniformOf RAND_MAX (rand (pos + 1)) * uniformOf RAND_MAX (rand (pos + 1))

/-- The value `x*sqrt(-2*log(sizeSquared)/sizeSquared)` built from the attempt that reads
the outputs number `pos` and `pos + 1`. -/
def boxMullerValue {α : Type} [DoubleOps α] (RAND_MAX : Nat) (rand : Nat → Nat) (pos : Nat) : α :=
  uniformOf RAND_MAX (rand pos)
    * sqrt (-(ofNat 2) * log (sizeSquaredAt RAND_MAX rand pos) / sizeSquaredAt RAND_MAX rand pos)

/-- The real number `2u/RAND_MAX - 1`. -/
noncomputable def uniformR (RAND_MAX u : Nat) : ℝ := 2 * (u : ℝ) / (RAND_MAX : ℝ) - 1

/-- The real number `x^2 + y^2` of the attempt that reads the outputs number `pos` and
`pos + 1`. -/
noncomputable def sizeSquaredR (RAND_MAX : Nat) (rand : Nat → Nat) (pos : Nat) : ℝ :=
  uniformR RAND_MAX (rand pos) ^ 2 + uniformR RAND_MAX (rand (pos + 1)) ^ 2

/-- The paths among the first `n` of a run on the sequence `z` started at draw `g` that are
not knocked out, in simulation order. -/
def survivors {α : Type} [DoubleOps α] (p : BarrierOption α) (z : Nat → α) (g n : Nat) :
    List Nat :=
  (List.range n).filter (fun i => !breached p z (pathStart p z g i) 100 0)

/-- The initial state of the outer loop of `price` when the normal source is in state `g`. -/
def initSim {α σ : Type} [DoubleOps α] (g : σ) : SimState α σ :=
  { running_sum := ofNat 0, barrierHits := 0, payoffs := [], printedTrajectories := [],
    cout := [], gen := g }

/-! ### Updates by one and the same factor -/

/-- The spot after `k` updates by one and the same factor `f`, multiplied one after the
other as the inner loop does: `S0 * f * ... * f`. -/
def constWalk {α : Type} [DoubleOps α] (S0 f : α) : Nat → α
  | 0 => S0
  | k + 1 => constWalk S0 f k * f

/-! ### Exact arithmetic with the range of binary64 -/

/-- The result of an operation brought into the range of binary64: a real result of
magnitude `2^1024` or more overflows to an infinity, and one of magnitude at most
`2^(-1075)` (half the smallest subnormal) underflows to `0`. -/
noncomputable def Dbl.clip : Dbl → Dbl
  | Dbl.fin x =>
    if (2 : ℝ) ^ 1024 ≤ x then Dbl.pinf
    else if x ≤ -(2 : ℝ) ^ 1024 then Dbl.ninf
    else if -(1 / (2 : ℝ) ^ 1075) ≤ x ∧ x ≤ 1 / (2 : ℝ) ^ 1075 then Dbl.fin 0
    else Dbl.fin x
  | Dbl.pinf => Dbl.pinf
  | Dbl.ninf => Dbl.ninf
  | Dbl.nan => Dbl.nan

/-- A `double` in exact arithmetic with overflow and underflow: the operations are those
of `Dbl`, each result brought into the range of binary64 by `Dbl.clip` (there is no
rounding otherwise). -/
structure DblRange where
  val : Dbl

noncomputable instance : DoubleOps DblRange where
  add := fun a b => ⟨Dbl.clip (Dbl.add a.val b.val)⟩
  sub := fun a b => ⟨Dbl.clip (Dbl.sub a.val b.val)⟩
  mul := fun a b => ⟨Dbl.clip (Dbl.mul a.val b.val)⟩
  div := fun a b => ⟨Dbl.clip (Dbl.div a.val b.val)⟩
  neg := fun a => ⟨Dbl.neg a.val⟩
  ofNat := fun n => ⟨Dbl.clip (Dbl.fin n)⟩
  half := ⟨Dbl.fin (1 / 2)⟩
  exp := fun a => ⟨Dbl.clip (Dbl.exp a.val)⟩
  sqrt := fun a => ⟨Dbl.clip (Dbl.sqrt a.val)⟩
  log := fun a => ⟨Dbl.clip (Dbl.log a.val)⟩
  ge := fun a b => Dbl.ge a.val b.val
  lt := fun a b => Dbl.lt a.val b.val

/-- An option whose members are the given real numbers and the barrier `b`, in the
arithmetic with the range of binary64. -/
def BarrierOption.ofRange (S0 K sigma r T : ℝ) (b : Dbl) (nSim : Int) :
    BarrierOption DblRange :=
  { S0 := ⟨Dbl.fin S0⟩, K := ⟨Dbl.fin K⟩, sigma := ⟨Dbl.fin sigma⟩, r := ⟨Dbl.fin r⟩,
    T := ⟨Dbl.fin T⟩, b := ⟨b⟩, nSim := nSim }

/-! ## Theorems -/

/-! ### Arithmetic of `Dbl` -/

namespace Dbl

@[simp] theorem add_def (a b : Dbl) : a + b = Dbl.add a b := rfl

@[simp] theorem sub_def (a b : Dbl) : a - b = Dbl.add a (Dbl.neg b) := rfl

@[simp] theorem mul_def (a b : Dbl) : a * b = Dbl.mul a b := rfl

@[simp] theorem div_def (a b : Dbl) : a / b = Dbl.div a b := rfl

@[simp] theorem neg_def (a : Dbl) : -a = Dbl.neg a := rfl

@[simp] theorem ofNat_def (n : Nat) : (DoubleOps.ofNat n : Dbl) = fin n := rfl

@[simp] theorem half_def : (DoubleOps.half : Dbl) = fin (1 / 2) := rfl

@[simp] theorem exp_def (a : Dbl) : DoubleOps.exp a = Dbl.exp a := rfl

@[simp] theorem sqrt_def (a : Dbl) : DoubleOps.sqrt a = Dbl.sqrt a := rfl

@[simp] theorem log_def (a : Dbl) : DoubleOps.log a = Dbl.log a := rfl

@[simp] theorem ge_def (a b : Dbl) : DoubleOps.ge a b = Dbl.ge a b := rfl

@[simp] theorem lt_def (a b : Dbl) : DoubleOps.lt a b = Dbl.lt a b := rfl

@[simp] theorem add_fin (x y : ℝ) : Dbl.add (fin x) (fin y) = fin (x + y) := rfl

@[simp] theorem neg_fin (x : ℝ) : Dbl.neg (fin x) = fin (-x) := rfl

@[simp] theorem mul_fin (x y : ℝ) : Dbl.mul (fin x) (fin y) = fin (x * y) := rfl

@[simp] theorem exp_fin (x : ℝ) : Dbl.exp (fin x) = fin (Real.exp x) := rfl

@[simp] theorem ge_fin (x y : ℝ) : Dbl.ge (fin x) (fin y) = decide (y ≤ x) := rfl

@[simp] theorem lt_fin (x y : ℝ) : Dbl.lt (fin x) (fin y) = decide (x < y) := rfl

@[simp] theorem nan_add (a : Dbl) : Dbl.add nan a = nan := by cases a <;> rfl

@[simp] theorem add_nan (a : Dbl) : Dbl.add a nan = nan := by cases a <;> rfl

@[simp] theorem nan_mul (a : Dbl) : Dbl.mul nan a = nan := by cases a <;> rfl

@[simp] theorem mul_nan (a : Dbl) : Dbl.mul a nan = nan := by cases a <;> rfl

@[simp] theorem nan_div (a : Dbl) : Dbl.div nan a = nan := by cases a <;> rfl

@[simp] theorem div_nan (a : Dbl) : Dbl.div a nan = nan := by cases a <;> rfl

@[simp] theorem neg_nan : Dbl.neg nan = nan := rfl

@[simp] theorem exp_nan : Dbl.exp nan = nan := rfl

@[simp] theorem sqrt_nan : Dbl.sqrt nan = nan := rfl

@[simp] theorem ge_nan_left (a : Dbl) : Dbl.ge nan a = false := by cases a <;> rfl

@[simp] theorem ge_nan_right (a : Dbl) : Dbl.ge a nan = false := by cases a <;> rfl

theorem div_fin (x y : ℝ) (hy : y ≠ 0) : Dbl.div (fin x) (fin y) = fin (x / y) := by
  simp [Dbl.div, hy]

@[simp] theorem zero_div_zero : Dbl.div (fin 0) (fin 0) = nan := by
  simp [Dbl.div]

theorem sqrt_fin (x : ℝ) (hx : 0 ≤ x) : Dbl.sqrt (fin x) = fin (Real.sqrt x) := by
  simp [Dbl.sqrt, not_lt.mpr hx]

theorem sqrt_fin_neg (x : ℝ) (hx : x < 0) : Dbl.sqrt (fin x) = nan := by
  simp [Dbl.sqrt, hx]

theorem log_fin (x : ℝ) (hx : 0 < x) : Dbl.log (fin x) = fin (Real.log x) := by
  simp [Dbl.log, not_lt.mpr hx.le, hx.ne']

end Dbl

/-! ### One path on a sequence of draws -/

section Generic

variable {α : Type} [DoubleOps α]

theorem visited_succ (p : BarrierOption α) (z : Nat → α) (off m : Nat) :
    visited p z off (m + 1) = visited p z off m ++ [walk p z off (m + 1)] := by
  simp [visited, List.range_succ]

theorem visited_length (p : BarrierOption α) (z : Nat → α) (off m : Nat) :
    (visited p z off m).length = m := by
  simp [visited]

/-- One iteration of the inner loop, for any normal source. -/
theorem stepLoop_succ {σ : Type} (p : BarrierOption α) (draw : σ → Option (α × σ))
    (i n t : Nat) (st : PathState α σ) (v : α) (g : σ) (hd : draw st.gen = some (v, g)) :
    stepLoop p draw i (n + 1) t st =
      if ge (st.this_spot * stepFactor p v) p.b then
        some { hitBarrier := true, this_spot := st.this_spot * stepFactor p v,
               trajectory := st.trajectory ++ [st.this_spot * stepFactor p v],
               cout := if i < 5 then
                   st.cout ++ [Output.barrierReached (i + 1) (t + 1)
                     (st.this_spot * stepFactor p v)]
                 else st.cout,
               gen := g }
      else
        stepLoop p draw i n (t + 1)
          { hitBarrier := st.hitBarrier, this_spot := st.this_spot * stepFactor p v,
            trajectory := st.trajectory ++ [st.this_spot * stepFactor p v],
            cout := st.cout, gen := g } := by
  simp only [stepLoop, hd]
  rfl

/-- The inner loop on a sequence of draws, in closed form: it stops at `stopStep`,
has visited the walk up to there, and has consumed one draw per step. -/
theorem stepLoop_seq (p : BarrierOption α) (z : Nat → α) (i off : Nat) :
    ∀ (n k : Nat) (c : List (Output α)),
      stepLoop p (seqDraw z) i n k
        { hitBarrier := false, this_spot := walk p z off k, trajectory := visited p z off k,
          cout := c, gen := off + k }
      = some { hitBarrier := breached p z off n k,
               this_spot := walk p z off (stopStep p z off n k),
               trajectory := visited p z off (stopStep p z off n k),
               cout := if breached p z off n k = true ∧ i < 5 then
                         c ++ [Output.barrierReached (i + 1) (stopStep p z off n k)
                                (walk p z off (stopStep p z off n k))]
                       else c,
               gen := off + stopStep p z off n k } := by
  intro n
  induction n with
  | zero => intro k c; simp [stepLoop, breached, stopStep]
  | succ n ih =>
    intro k c
    have hw : walk p z off k * exp ((p.r - half * p.sigma * p.sigma) * (p.T / ofNat 100)
        + p.sigma * sqrt (p.T / ofNat 100) * z (off + k)) = walk p z off (k + 1) := rfl
    simp only [stepLoop, seqDraw, breached, stopStep, hw]
    by_cases h : ge (walk p z off (k + 1)) p.b = true
    · simp [h, visited_succ, Nat.add_assoc]
    · simp only [h, if_false]
      have := ih (k + 1) c
      rw [visited_succ, ← Nat.add_assoc] at this
      simpa using this

theorem stopStep_le (p : BarrierOption α) (z : Nat → α) (off : Nat) :
    ∀ n k, stopStep p z off n k ≤ k + n := by
  intro n
  induction n with
  | zero => intro k; simp [stopStep]
  | succ n ih =>
    intro k
    simp only [stopStep]
    split
    · omega
    · have := ih (k + 1); omega

/-- Before the stopping step no visited spot is `>= b`. -/
theorem no_breach_before_stop (p : BarrierOption α) (z : Nat → α) (off : Nat) :
    ∀ n k j, k < j → j < stopStep p z off n k → ge (walk p z off j) p.b = false := by
  intro n
  induction n with
  | zero => intro k j h1 h2; simp [stopStep] at h2; omega
  | succ n ih =>
    intro k j h1 h2
    simp only [stopStep] at h2
    split at h2
    · omega
    · rename_i h
      by_cases hj : j = k + 1
      · subst hj; simpa using h
      · exact ih (k + 1) j (by omega) h2

/-- A breach stops the loop at a step whose spot is `>= b`. -/
theorem breached_true (p : BarrierOption α) (z : Nat → α) (off : Nat) :
    ∀ n k, breached p z off n k = true →
      k < stopStep p z off n k ∧ ge (walk p z off (stopStep p z off n k)) p.b = true := by
  intro n
  induction n with
  | zero => intro k h; simp [breached] at h
  | succ n ih =>
    intro k h
    simp only [breached, stopStep] at h ⊢
    split
    · rename_i hb; exact ⟨by omega, hb⟩
    · rename_i hb
      simp only [hb, if_false] at h
      have := ih (k + 1) h
      exact ⟨by omega, this.2⟩

/-- Without a breach the loop runs all its steps and none of the spots is `>= b`. -/
theorem breached_false (p : BarrierOption α) (z : Nat → α) (off : Nat) :
    ∀ n k, breached p z off n k = false →
      stopStep p z off n k = k + n ∧
        ∀ j, k < j → j ≤ k + n → ge (walk p z off j) p.b = false := by
  intro n
  induction n with
  | zero => intro k _; exact ⟨by simp [stopStep], fun j h1 h2 => by omega⟩
  | succ n ih =>
    intro k h
    simp only [breached, stopStep] at h ⊢
    split
    · rename_i hb; simp [hb] at h
    · rename_i hb
      simp only [hb, if_false] at h
      obtain ⟨h1, h2⟩ := ih (k + 1) h
      refine ⟨by omega, fun j hj1 hj2 => ?_⟩
      by_cases hj : j = k + 1
      · subst hj; simpa using hb
      · exact h2 j (by omega) (by omega)

/-- A breach happens exactly when some spot among the steps is `>= b`. -/
theorem breached_iff (p : BarrierOption α) (z : Nat → α) (off n k : Nat) :
    breached p z off n k = true ↔
      ∃ j, k < j ∧ j ≤ k + n ∧ ge (walk p z off j) p.b = true := by
  constructor
  · intro h
    obtain ⟨h1, h2⟩ := breached_true p z off n k h
    exact ⟨_, h1, stopStep_le p z off n k, h2⟩
  · rintro ⟨j, h1, h2, h3⟩
    by_contra hb
    have hb : breached p z off n k = false := by simpa using hb
    have := (breached_false p z off n k hb).2 j h1 h2
    simp [this] at h3

/-! ### The simulation loop -/

/-- One iteration of the outer loop on a sequence of draws, in closed form. -/
theorem pathIter_seq (p : BarrierOption α) (z : Nat → α) (i : Nat) (st : SimState α Nat) :
    pathIter p (seqDraw z) i st =
      some
        (if breached p z st.gen 100 0 = false then
          { running_sum := st.running_sum
              + dmax (walk p z st.gen (stopStep p z st.gen 100 0) - p.K) (ofNat 0),
            barrierHits := st.barrierHits,
            payoffs := st.payoffs
              ++ [dmax (walk p z st.gen (stopStep p z st.gen 100 0) - p.K) (ofNat 0)],
            printedTrajectories :=
              if i < 5 then
                st.printedTrajectories ++ [visited p z st.gen (stopStep p z st.gen 100 0)]
              else st.printedTrajectories,
            cout := st.cout,
            gen := st.gen + stopStep p z st.gen 100 0 }
        else
          { running_sum := st.running_sum,
            barrierHits := st.barrierHits + 1,
            payoffs := st.payoffs,
            printedTrajectories :=
              if i < 5 then
                st.printedTrajectories ++ [visited p z st.gen (stopStep p z st.gen 100 0)]
              else st.printedTrajectories,
            cout :=
              if i < 5 then
                st.cout ++ [Output.barrierReached (i + 1) (stopStep p z st.gen 100 0)
                  (walk p z st.gen (stopStep p z st.gen 100 0))]
              else st.cout,
            gen := st.gen + stopStep p z st.gen 100 0 }) := by
  have h := stepLoop_seq p z i st.gen 100 0 st.cout
  have h0 : walk p z st.gen 0 = p.S0 := rfl
  have h1 : visited p z st.gen 0 = [] := rfl
  rw [h0, h1, Nat.add_zero] at h
  unfold pathIter
  rw [h]
  by_cases hb : breached p z st.gen 100 0 = false
  · simp [hb]
  · have hb' : breached p z st.gen 100 0 = true := by simpa using hb
    simp [hb']

/-- Every iteration of the outer loop counts its path exactly once, whatever the
normal source: either one more barrier hit or one more stored payoff. -/
theorem pathIter_count {σ : Type} (p : BarrierOption α) (draw : σ → Option (α × σ)) (i : Nat)
    (st st' : SimState α σ) (h : pathIter p draw i st = some st') :
    (st'.barrierHits = st.barrierHits + 1 ∧ st'.payoffs = st.payoffs) ∨
    (st'.barrierHits = st.barrierHits ∧ ∃ x, st'.payoffs = st.payoffs ++ [x]) := by
  unfold pathIter at h
  split at h
  · simp at h
  · rename_i ps _
    by_cases hb : ps.hitBarrier = false
    · rw [if_pos hb, Option.some.injEq] at h
      subst h
      exact Or.inr ⟨rfl, _, rfl⟩
    · rw [if_neg hb, Option.some.injEq] at h
      subst h
      exact Or.inl ⟨rfl, rfl⟩

/-- The running sum is the left-to-right sum of the stored payoffs. -/
theorem pathIter_running_sum {σ : Type} (p : BarrierOption α) (draw : σ → Option (α × σ))
    (i : Nat) (st st' : SimState α σ) (h : pathIter p draw i st = some st')
    (hs : st.running_sum = st.payoffs.foldl (fun a x => a + x) (ofNat 0)) :
    st'.running_sum = st'.payoffs.foldl (fun a x => a + x) (ofNat 0) := by
  unfold pathIter at h
  split at h
  · simp at h
  · rename_i ps _
    by_cases hb : ps.hitBarrier = false
    · rw [if_pos hb, Option.some.injEq] at h
      subst h
      simp [List.foldl_append, hs]
    · rw [if_neg hb, Option.some.injEq] at h
      subst h
      exact hs

theorem simLoop_count {σ : Type} (p : BarrierOption α) (draw : σ → Option (α × σ)) :
    ∀ (n i : Nat) (st st' : SimState α σ), simLoop p draw n i st = some st' →
      st'.barrierHits + st'.payoffs.length = st.barrierHits + st.payoffs.length + n := by
  intro n
  induction n with
  | zero =>
    intro i st st' h
    simp only [simLoop, Option.some.injEq] at h
    subst h; simp
  | succ n ih =>
    intro i st st' h
    simp only [simLoop] at h
    split at h
    · simp at h
    · rename_i st1 h1
      have h2 := ih (i + 1) st1 st' h
      rcases pathIter_count p draw i st st1 h1 with ⟨ha, hb⟩ | ⟨ha, x, hb⟩
      · rw [h2, ha, hb]; push_cast; ring
      · rw [h2, ha, hb]; simp only [List.length_append, List.length_singleton]; push_cast; ring

theorem simLoop_running_sum {σ : Type} (p : BarrierOption α) (draw : σ → Option (α × σ)) :
    ∀ (n i : Nat) (st st' : SimState α σ), simLoop p draw n i st = some st' →
      st.running_sum = st.payoffs.foldl (fun a x => a + x) (ofNat 0) →
      st'.running_sum = st'.payoffs.foldl (fun a x => a + x) (ofNat 0) := by
  intro n
  induction n with
  | zero =>
    intro i st st' h hs
    simp only [simLoop, Option.some.injEq] at h
    subst h; exact hs
  | succ n ih =>
    intro i st st' h hs
    simp only [simLoop] at h
    split at h
    · simp at h
    · rename_i st1 h1
      exact ih (i + 1) st1 st' h (pathIter_running_sum p draw i st st1 h1 hs)

/-- On a sequence of draws the outer loop always runs to its end. -/
theorem simLoop_seq_some (p : BarrierOption α) (z : Nat → α) :
    ∀ (n i : Nat) (st : SimState α Nat), ∃ st', simLoop p (seqDraw z) n i st = some st' := by
  intro n
  induction n with
  | zero => intro i st; exact ⟨st, rfl⟩
  | succ n ih =>
    intro i st
    simp only [simLoop, pathIter_seq]
    exact ih (i + 1) _

theorem simLoop_hits_mono {σ : Type} (p : BarrierOption α) (draw : σ → Option (α × σ)) :
    ∀ (n i : Nat) (st st' : SimState α σ), simLoop p draw n i st = some st' →
      st.barrierHits ≤ st'.barrierHits := by
  intro n
  induction n with
  | zero =>
    intro i st st' h
    simp only [simLoop, Option.some.injEq] at h
    subst h; exact le_refl _
  | succ n ih =>
    intro i st st' h
    simp only [simLoop] at h
    split at h
    · simp at h
    · rename_i st1 h1
      have h2 := ih (i + 1) st1 st' h
      rcases pathIter_count p draw i st st1 h1 with ⟨ha, -⟩ | ⟨ha, -⟩ <;> omega

/-- The initial state of the outer loop. -/
theorem priceWith_eq {σ : Type} (p : BarrierOption α) (draw : σ → Option (α × σ)) (g : σ)
    (res : PriceResult α σ) (h : p.priceWith draw g = some res) :
    ∃ st, simLoop p draw p.nSim.toNat 0
        { running_sum := ofNat 0, barrierHits := 0, payoffs := [], printedTrajectories := [],
          cout := [], gen := g } = some st ∧
      res.value = st.running_sum / ofNat st.payoffs.length * exp (-p.r * p.T) ∧
      res.stddev_price = sqrt (st.payoffs.foldl
          (fun acc payoff => acc + (payoff - st.running_sum / ofNat st.payoffs.length)
            * (payoff - st.running_sum / ofNat st.payoffs.length)) (ofNat 0)
          / ofNat (size_t_sub st.payoffs.length 1)) ∧
      res.barrierHits = st.barrierHits ∧ res.payoffs = st.payoffs ∧
      res.printedTrajectories = st.printedTrajectories ∧
      res.cout = st.cout ++ trajectoryLines 0 st.printedTrajectories ∧ res.gen = st.gen := by
  unfold BarrierOption.priceWith at h
  simp only at h
  split at h
  · simp at h
  · rename_i st hst
    simp only [Option.some.injEq] at h
    subst h
    exact ⟨st, hst, rfl, rfl, rfl, rfl, rfl, rfl, rfl⟩

theorem priceWith_seq_some (p : BarrierOption α) (z : Nat → α) (g : Nat) :
    ∃ res, p.priceWith (seqDraw z) g = some res := by
  obtain ⟨st, hst⟩ := simLoop_seq_some p z p.nSim.toNat 0
    { running_sum := ofNat 0, barrierHits := 0, payoffs := [], printedTrajectories := [],
      cout := [], gen := g }
  unfold BarrierOption.priceWith
  simp only [hst]
  exact ⟨_, rfl⟩

/-- Counting of the paths by `priceWith`, for every normal source. -/
theorem priceWith_count {σ : Type} (p : BarrierOption α) (draw : σ → Option (α × σ)) (g : σ)
    (res : PriceResult α σ) (h : p.priceWith draw g = some res) :
    res.barrierHits + res.payoffs.length = p.nSim.toNat := by
  obtain ⟨st, hst, -, -, hb, hp, -⟩ := priceWith_eq p draw g res h
  have := simLoop_count p draw _ _ _ _ hst
  rw [hb, hp, this]
  simp

/-- The hit counter returned by `priceWith` is not negative. -/
theorem priceWith_hits_nonneg {σ : Type} (p : BarrierOption α) (draw : σ → Option (α × σ))
    (g : σ) (res : PriceResult α σ) (h : p.priceWith draw g = some res) :
    0 ≤ res.barrierHits := by
  obtain ⟨st, hst, -, -, hb, -⟩ := priceWith_eq p draw g res h
  have := simLoop_hits_mono p draw _ _ _ _ hst
  rw [hb]
  exact this

/-- The mean used by `priceWith` is the left-to-right sum of the payoffs over their number. -/
theorem priceWith_value {σ : Type} (p : BarrierOption α) (draw : σ → Option (α × σ)) (g : σ)
    (res : PriceResult α σ) (h : p.priceWith draw g = some res) :
    res.value = res.payoffs.foldl (fun a x => a + x) (ofNat 0) / ofNat res.payoffs.length
      * exp (-p.r * p.T) ∧
    res.stddev_price = sqrt (res.payoffs.foldl
        (fun acc payoff =>
          acc + (payoff - res.payoffs.foldl (fun a x => a + x) (ofNat 0) / ofNat res.payoffs.length)
            * (payoff - res.payoffs.foldl (fun a x => a + x) (ofNat 0)
                / ofNat res.payoffs.length)) (ofNat 0)
        / ofNat (size_t_sub res.payoffs.length 1)) := by
  obtain ⟨st, hst, hv, hs, -, hp, -⟩ := priceWith_eq p draw g res h
  have hr := simLoop_running_sum p draw _ _ _ _ hst rfl
  rw [hv, hs, hp, hr]
  exact ⟨rfl, rfl⟩

end Generic

/-! ### Dependence on the generator outputs -/

section Determinism

variable {α : Type} [DoubleOps α]

/-- A call of the Box-Muller routine consumes at least two generator outputs. -/
theorem boxMuller_pos_le (RAND_MAX : Nat) (rand : Nat → Nat) :
    ∀ (fuel pos : Nat) (v : α) (pos' : Nat),
      GetOneGaussianByBoxMuller RAND_MAX rand fuel pos = some (v, pos') → pos + 2 ≤ pos' := by
  intro fuel
  induction fuel with
  | zero => intro pos v pos' h; simp [GetOneGaussianByBoxMuller] at h
  | succ fuel ih =>
    intro pos v pos' h
    simp only [GetOneGaussianByBoxMuller] at h
    split at h
    · have := ih (pos + 2) v pos' h; omega
    · simp only [Option.some.injEq, Prod.mk.injEq] at h; omega

/-- The result of a call depends only on the outputs it consumes, and more fuel
does not change it. -/
theorem boxMuller_congr (RAND_MAX : Nat) (rand rand' : Nat → Nat) :
    ∀ (fuel fuel' pos : Nat) (v : α) (pos' : Nat), fuel ≤ fuel' →
      GetOneGaussianByBoxMuller RAND_MAX rand fuel pos = some (v, pos') →
      (∀ n, pos ≤ n → n < pos' → rand' n = rand n) →
      GetOneGaussianByBoxMuller RAND_MAX rand' fuel' pos = some (v, pos') := by
  intro fuel
  induction fuel with
  | zero => intro fuel' pos v pos' _ h; simp [GetOneGaussianByBoxMuller] at h
  | succ fuel ih =>
    intro fuel' pos v pos' hf h hag
    obtain ⟨f, rfl⟩ : ∃ f, fuel' = f + 1 := ⟨fuel' - 1, by omega⟩
    have hle := boxMuller_pos_le RAND_MAX rand (fuel + 1) pos v pos' h
    have h0 : rand' pos = rand pos := hag pos (le_refl _) (by omega)
    have h1 : rand' (pos + 1) = rand (pos + 1) := hag (pos + 1) (by omega) (by omega)
    simp only [GetOneGaussianByBoxMuller] at h ⊢
    rw [h0, h1]
    split at h
    · rename_i hrej
      rw [if_pos hrej]
      exact ih f (pos + 2) v pos' (by omega) h (fun n hn1 hn2 => hag n (by omega) hn2)
    · rename_i hacc
      rw [if_neg hacc]
      exact h

theorem stepLoop_gen_le (RAND_MAX : Nat) (rand : Nat → Nat) (fuel : Nat) (p : BarrierOption α)
    (i : Nat) :
    ∀ (n t : Nat) (st ps : PathState α Nat),
      stepLoop p (GetOneGaussianByBoxMuller RAND_MAX rand fuel) i n t st = some ps →
      st.gen ≤ ps.gen := by
  intro n
  induction n with
  | zero =>
    intro t st ps h
    simp only [stepLoop, Option.some.injEq] at h
    subst h; exact le_refl _
  | succ n ih =>
    intro t st ps h
    simp only [stepLoop] at h
    split at h
    · simp at h
    · rename_i v g hd
      have hle := boxMuller_pos_le RAND_MAX rand fuel st.gen v g hd
      split at h
      · simp only [Option.some.injEq] at h
        subst h; simp only; omega
      · have := ih _ _ _ h
        simp only at this; omega

theorem stepLoop_congr (RAND_MAX : Nat) (rand rand' : Nat → Nat) (fuel fuel' : Nat)
    (hf : fuel ≤ fuel') (p : BarrierOption α) (i : Nat) :
    ∀ (n t : Nat) (st ps : PathState α Nat),
      stepLoop p (GetOneGaussianByBoxMuller RAND_MAX rand fuel) i n t st = some ps →
      (∀ m, st.gen ≤ m → m < ps.gen → rand' m = rand m) →
      stepLoop p (GetOneGaussianByBoxMuller RAND_MAX rand' fuel') i n t st = some ps := by
  intro n
  induction n with
  | zero => intro t st ps h _; simpa [stepLoop] using h
  | succ n ih =>
    intro t st ps h hag
    simp only [stepLoop] at h ⊢
    split at h
    · simp at h
    · rename_i v g hd
      have hle := boxMuller_pos_le RAND_MAX rand fuel st.gen v g hd
      have hg : g ≤ ps.gen := by
        split at h
        · simp only [Option.some.injEq] at h
          subst h; exact le_refl _
        · have := stepLoop_gen_le RAND_MAX rand fuel p i _ _ _ _ h
          simpa using this
      rw [boxMuller_congr RAND_MAX rand rand' fuel fuel' st.gen v g hf hd
        (fun m h1 h2 => hag m h1 (by omega))]
      simp only
      split at h
      · rename_i hb
        rw [if_pos hb]; exact h
      · rename_i hb
        rw [if_neg hb]
        exact ih _ _ _ h (fun m h1 h2 => hag m (by simp only at h1; omega) h2)

/-- The generator state after an iteration of the outer loop is the one the inner
loop left. -/
theorem pathIter_gen {σ : Type} (p : BarrierOption α) (draw : σ → Option (α × σ)) (i : Nat)
    (st st' : SimState α σ) (h : pathIter p draw i st = some st') :
    ∃ ps, stepLoop p draw i 100 0
        { hitBarrier := false, this_spot := p.S0, trajectory := [], cout := st.cout,
          gen := st.gen } = some ps ∧ st'.gen = ps.gen := by
  unfold pathIter at h
  split at h
  · simp at h
  · rename_i ps hps
    refine ⟨ps, hps, ?_⟩
    by_cases hb : ps.hitBarrier = false
    · rw [if_pos hb, Option.some.injEq] at h
      subst h; rfl
    · rw [if_neg hb, Option.some.injEq] at h
      subst h; rfl

theorem pathIter_gen_le (RAND_MAX : Nat) (rand : Nat → Nat) (fuel : Nat) (p : BarrierOption α)
    (i : Nat) (st st' : SimState α Nat)
    (h : pathIter p (GetOneGaussianByBoxMuller RAND_MAX rand fuel) i st = some st') :
    st.gen ≤ st'.gen := by
  obtain ⟨ps, hps, hg⟩ := pathIter_gen p _ i st st' h
  have := stepLoop_gen_le RAND_MAX rand fuel p i _ _ _ _ hps
  simp only at this
  omega

theorem pathIter_congr (RAND_MAX : Nat) (rand rand' : Nat → Nat) (fuel fuel' : Nat)
    (hf : fuel ≤ fuel') (p : BarrierOption α) (i : Nat) (st st' : SimState α Nat)
    (h : pathIter p (GetOneGaussianByBoxMuller RAND_MAX rand fuel) i st = some st')
    (hag : ∀ m, st.gen ≤ m → m < st'.gen → rand' m = rand m) :
    pathIter p (GetOneGaussianByBoxMuller RAND_MAX rand' fuel') i st = some st' := by
  obtain ⟨ps, hps, hg⟩ := pathIter_gen p _ i st st' h
  have hps' := stepLoop_congr RAND_MAX rand rand' fuel fuel' hf p i _ _ _ _ hps
    (fun m h1 h2 => hag m h1 (by omega))
  unfold pathIter at h ⊢
  rw [hps] at h
  rw [hps']
  exact h

theorem simLoop_gen_le (RAND_MAX : Nat) (rand : Nat → Nat) (fuel : Nat) (p : BarrierOption α) :
    ∀ (n i : Nat) (st st' : SimState α Nat),
      simLoop p (GetOneGaussianByBoxMuller RAND_MAX rand fuel) n i st = some st' →
      st.gen ≤ st'.gen := by
  intro n
  induction n with
  | zero =>
    intro i st st' h
    simp only [simLoop, Option.some.injEq] at h
    subst h; exact le_refl _
  | succ n ih =>
    intro i st st' h
    simp only [simLoop] at h
    split at h
    · simp at h
    · rename_i st1 h1
      have := pathIter_gen_le RAND_MAX rand fuel p i st st1 h1
      have := ih _ _ _ h
      omega

theorem simLoop_congr (RAND_MAX : Nat) (rand rand' : Nat → Nat) (fuel fuel' : Nat)
    (hf : fuel ≤ fuel') (p : BarrierOption α) :
    ∀ (n i : Nat) (st st' : SimState α Nat),
      simLoop p (GetOneGaussianByBoxMuller RAND_MAX rand fuel) n i st = some st' →
      (∀ m, st.gen ≤ m → m < st'.gen → rand' m = rand m) →
      simLoop p (GetOneGaussianByBoxMuller RAND_MAX rand' fuel') n i st = some st' := by
  intro n
  induction n with
  | zero => intro i st st' h _; simpa [simLoop] using h
  | succ n ih =>
    intro i st st' h hag
    simp only [simLoop] at h ⊢
    split at h
    · simp at h
    · rename_i st1 h1
      have hle1 := pathIter_gen_le RAND_MAX rand fuel p i st st1 h1
      have hle2 := simLoop_gen_le RAND_MAX rand fuel p _ _ _ _ h
      rw [pathIter_congr RAND_MAX rand rand' fuel fuel' hf p i st st1 h1
        (fun m h2 h3 => hag m h2 (by omega))]
      exact ih _ _ _ h (fun m h2 h3 => hag m (by omega) h3)

/-- The result of `price` depends only on the generator outputs the run consumes. -/
theorem price_congr (RAND_MAX : Nat) (rand rand' : Nat → Nat) (fuel fuel' : Nat)
    (hf : fuel ≤ fuel') (p : BarrierOption α) (pos : Nat) (res : PriceResult α Nat)
    (h : p.price RAND_MAX rand fuel pos = some res)
    (hag : ∀ m, pos ≤ m → m < res.gen → rand' m = rand m) :
    p.price RAND_MAX rand' fuel' pos = some res ∧ pos ≤ res.gen := by
  obtain ⟨st, hst, -, -, -, -, -, -, hg⟩ := priceWith_eq p _ pos res h
  have hle := simLoop_gen_le RAND_MAX rand fuel p _ _ _ _ hst
  simp only at hle
  have hst' := simLoop_congr RAND_MAX rand rand' fuel fuel' hf p _ _ _ _ hst
    (fun m h1 h2 => hag m h1 (by omega))
  refine ⟨?_, by omega⟩
  unfold BarrierOption.price BarrierOption.priceWith at h ⊢
  simp only [hst, hst'] at h ⊢
  exact h

end Determinism

/-! ### The walk in exact arithmetic -/

theorem stepFactor_fin (S0 K sigma r T b : ℝ) (nSim : Int) (hT : 0 ≤ T) (x : ℝ) :
    stepFactor (BarrierOption.ofReal S0 K sigma r T b nSim) (Dbl.fin x)
      = Dbl.fin (Real.exp (logIncrement sigma r T x)) := by
  have h100 : ((100 : Nat) : ℝ) ≠ 0 := by norm_num
  have hdt : (0 : ℝ) ≤ T / ((100 : Nat) : ℝ) := by positivity
  simp only [stepFactor, BarrierOption.ofReal, Dbl.ofNat_def, Dbl.half_def, Dbl.div_def,
    Dbl.mul_def, Dbl.sub_def, Dbl.add_def, Dbl.exp_def, Dbl.sqrt_def, Dbl.div_fin _ _ h100,
    Dbl.sqrt_fin _ hdt, Dbl.mul_fin, Dbl.neg_fin, Dbl.add_fin, Dbl.exp_fin, logIncrement]
  congr 2
  rw [show (0.5 : ℝ) = 1 / 2 by norm_num, Nat.cast_ofNat]
  ring

theorem spotAt_zero (S0 sigma r T : ℝ) (z : Nat → ℝ) (off : Nat) :
    spotAt S0 sigma r T z off 0 = S0 := by
  simp [spotAt]

theorem spotAt_succ (S0 sigma r T : ℝ) (z : Nat → ℝ) (off k : Nat) :
    spotAt S0 sigma r T z off (k + 1)
      = spotAt S0 sigma r T z off k * Real.exp (logIncrement sigma r T (z (off + k))) := by
  simp [spotAt, Finset.prod_range_succ, mul_assoc]

/-- The repeated multiplicative update equals one exponential of the summed increments. -/
theorem spotAt_eq_exp_sum (S0 sigma r T : ℝ) (z : Nat → ℝ) (off k : Nat) :
    spotAt S0 sigma r T z off k
      = S0 * Real.exp (∑ i in Finset.range k, logIncrement sigma r T (z (off + i))) := by
  simp [spotAt, Real.exp_sum]

/-- With real parameters, `T >= 0` and real draws, the walk of the program is the
spot of the specification. -/
theorem walk_fin (S0 K sigma r T b : ℝ) (nSim : Int) (hT : 0 ≤ T) (z : Nat → ℝ) (off : Nat) :
    ∀ k, walk (BarrierOption.ofReal S0 K sigma r T b nSim) (fun n => Dbl.fin (z n)) off k
      = Dbl.fin (spotAt S0 sigma r T z off k) := by
  intro k
  induction k with
  | zero => simp [walk, spotAt_zero, BarrierOption.ofReal]
  | succ k ih => rw [walk, ih, stepFactor_fin _ _ _ _ _ _ _ hT, spotAt_succ]; rfl

theorem ge_walk_fin (S0 K sigma r T b : ℝ) (nSim : Int) (hT : 0 ≤ T) (z : Nat → ℝ)
    (off k : Nat) :
    ge (walk (BarrierOption.ofReal S0 K sigma r T b nSim) (fun n => Dbl.fin (z n)) off k)
        (BarrierOption.ofReal S0 K sigma r T b nSim).b
      = decide (b ≤ spotAt S0 sigma r T z off k) := by
  rw [walk_fin _ _ _ _ _ _ _ hT]
  rfl

theorem dmax_fin (a K : ℝ) :
    dmax (Dbl.fin a - Dbl.fin K) (ofNat 0) = Dbl.fin (max (a - K) 0) := by
  unfold dmax
  by_cases h : a - K < 0
  · have h' : a + -K < 0 := by linarith
    simp [h', max_eq_right (le_of_lt h)]
  · have h' : ¬ (a + -K < 0) := by intro h2; apply h; linarith
    have hk : K ≤ a := by linarith
    simp [h', hk, sub_eq_add_neg]

theorem breached_fin_iff (S0 K sigma r T b : ℝ) (nSim : Int) (hT : 0 ≤ T) (z : Nat → ℝ)
    (off : Nat) :
    breached (BarrierOption.ofReal S0 K sigma r T b nSim) (fun n => Dbl.fin (z n)) off 100 0 = true
      ↔ ∃ k, 1 ≤ k ∧ k ≤ 100 ∧ b ≤ spotAt S0 sigma r T z off k := by
  rw [breached_iff]
  constructor
  · rintro ⟨j, h1, h2, h3⟩
    rw [ge_walk_fin _ _ _ _ _ _ _ hT] at h3
    exact ⟨j, h1, by omega, by simpa using h3⟩
  · rintro ⟨j, h1, h2, h3⟩
    refine ⟨j, h1, by omega, ?_⟩
    rw [ge_walk_fin _ _ _ _ _ _ _ hT]
    simpa using h3

theorem breached_fin_false_iff (S0 K sigma r T b : ℝ) (nSim : Int) (hT : 0 ≤ T) (z : Nat → ℝ)
    (off : Nat) :
    breached (BarrierOption.ofReal S0 K sigma r T b nSim) (fun n => Dbl.fin (z n)) off 100 0 = false
      ↔ ∀ k, 1 ≤ k → k ≤ 100 → spotAt S0 sigma r T z off k < b := by
  rw [← Bool.not_eq_true, breached_fin_iff _ _ _ _ _ _ _ hT]
  constructor
  · intro h k h1 h2
    by_contra hk
    exact h ⟨k, h1, h2, not_lt.mp hk⟩
  · rintro h ⟨k, h1, h2, h3⟩
    exact absurd (h k h1 h2) (not_lt.mpr h3)

/-! ### Runs without a knock-out, runs without a survivor -/

section Runs

variable {α : Type} [DoubleOps α]

/-- When none of the next `n` paths is knocked out, the outer loop appends their `n`
payoffs, leaves the hit counter alone and consumes `100` draws per path. -/
theorem simLoop_all_survive (p : BarrierOption α) (z : Nat → α) :
    ∀ (n i : Nat) (st : SimState α Nat),
      (∀ j, j < n → breached p z (st.gen + 100 * j) 100 0 = false) →
      ∃ st', simLoop p (seqDraw z) n i st = some st' ∧
        st'.barrierHits = st.barrierHits ∧
        st'.payoffs = st.payoffs ++ (List.range n).map
          (fun j => dmax (walk p z (st.gen + 100 * j) 100 - p.K) (ofNat 0)) ∧
        st'.gen = st.gen + 100 * n := by
  intro n
  induction n with
  | zero => intro i st _; exact ⟨st, rfl, rfl, by simp, by simp⟩
  | succ n ih =>
    intro i st h
    have h0 : breached p z st.gen 100 0 = false := by simpa using h 0 (by omega)
    have hstop := (breached_false p z st.gen 100 0 h0).1
    simp only [simLoop, pathIter_seq, h0, if_true, hstop, Nat.zero_add]
    obtain ⟨st', h1, h2, h3, h4⟩ := ih (i + 1)
      { running_sum := st.running_sum + dmax (walk p z st.gen 100 - p.K) (ofNat 0),
        barrierHits := st.barrierHits,
        payoffs := st.payoffs ++ [dmax (walk p z st.gen 100 - p.K) (ofNat 0)],
        printedTrajectories :=
          if i < 5 then st.printedTrajectories ++ [visited p z st.gen 100]
          else st.printedTrajectories,
        cout := st.cout, gen := st.gen + 100 }
      (fun j hj => by
        have := h (j + 1) (by omega)
        simpa [Nat.mul_add, Nat.add_assoc, Nat.add_comm 100] using this)
    refine ⟨st', h1, h2, ?_, ?_⟩
    · rw [h3, List.range_succ_eq_map]
      simp [Nat.mul_add, Nat.add_assoc, Nat.add_comm 100, Function.comp_def]
    · rw [h4]; simp only; omega

/-- When every path is knocked out wherever it starts, the outer loop stores no payoff. -/
theorem simLoop_all_knocked (p : BarrierOption α) (z : Nat → α)
    (hall : ∀ off, breached p z off 100 0 = true) :
    ∀ (n i : Nat) (st st' : SimState α Nat), simLoop p (seqDraw z) n i st = some st' →
      st'.payoffs = st.payoffs ∧ st'.barrierHits = st.barrierHits + n := by
  intro n
  induction n with
  | zero =>
    intro i st st' h
    simp only [simLoop, Option.some.injEq] at h
    subst h; simp
  | succ n ih =>
    intro i st st' h
    simp only [simLoop, pathIter_seq, hall, Bool.true_eq_false, if_false] at h
    obtain ⟨h1, h2⟩ := ih (i + 1) _ st' h
    refine ⟨h1, ?_⟩
    rw [h2]; push_cast; ring

/-- A run none of whose paths is knocked out: no hit, `nSim` payoffs, `100 * nSim` draws. -/
theorem priceWith_all_survive (p : BarrierOption α) (z : Nat → α) (g : Nat)
    (h : ∀ j, j < p.nSim.toNat → breached p z (g + 100 * j) 100 0 = false) :
    ∃ res, p.priceWith (seqDraw z) g = some res ∧ res.barrierHits = 0 ∧
      res.payoffs = (List.range p.nSim.toNat).map
        (fun j => dmax (walk p z (g + 100 * j) 100 - p.K) (ofNat 0)) ∧
      res.gen = g + 100 * p.nSim.toNat := by
  obtain ⟨res, hres⟩ := priceWith_seq_some p z g
  obtain ⟨st, hst, -, -, hb, hp, -, -, hg⟩ := priceWith_eq p _ g res hres
  obtain ⟨st', h1, h2, h3, h4⟩ := simLoop_all_survive p z p.nSim.toNat 0
    { running_sum := ofNat 0, barrierHits := 0, payoffs := [], printedTrajectories := [],
      cout := [], gen := g } h
  rw [hst, Option.some.injEq] at h1
  subst h1
  exact ⟨res, hres, by rw [hb, h2], by rw [hp, h3]; simp, by rw [hg, h4]⟩

/-- A run all of whose paths are knocked out stores no payoff. -/
theorem priceWith_all_knocked (p : BarrierOption α) (z : Nat → α) (g : Nat)
    (hall : ∀ off, breached p z off 100 0 = true) :
    ∃ res, p.priceWith (seqDraw z) g = some res ∧ res.payoffs = [] ∧
      res.barrierHits = p.nSim.toNat := by
  obtain ⟨res, hres⟩ := priceWith_seq_some p z g
  obtain ⟨st, hst, -, -, hb, hp, -⟩ := priceWith_eq p _ g res hres
  obtain ⟨h1, h2⟩ := simLoop_all_knocked p z hall _ _ _ _ hst
  exact ⟨res, hres, by rw [hp, h1], by rw [hb, h2]; simp⟩

end Runs

/-! ### Degenerate sample sizes -/

theorem size_t_sub_one (n : Nat) (h1 : 1 ≤ n) (h2 : n < 2 ^ 64) : size_t_sub n 1 = n - 1 := by
  unfold size_t_sub SIZE_MOD
  omega

/-- The mean of a single payoff is that payoff: `(0.0 + v) / 1 = v` for every `v`. -/
theorem mean_single (v : Dbl) : Dbl.div (Dbl.add (Dbl.fin 0) v) (Dbl.fin 1) = v := by
  cases v with
  | fin x => simp [Dbl.div]
  | pinf =>
    have h : ¬ ((1 : ℝ) < 0) := by norm_num
    simp [Dbl.add, Dbl.div, h]
  | ninf =>
    have h : ¬ ((1 : ℝ) < 0) := by norm_num
    simp [Dbl.add, Dbl.div, h]
  | nan => simp

/-- The sum of squared differences of a single payoff divided by `0` is `NaN`. -/
theorem variance_single (v : Dbl) :
    Dbl.div (Dbl.add (Dbl.fin 0) (Dbl.mul (Dbl.add v (Dbl.neg v)) (Dbl.add v (Dbl.neg v))))
      (Dbl.fin 0) = Dbl.nan := by
  cases v with
  | fin x => simp
  | pinf => simp [Dbl.add, Dbl.neg]
  | ninf => simp [Dbl.add, Dbl.neg]
  | nan => simp

/-! ### Runs in exact arithmetic -/

/-- With real parameters, `T >= 0` and real draws, a run none of whose paths reaches the
barrier returns, reports no hit, and stores the real payoffs `max(S_100 - K, 0)`. -/
theorem priceWith_fin_all_survive (S0 K sigma r T b : ℝ) (nSim : Int) (hT : 0 ≤ T)
    (z : Nat → ℝ) (g : Nat)
    (h : ∀ j, j < nSim.toNat → ∀ k, 1 ≤ k → k ≤ 100 →
      spotAt S0 sigma r T z (g + 100 * j) k < b) :
    ∃ res, (BarrierOption.ofReal S0 K sigma r T b nSim).priceWith
        (seqDraw (fun n => Dbl.fin (z n))) g = some res ∧
      res.barrierHits = 0 ∧
      res.payoffs = ((List.range nSim.toNat).map
        (fun j => max (spotAt S0 sigma r T z (g + 100 * j) 100 - K) 0)).map Dbl.fin ∧
      res.gen = g + 100 * nSim.toNat := by
  obtain ⟨res, h1, h2, h3, h4⟩ := priceWith_all_survive
    (BarrierOption.ofReal S0 K sigma r T b nSim) (fun n => Dbl.fin (z n)) g
    (fun j hj => (breached_fin_false_iff S0 K sigma r T b nSim hT z _).2 (h j hj))
  refine ⟨res, h1, h2, ?_, h4⟩
  rw [h3, List.map_map]
  apply List.map_congr_left
  intro j _
  have hK : (BarrierOption.ofReal S0 K sigma r T b nSim).K = Dbl.fin K := rfl
  simp only [Function.comp, walk_fin _ _ _ _ _ _ _ hT, hK, dmax_fin]

/-- With real parameters, `T >= 0` and real draws, a run all of whose paths reach the
barrier at their first step returns and stores no payoff. -/
theorem priceWith_fin_all_knocked (S0 K sigma r T b : ℝ) (nSim : Int) (hT : 0 ≤ T)
    (z : Nat → ℝ) (g : Nat) (h : ∀ off, b ≤ spotAt S0 sigma r T z off 1) :
    ∃ res, (BarrierOption.ofReal S0 K sigma r T b nSim).priceWith
        (seqDraw (fun n => Dbl.fin (z n))) g = some res ∧
      res.payoffs = [] ∧ res.barrierHits = nSim.toNat :=
  priceWith_all_knocked _ _ g
    (fun off => (breached_fin_iff S0 K sigma r T b nSim hT z off).2
      ⟨1, le_refl 1, by omega, h off⟩)

theorem discount_fin (S0 K sigma r T b : ℝ) (nSim : Int) :
    exp (-(BarrierOption.ofReal S0 K sigma r T b nSim).r
        * (BarrierOption.ofReal S0 K sigma r T b nSim).T)
      = Dbl.fin (Real.exp (-r * T)) := rfl

/-! ### A run on generator outputs -/

/-- With `RAND_MAX = 4` and all outputs equal to `3`, the first attempt is accepted
(`x = y = 1/2`, `x*x + y*y = 1/2 < 1`) and the variate is a real number. -/
theorem boxMuller_example :
    ∃ v : ℝ, GetOneGaussianByBoxMuller 4 (fun _ => 3) 1 0 = some (Dbl.fin v, 2) := by
  have h4 : (4 : ℝ) ≠ 0 := by norm_num
  have hx : (2 * 3 / 4 + -1 : ℝ) = 1 / 2 := by norm_num
  have hs : (1 / 2 * (1 / 2) + 1 / 2 * (1 / 2) : ℝ) = 1 / 2 := by norm_num
  have h1 : ¬ ((1 : ℝ) ≤ 1 / 2) := by norm_num
  have h2 : (1 / 2 : ℝ) ≠ 0 := by norm_num
  have hlog : Real.log (1 / 2) < 0 := Real.log_neg (by norm_num) (by norm_num)
  have hnn : (0 : ℝ) ≤ -2 * Real.log (1 / 2) / (1 / 2) := by
    apply div_nonneg _ (by norm_num)
    nlinarith
  refine ⟨1 / 2 * Real.sqrt (-2 * Real.log (1 / 2) / (1 / 2)), ?_⟩
  simp only [GetOneGaussianByBoxMuller, Dbl.ofNat_def, Nat.cast_ofNat, Nat.cast_one,
    Dbl.mul_def, Dbl.mul_fin, Dbl.div_def, Dbl.div_fin _ _ h4, Dbl.sub_def, Dbl.neg_def,
    Dbl.neg_fin, Dbl.add_fin, Dbl.add_def, Dbl.ge_def, Dbl.ge_fin, hx, hs, h1, decide_False,
    Bool.false_eq_true, if_false, Dbl.log_def, Dbl.log_fin _ (by norm_num : (0 : ℝ) < 1 / 2),
    Dbl.div_fin _ _ h2, Dbl.sqrt_def, Dbl.sqrt_fin _ hnn]

/-- With `S0 = 100, sigma = 0, r = 0, T = 1, b = 50` the first step of a path reaches the
barrier, so the path consumes one variate, that is two generator outputs. -/
theorem stepLoop_example (v : ℝ)
    (hv : GetOneGaussianByBoxMuller 4 (fun _ => 3) 1 0 = some (Dbl.fin v, 2))
    (c : List (Output Dbl)) :
    ∃ ps, stepLoop (BarrierOption.ofReal 100 110 0 0 1 50 1)
        (GetOneGaussianByBoxMuller 4 (fun _ => 3) 1) 0 100 0
        { hitBarrier := false, this_spot := Dbl.fin 100, trajectory := [], cout := c, gen := 0 }
      = some ps ∧ ps.hitBarrier = true ∧ ps.gen = 2 := by
  have hf := stepFactor_fin 100 110 0 0 1 50 1 (by norm_num) v
  have hl : logIncrement 0 0 1 v = 0 := by simp [logIncrement]
  rw [hl, Real.exp_zero] at hf
  have hS : (BarrierOption.ofReal 100 110 0 0 1 50 1).b = Dbl.fin 50 := rfl
  have hge : ge (Dbl.fin 100 * Dbl.fin 1) (Dbl.fin 50) = true := by
    simp; norm_num
  rw [stepLoop_succ _ _ 0 99 0 _ (Dbl.fin v) 2 hv, hf, hS, if_pos hge]
  exact ⟨_, rfl, rfl, rfl⟩

/-- The run of `price` with one path on these outputs returns after two outputs. -/
theorem price_example :
    ∃ res, (BarrierOption.ofReal 100 110 0 0 1 50 1).price 4 (fun _ => 3) 1 0 = some res ∧
      res.gen = 2 := by
  obtain ⟨v, hv⟩ := boxMuller_example
  obtain ⟨ps, h1, h2, h3⟩ := stepLoop_example v hv []
  have hS : (BarrierOption.ofReal 100 110 0 0 1 50 1).S0 = Dbl.fin 100 := rfl
  have hn : (BarrierOption.ofReal 100 110 0 0 1 50 1).nSim.toNat = 1 := rfl
  unfold BarrierOption.price BarrierOption.priceWith
  simp only [hn, simLoop, pathIter, hS, h1, h2, Bool.true_eq_false, if_false]
  exact ⟨_, rfl, h3⟩

/-! ### A negative time to maturity -/

/-- For `T < 0` the step factor is `NaN` (`sqrt` of the negative `dt`). -/
theorem stepFactor_neg_T (S0 K sigma r T b : ℝ) (nSim : Int) (hT : T < 0) (v : Dbl) :
    stepFactor (BarrierOption.ofReal S0 K sigma r T b nSim) v = Dbl.nan := by
  have h100 : ((100 : Nat) : ℝ) ≠ 0 := by norm_num
  have hdt : T / ((100 : Nat) : ℝ) < 0 := by
    apply div_neg_of_neg_of_pos hT; norm_num
  simp only [stepFactor, BarrierOption.ofReal, Dbl.ofNat_def, Dbl.div_def, Dbl.div_fin _ _ h100,
    Dbl.sqrt_def, Dbl.sqrt_fin_neg _ hdt, Dbl.mul_def, Dbl.mul_nan, Dbl.nan_mul, Dbl.add_def,
    Dbl.add_nan, Dbl.exp_def, Dbl.exp_nan]

theorem breached_neg_T (S0 K sigma r T b : ℝ) (nSim : Int) (hT : T < 0) (z : Nat → Dbl)
    (off n k : Nat) :
    breached (BarrierOption.ofReal S0 K sigma r T b nSim) z off n k = false := by
  rw [← Bool.not_eq_true, breached_iff]
  rintro ⟨j, h1, -, h3⟩
  obtain ⟨j', rfl⟩ : ∃ j', j = j' + 1 := ⟨j - 1, by omega⟩
  rw [walk, stepFactor_neg_T _ _ _ _ _ _ _ hT] at h3
  simp at h3

/-! ### The rejection loop -/

section BoxMuller

variable {α : Type} [DoubleOps α]

/-- One attempt of the rejection loop. -/
theorem boxMuller_succ (RAND_MAX : Nat) (rand : Nat → Nat) (fuel pos : Nat) :
    (GetOneGaussianByBoxMuller RAND_MAX rand (fuel + 1) pos : Option (α × Nat)) =
      if ge (sizeSquaredAt RAND_MAX rand pos : α) (ofNat 1) then
        GetOneGaussianByBoxMuller RAND_MAX rand fuel (pos + 2)
      else some (boxMullerValue RAND_MAX rand pos, pos + 2) := rfl

/-- When attempt `j` is the first one that is not rejected and the fuel allows `j + 1`
attempts, the routine returns the value built from attempt `j` and has consumed
`2 * (j + 1)` outputs. -/
theorem boxMuller_first_accept (RAND_MAX : Nat) (rand : Nat → Nat) :
    ∀ (j fuel pos : Nat),
      ge (sizeSquaredAt RAND_MAX rand (pos + 2 * j) : α) (ofNat 1) = false →
      (∀ i, i < j → ge (sizeSquaredAt RAND_MAX rand (pos + 2 * i) : α) (ofNat 1) = true) →
      j < fuel →
      (GetOneGaussianByBoxMuller RAND_MAX rand fuel pos : Option (α × Nat))
        = some (boxMullerValue RAND_MAX rand (pos + 2 * j), pos + 2 * (j + 1)) := by
  intro j
  induction j with
  | zero =>
    intro fuel pos hacc _ hf
    obtain ⟨f, rfl⟩ : ∃ f, fuel = f + 1 := ⟨fuel - 1, by omega⟩
    rw [boxMuller_succ]
    simp only [Nat.mul_zero, Nat.add_zero] at hacc
    simp [hacc]
  | succ j ih =>
    intro fuel pos hacc hrej hf
    obtain ⟨f, rfl⟩ : ∃ f, fuel = f + 1 := ⟨fuel - 1, by omega⟩
    have h0 := hrej 0 (by omega)
    simp only [Nat.mul_zero, Nat.add_zero] at h0
    rw [boxMuller_succ, if_pos h0]
    have e1 : pos + 2 + 2 * j = pos + 2 * (j + 1) := by omega
    have := ih f (pos + 2) (by rw [e1]; exact hacc)
      (fun i hi => by
        have := hrej (i + 1) (by omega)
        have e2 : pos + 2 + 2 * i = pos + 2 * (i + 1) := by omega
        rw [e2]; exact this)
      (by omega)
    rw [this, e1]
    have e3 : pos + 2 + 2 * (j + 1) = pos + 2 * (j + 1 + 1) := by omega
    rw [e3]

/-- Whenever the routine returns, it returns the value built from its first accepted
attempt `j`, every earlier attempt having been rejected, and it has consumed
`2 * (j + 1)` outputs. -/
theorem boxMuller_returns (RAND_MAX : Nat) (rand : Nat → Nat) :
    ∀ (fuel pos : Nat) (v : α) (pos' : Nat),
      GetOneGaussianByBoxMuller RAND_MAX rand fuel pos = some (v, pos') →
      ∃ j, j < fuel ∧ pos' = pos + 2 * (j + 1) ∧
        ge (sizeSquaredAt RAND_MAX rand (pos + 2 * j) : α) (ofNat 1) = false ∧
        (∀ i, i < j → ge (sizeSquaredAt RAND_MAX rand (pos + 2 * i) : α) (ofNat 1) = true) ∧
        v = boxMullerValue RAND_MAX rand (pos + 2 * j) := by
  intro fuel
  induction fuel with
  | zero => intro pos v pos' h; simp [GetOneGaussianByBoxMuller] at h
  | succ fuel ih =>
    intro pos v pos' h
    rw [boxMuller_succ] at h
    by_cases hr : ge (sizeSquaredAt RAND_MAX rand pos : α) (ofNat 1) = true
    · rw [if_pos hr] at h
      obtain ⟨j, h1, h2, h3, h4, h5⟩ := ih (pos + 2) v pos' h
      have e1 : pos + 2 + 2 * j = pos + 2 * (j + 1) := by omega
      refine ⟨j + 1, by omega, by omega, by rw [← e1]; exact h3, fun i hi => ?_,
        by rw [← e1]; exact h5⟩
      rcases Nat.eq_zero_or_pos i with h0 | h0
      · subst h0; simpa using hr
      · obtain ⟨i', rfl⟩ : ∃ i', i = i' + 1 := ⟨i - 1, by omega⟩
        have := h4 i' (by omega)
        have e2 : pos + 2 + 2 * i' = pos + 2 * (i' + 1) := by omega
        rw [← e2]; exact this
    · rw [if_neg hr, Option.some.injEq, Prod.mk.injEq] at h
      refine ⟨0, by omega, by omega, by simpa using hr, fun i hi => by omega, ?_⟩
      simpa using h.1.symm

end BoxMuller

/-! ### The attempts in exact arithmetic -/

theorem uniformOf_fin (RAND_MAX u : Nat) (hR : 0 < RAND_MAX) :
    (uniformOf RAND_MAX u : Dbl) = Dbl.fin (uniformR RAND_MAX u) := by
  have h : ((RAND_MAX : Nat) : ℝ) ≠ 0 := by exact_mod_cast hR.ne'
  simp only [uniformOf, uniformR, Dbl.ofNat_def, Dbl.mul_def, Dbl.mul_fin, Dbl.div_def,
    Dbl.div_fin _ _ h, Dbl.sub_def, Dbl.neg_fin, Dbl.add_fin, Nat.cast_ofNat, Nat.cast_one]
  rfl

theorem sizeSquaredAt_fin (RAND_MAX : Nat) (rand : Nat → Nat) (pos : Nat) (hR : 0 < RAND_MAX) :
    (sizeSquaredAt RAND_MAX rand pos : Dbl) = Dbl.fin (sizeSquaredR RAND_MAX rand pos) := by
  simp only [sizeSquaredAt, uniformOf_fin _ _ hR, Dbl.mul_def, Dbl.mul_fin, Dbl.add_def,
    Dbl.add_fin, sizeSquaredR, sq]

theorem ge_sizeSquaredAt (RAND_MAX : Nat) (rand : Nat → Nat) (pos : Nat) (hR : 0 < RAND_MAX) :
    ge (sizeSquaredAt RAND_MAX rand pos : Dbl) (ofNat 1)
      = decide (1 ≤ sizeSquaredR RAND_MAX rand pos) := by
  rw [sizeSquaredAt_fin _ _ _ hR]
  simp

/-- For `0 < s < 1` the returned value is the real number `x * sqrt(-2 ln(s) / s)`. -/
theorem boxMullerValue_fin (RAND_MAX : Nat) (rand : Nat → Nat) (pos : Nat) (hR : 0 < RAND_MAX)
    (h0 : 0 < sizeSquaredR RAND_MAX rand pos) (h1 : sizeSquaredR RAND_MAX rand pos < 1) :
    (boxMullerValue RAND_MAX rand pos : Dbl)
      = Dbl.fin (uniformR RAND_MAX (rand pos)
          * Real.sqrt (-2 * Real.log (sizeSquaredR RAND_MAX rand pos)
              / sizeSquaredR RAND_MAX rand pos)) ∧
    0 < -2 * Real.log (sizeSquaredR RAND_MAX rand pos) / sizeSquaredR RAND_MAX rand pos := by
  have hlog : Real.log (sizeSquaredR RAND_MAX rand pos) < 0 := Real.log_neg h0 h1
  have hpos : 0 < -2 * Real.log (sizeSquaredR RAND_MAX rand pos)
      / sizeSquaredR RAND_MAX rand pos := by
    apply div_pos _ h0
    linarith
  refine ⟨?_, hpos⟩
  simp only [boxMullerValue, sizeSquaredAt_fin _ _ _ hR, uniformOf_fin _ _ hR, Dbl.ofNat_def,
    Dbl.neg_def, Dbl.neg_fin, Dbl.log_def, Dbl.log_fin _ h0, Dbl.mul_def, Dbl.mul_fin,
    Dbl.div_def, Dbl.div_fin _ _ h0.ne', Dbl.sqrt_def, Nat.cast_ofNat]
  rw [Dbl.sqrt_fin _ hpos.le]
  rfl

theorem uniformR_range (RAND_MAX u : Nat) (hR : 0 < RAND_MAX) (hu : u ≤ RAND_MAX) :
    -1 ≤ uniformR RAND_MAX u ∧ uniformR RAND_MAX u ≤ 1 ∧
    (uniformR RAND_MAX u = -1 ↔ u = 0) ∧ (uniformR RAND_MAX u = 1 ↔ u = RAND_MAX) := by
  have hRr : (0 : ℝ) < (RAND_MAX : ℝ) := by exact_mod_cast hR
  have hur : (u : ℝ) ≤ (RAND_MAX : ℝ) := by exact_mod_cast hu
  have hu0 : (0 : ℝ) ≤ (u : ℝ) := Nat.cast_nonneg u
  have hx : uniformR RAND_MAX u = (2 * (u : ℝ) - RAND_MAX) / RAND_MAX := by
    unfold uniformR; field_simp
  refine ⟨?_, ?_, ?_, ?_⟩
  · rw [hx, le_div_iff₀ hRr]; linarith
  · rw [hx, div_le_iff₀ hRr]; linarith
  · rw [hx, div_eq_iff hRr.ne']
    constructor
    · intro h
      have : (u : ℝ) = 0 := by linarith
      exact_mod_cast this
    · intro h; subst h; simp
  · rw [hx, div_eq_iff hRr.ne']
    constructor
    · intro h
      have : (u : ℝ) = RAND_MAX := by linarith
      exact_mod_cast this
    · intro h; subst h; ring

theorem uniformR_ne_zero (RAND_MAX u : Nat) (hodd : RAND_MAX % 2 = 1) :
    uniformR RAND_MAX u ≠ 0 := by
  have hR : 0 < RAND_MAX := by omega
  have hRr : (0 : ℝ) < (RAND_MAX : ℝ) := by exact_mod_cast hR
  intro h
  unfold uniformR at h
  have h2 : 2 * (u : ℝ) = (RAND_MAX : ℝ) := by
    field_simp at h
    linarith
  have h3 : 2 * u = RAND_MAX := by exact_mod_cast h2
  omega

/-! ### The run on a sequence of draws, path by path -/

section Closed

variable {α : Type} [DoubleOps α]

/-- The outer loop over `a + b` paths is the loop over the first `a` followed by the loop
over the next `b`. -/
theorem simLoop_add {σ : Type} (p : BarrierOption α) (draw : σ → Option (α × σ)) (b : Nat) :
    ∀ (a i : Nat) (st : SimState α σ),
      simLoop p draw (a + b) i st
        = (simLoop p draw a i st).bind (fun st' => simLoop p draw b (i + a) st') := by
  intro a
  induction a with
  | zero => intro i st; simp [simLoop]
  | succ a ih =>
    intro i st
    have e : a + 1 + b = (a + b) + 1 := by omega
    rw [e]
    simp only [simLoop]
    cases h : pathIter p draw i st with
    | none => simp
    | some st1 =>
      simp only [ih]
      have e2 : i + 1 + a = i + (a + 1) := by omega
      rw [e2]

theorem simLoop_one {σ : Type} (p : BarrierOption α) (draw : σ → Option (α × σ)) (i : Nat)
    (st : SimState α σ) : simLoop p draw 1 i st = pathIter p draw i st := by
  simp only [simLoop]
  cases pathIter p draw i st <;> rfl

theorem priceWith_initSim {σ : Type} (p : BarrierOption α) (draw : σ → Option (α × σ)) (g : σ)
    (res : PriceResult α σ) (h : p.priceWith draw g = some res) :
    ∃ st, simLoop p draw p.nSim.toNat 0 (initSim g) = some st ∧
      res.barrierHits = st.barrierHits ∧ res.payoffs = st.payoffs ∧
      res.printedTrajectories = st.printedTrajectories ∧ res.gen = st.gen := by
  obtain ⟨st, hst, -, -, h1, h2, h3, -, h4⟩ := priceWith_eq p draw g res h
  exact ⟨st, hst, h1, h2, h3, h4⟩

theorem survivors_succ (p : BarrierOption α) (z : Nat → α) (g n : Nat) :
    survivors p z g (n + 1) =
      if breached p z (pathStart p z g n) 100 0 = false then survivors p z g n ++ [n]
      else survivors p z g n := by
  unfold survivors
  rw [List.range_succ, List.filter_append]
  by_cases h : breached p z (pathStart p z g n) 100 0 = false
  · simp [h]
  · have h' : breached p z (pathStart p z g n) 100 0 = true := by simpa using h
    simp [h']

theorem mem_survivors (p : BarrierOption α) (z : Nat → α) (g n i : Nat) :
    i ∈ survivors p z g n ↔ i < n ∧ breached p z (pathStart p z g i) 100 0 = false := by
  simp [survivors]

/-- The state of the outer loop after `n` paths of a run on a sequence of draws: the
stored payoffs are those of the surviving paths in order, the recorded trajectories are
the visited spots of the first five paths, and the next draw is the first one of path `n`. -/
theorem simLoop_seq_closed (p : BarrierOption α) (z : Nat → α) (g : Nat) :
    ∀ n, ∃ st, simLoop p (seqDraw z) n 0 (initSim g) = some st ∧
      st.payoffs = (survivors p z g n).map
        (fun i => dmax (walk p z (pathStart p z g i) 100 - p.K) (ofNat 0)) ∧
      st.printedTrajectories = (List.range (min n 5)).map
        (fun i => visited p z (pathStart p z g i)
          (stopStep p z (pathStart p z g i) 100 0)) ∧
      st.gen = pathStart p z g n := by
  intro n
  induction n with
  | zero => exact ⟨initSim g, rfl, rfl, rfl, rfl⟩
  | succ n ih =>
    obtain ⟨st, h1, h2, h3, h4⟩ := ih
    rw [simLoop_add, h1, Option.some_bind, simLoop_one, pathIter_seq, h4, survivors_succ]
    have hpr : (if 0 + n < 5 then
          st.printedTrajectories ++ [visited p z (pathStart p z g n)
            (stopStep p z (pathStart p z g n) 100 0)]
        else st.printedTrajectories)
        = (List.range (min (n + 1) 5)).map
          (fun i => visited p z (pathStart p z g i)
            (stopStep p z (pathStart p z g i) 100 0)) := by
      rw [h3]
      by_cases hn : n < 5
      · have e1 : min n 5 = n := by omega
        have e2 : min (n + 1) 5 = n + 1 := by omega
        have e3 : 0 + n < 5 := by omega
        rw [if_pos e3, e1, e2, List.range_succ, List.map_append]
        rfl
      · have e1 : min n 5 = 5 := by omega
        have e2 : min (n + 1) 5 = 5 := by omega
        have e3 : ¬ (0 + n < 5) := by omega
        rw [if_neg e3, e1, e2]
    by_cases hb : breached p z (pathStart p z g n) 100 0 = false
    · have hstop := (breached_false p z _ 100 0 hb).1
      rw [if_pos hb, if_pos hb]
      refine ⟨_, rfl, ?_, hpr, rfl⟩
      simp only [h2, List.map_append, List.map_cons, List.map_nil, hstop, Nat.zero_add]
    · rw [if_neg hb, if_neg hb]
      exact ⟨_, rfl, h2, hpr, rfl⟩

/-- The first draw of path `n` is the first draw of the run plus the steps of the paths
before it. -/
theorem pathStart_eq_sum (p : BarrierOption α) (z : Nat → α) (g : Nat) :
    ∀ n, pathStart p z g n
      = g + ∑ i in Finset.range n, stopStep p z (pathStart p z g i) 100 0 := by
  intro n
  induction n with
  | zero => simp [pathStart]
  | succ n ih =>
    rw [Finset.sum_range_succ, ← Nat.add_assoc, ← ih]
    rfl

theorem stopStep_bounds (p : BarrierOption α) (z : Nat → α) (off : Nat) :
    1 ≤ stopStep p z off 100 0 ∧ stopStep p z off 100 0 ≤ 100 := by
  constructor
  · by_cases hb : breached p z off 100 0 = false
    · rw [(breached_false p z off 100 0 hb).1]; omega
    · have hb' : breached p z off 100 0 = true := by simpa using hb
      exact (breached_true p z off 100 0 hb').1
  · have := stopStep_le p z off 100 0
    omega

theorem pathStart_le (p : BarrierOption α) (z : Nat → α) (g : Nat) :
    ∀ n, pathStart p z g n ≤ g + 100 * n := by
  intro n
  induction n with
  | zero => simp [pathStart]
  | succ n ih =>
    have := (stopStep_bounds p z (pathStart p z g n)).2
    rw [pathStart]
    omega

/-- The inner loop of a path of a run on a sequence of draws that starts at draw `off`. -/
theorem stepLoop_seq_init (p : BarrierOption α) (z : Nat → α) (i off : Nat)
    (c : List (Output α)) :
    ∃ ps, stepLoop p (seqDraw z) i 100 0
        { hitBarrier := false, this_spot := p.S0, trajectory := [], cout := c, gen := off }
        = some ps ∧
      ps.hitBarrier = breached p z off 100 0 ∧
      ps.this_spot = walk p z off (stopStep p z off 100 0) ∧
      ps.trajectory = visited p z off (stopStep p z off 100 0) ∧
      ps.gen = off + stopStep p z off 100 0 := by
  have h := stepLoop_seq p z i off 100 0 c
  have h0 : walk p z off 0 = p.S0 := rfl
  have h1 : visited p z off 0 = [] := rfl
  rw [h0, h1, Nat.add_zero] at h
  exact ⟨_, h, rfl, rfl, rfl, rfl⟩

theorem visited_getLast (p : BarrierOption α) (z : Nat → α) (off m : Nat) (hm : 1 ≤ m) :
    (visited p z off m).getLast? = some (walk p z off m) := by
  obtain ⟨m', rfl⟩ : ∃ m', m = m' + 1 := ⟨m - 1, by omega⟩
  rw [visited_succ]
  simp

end Closed

/-! ### Runs with a negative time to maturity -/

theorem walk_neg_T (S0 K sigma r T b : ℝ) (nSim : Int) (hT : T < 0) (z : Nat → Dbl)
    (off k : Nat) :
    walk (BarrierOption.ofReal S0 K sigma r T b nSim) z off (k + 1) = Dbl.nan := by
  rw [walk, stepFactor_neg_T _ _ _ _ _ _ _ hT]
  simp

theorem dmax_nan (K : Dbl) : dmax (Dbl.nan - K) (ofNat 0) = Dbl.nan := by
  unfold dmax
  simp
  cases K <;> rfl

/-- For `T < 0` every path survives with the payoff `NaN`, and with at least one path the
returned value is `NaN`. -/
theorem priceWith_neg_T (S0 K sigma r T b : ℝ) (nSim : Int) (hT : T < 0) (hn : 1 ≤ nSim)
    (z : Nat → Dbl) (g : Nat) :
    ∃ res, (BarrierOption.ofReal S0 K sigma r T b nSim).priceWith (seqDraw z) g = some res ∧
      res.barrierHits = 0 ∧ res.payoffs = List.replicate nSim.toNat Dbl.nan ∧
      res.value = Dbl.nan := by
  obtain ⟨res, h1, h2, h3, -⟩ := priceWith_all_survive
    (BarrierOption.ofReal S0 K sigma r T b nSim) z g
    (fun j _ => breached_neg_T S0 K sigma r T b nSim hT z _ _ _)
  have hp : res.payoffs = List.replicate nSim.toNat Dbl.nan := by
    rw [h3]
    have hn' : (BarrierOption.ofReal S0 K sigma r T b nSim).nSim.toNat = nSim.toNat := rfl
    rw [hn']
    apply List.ext_get
    · simp
    · intro i hi1 hi2
      simp only [List.get_eq_getElem, List.getElem_map, List.getElem_range,
        List.getElem_replicate]
      rw [show (100 : Nat) = 99 + 1 from rfl, walk_neg_T _ _ _ _ _ _ _ hT]
      exact dmax_nan _
  refine ⟨res, h1, h2, hp, ?_⟩
  obtain ⟨m, hm⟩ : ∃ m, nSim.toNat = m + 1 := ⟨nSim.toNat - 1, by omega⟩
  rw [(priceWith_value _ _ g res h1).1, hp, hm, List.replicate_succ, List.foldl_cons]
  have hfold : ∀ (l : List Dbl), l.foldl (fun a x => a + x) Dbl.nan = Dbl.nan := by
    intro l
    induction l with
    | nil => rfl
    | cons x xs ih => simp only [List.foldl_cons, Dbl.add_def, Dbl.nan_add]; exact ih
  simp only [Dbl.ofNat_def, Dbl.add_def, Dbl.add_nan]
  have hfold' := hfold (List.replicate m Dbl.nan)
  simp only [Dbl.add_def] at hfold'
  rw [hfold']
  simp

/-! ### The barrier level -/

theorem Dbl.ge_fin_mono (v : Dbl) (b1 b2 : ℝ) (hb : b1 ≤ b2)
    (h : Dbl.ge v (Dbl.fin b2) = true) : Dbl.ge v (Dbl.fin b1) = true := by
  cases v with
  | fin x =>
    simp only [Dbl.ge_fin, decide_eq_true_eq] at h ⊢
    linarith
  | pinf => rfl
  | ninf => simp [Dbl.ge] at h
  | nan => simp at h

/-- The walk does not depend on the barrier level (nor on the strike or the path count). -/
theorem walk_barrier_indep (p1 p2 : BarrierOption Dbl) (hS : p1.S0 = p2.S0)
    (hs : p1.sigma = p2.sigma) (hr : p1.r = p2.r) (hT : p1.T = p2.T) (z : Nat → Dbl)
    (off : Nat) : ∀ k, walk p1 z off k = walk p2 z off k := by
  intro k
  induction k with
  | zero => simp [walk, hS]
  | succ k ih => simp only [walk, stepFactor, ih, hs, hr, hT]

section StopStep

variable {α : Type} [DoubleOps α]

/-- The loop stops no later than any step whose spot is `>= b`. -/
theorem stopStep_le_of_ge (p : BarrierOption α) (z : Nat → α) (off n k j : Nat)
    (h1 : k < j) (h : ge (walk p z off j) p.b = true) :
    stopStep p z off n k ≤ j := by
  by_contra hlt
  have := no_breach_before_stop p z off n k j h1 (by omega)
  rw [this] at h
  simp at h

end StopStep

/-! ### Classification of a path by its computed spots -/

section Classification

variable {α : Type} [DoubleOps α]

/-- A walk whose every step factor leaves the initial spot unchanged stays at it. -/
theorem walk_const (p : BarrierOption α) (z : Nat → α) (off : Nat)
    (h : ∀ k, p.S0 * stepFactor p (z (off + k)) = p.S0) : ∀ k, walk p z off k = p.S0 := by
  intro k
  induction k with
  | zero => rfl
  | succ k ih => rw [walk, ih, h]

/-- A path is knocked out exactly when one of its 100 computed spots is `>= b`. -/
theorem breached_iff_steps (p : BarrierOption α) (z : Nat → α) (off : Nat) :
    breached p z off 100 0 = true ↔
      ∃ k, 1 ≤ k ∧ k ≤ 100 ∧ ge (walk p z off k) p.b = true := by
  rw [breached_iff]
  constructor
  · rintro ⟨j, h1, h2, h3⟩
    exact ⟨j, h1, by omega, h3⟩
  · rintro ⟨j, h1, h2, h3⟩
    exact ⟨j, h1, by omega, h3⟩

/-- A path survives exactly when none of its 100 computed spots is `>= b`. -/
theorem breached_false_iff_steps (p : BarrierOption α) (z : Nat → α) (off : Nat) :
    breached p z off 100 0 = false ↔
      ∀ k, 1 ≤ k → k ≤ 100 → ge (walk p z off k) p.b = false := by
  rw [← Bool.not_eq_true, breached_iff_steps]
  constructor
  · intro h k h1 h2
    by_contra hk
    exact h ⟨k, h1, h2, by simpa using hk⟩
  · rintro h ⟨k, h1, h2, h3⟩
    rw [h k h1 h2] at h3
    exact Bool.false_ne_true h3

/-- The result of a run on a sequence of draws, in closed form. -/
theorem priceWith_seq_closed (p : BarrierOption α) (z : Nat → α) (g : Nat) :
    ∃ res, p.priceWith (seqDraw z) g = some res ∧
      res.payoffs = (survivors p z g p.nSim.toNat).map
        (fun i => dmax (walk p z (pathStart p z g i) 100 - p.K) (ofNat 0)) ∧
      res.printedTrajectories = (List.range (min p.nSim.toNat 5)).map
        (fun i => visited p z (pathStart p z g i)
          (stopStep p z (pathStart p z g i) 100 0)) ∧
      res.gen = pathStart p z g p.nSim.toNat := by
  obtain ⟨res, hres⟩ := priceWith_seq_some p z g
  obtain ⟨stN, hN, -, hp, hpr, hg⟩ := priceWith_initSim p _ g res hres
  obtain ⟨st, h1, h2, h3, h4⟩ := simLoop_seq_closed p z g p.nSim.toNat
  rw [hN, Option.some.injEq] at h1
  subst h1
  exact ⟨res, hres, by rw [hp, h2], by rw [hpr, h3], by rw [hg, h4]⟩

end Classification

/-! ### A run with one knocked-out path and two survivors -/

/-- With `sigma = 1, r = 0.5, T = 100` the exponent of a step is the draw itself. -/
theorem logIncrement_unit (x : ℝ) : logIncrement 1 0.5 100 x = x := by
  unfold logIncrement
  norm_num

/-- The spots of a path all of whose draws are `0`, for `S0 = 100, sigma = 1, r = 0.5,
T = 100`. -/
theorem spotAt_unit_zero (zr : Nat → ℝ) (off : Nat) (h : ∀ i, zr (off + i) = 0) (k : Nat) :
    spotAt 100 1 0.5 100 zr off k = 100 := by
  unfold spotAt
  simp [logIncrement_unit, h]

/-- The run with `S0 = 100, K = 90, sigma = 1, r = 0.5, T = 100, b = 130, nSim = 3` on the
draws `1, 0, 0, ...`: the first path is knocked out at its first step (`100 * e >= 130`),
the other two stay at `100` and survive with payoff `10`. -/
theorem priceWith_mixed_example :
    ∃ res, (BarrierOption.ofReal 100 90 1 0.5 100 130 3).priceWith
        (seqDraw (fun n => Dbl.fin ((fun m => if m = 0 then (1 : ℝ) else 0) n))) 0 = some res ∧
      res.barrierHits = 1 ∧ res.payoffs = [Dbl.fin 10, Dbl.fin 10] := by
  have hT : (0 : ℝ) ≤ 100 := by norm_num
  obtain ⟨zr, hzr⟩ : ∃ zr : Nat → ℝ, zr = fun m => if m = 0 then (1 : ℝ) else 0 := ⟨_, rfl⟩
  obtain ⟨p, hp⟩ : ∃ p, p = BarrierOption.ofReal 100 90 1 0.5 100 130 3 := ⟨_, rfl⟩
  rw [← hzr, ← hp]
  have hz0 : ∀ off, 1 ≤ off → ∀ i, zr (off + i) = 0 := by
    intro off ho i
    rw [hzr]
    have : off + i ≠ 0 := by omega
    simp [this]
  -- the first path
  have hb0 : breached p (fun n => Dbl.fin (zr n)) 0 100 0 = true := by
    rw [hp]
    refine (breached_fin_iff 100 90 1 0.5 100 130 3 hT zr 0).2 ⟨1, le_refl 1, by omega, ?_⟩
    have h1 : spotAt 100 1 0.5 100 zr 0 1 = 100 * Real.exp 1 := by
      simp [spotAt, logIncrement_unit, hzr]
    rw [h1]
    have := Real.exp_one_gt_d9
    linarith
  have hs0 : stopStep p (fun n => Dbl.fin (zr n)) 0 100 0 = 1 := by
    have h1 := (breached_true p _ 0 100 0 hb0).1
    have hge : ge (walk p (fun n => Dbl.fin (zr n)) 0 1) p.b = true := by
      rw [hp, ge_walk_fin _ _ _ _ _ _ _ hT]
      have h1 : spotAt 100 1 0.5 100 zr 0 1 = 100 * Real.exp 1 := by
        simp [spotAt, logIncrement_unit, hzr]
      rw [h1]
      have := Real.exp_one_gt_d9
      simp only [decide_eq_true_eq]
      linarith
    have h2 := stopStep_le_of_ge p (fun n => Dbl.fin (zr n)) 0 100 0 1 (by omega) hge
    omega
  -- a path that starts after the first draw
  have hbs : ∀ off, 1 ≤ off → breached p (fun n => Dbl.fin (zr n)) off 100 0 = false := by
    intro off ho
    rw [hp]
    refine (breached_fin_false_iff 100 90 1 0.5 100 130 3 hT zr off).2 (fun k _ _ => ?_)
    rw [spotAt_unit_zero zr off (hz0 off ho)]
    norm_num
  have hws : ∀ off, 1 ≤ off →
      dmax (walk p (fun n => Dbl.fin (zr n)) off 100 - p.K) (ofNat 0) = Dbl.fin 10 := by
    intro off ho
    rw [hp, walk_fin _ _ _ _ _ _ _ hT, spotAt_unit_zero zr off (hz0 off ho)]
    have hK : (BarrierOption.ofReal 100 90 1 0.5 100 130 3).K = Dbl.fin 90 := rfl
    rw [hK, dmax_fin]
    norm_num
  have hp1 : pathStart p (fun n => Dbl.fin (zr n)) 0 1 = 1 := by
    have e0 : pathStart p (fun n => Dbl.fin (zr n)) 0 0 = 0 := rfl
    rw [pathStart, e0, hs0]
  have hp2 : pathStart p (fun n => Dbl.fin (zr n)) 0 2 = 101 := by
    rw [pathStart, hp1, (breached_false p _ 1 100 0 (hbs 1 (le_refl 1))).1]
  have hn : p.nSim.toNat = 3 := by rw [hp]; rfl
  have hsurv : survivors p (fun n => Dbl.fin (zr n)) 0 3 = [1, 2] := by
    have e0 : survivors p (fun n => Dbl.fin (zr n)) 0 0 = [] := rfl
    have e1 : survivors p (fun n => Dbl.fin (zr n)) 0 1 = [] := by
      rw [survivors_succ, e0]
      have : pathStart p (fun n => Dbl.fin (zr n)) 0 0 = 0 := rfl
      rw [this, hb0]
      rfl
    have e2 : survivors p (fun n => Dbl.fin (zr n)) 0 2 = [1] := by
      rw [survivors_succ, e1, hp1, if_pos (hbs 1 (le_refl 1))]
      rfl
    rw [survivors_succ, e2, hp2, if_pos (hbs 101 (by omega))]
    rfl
  obtain ⟨res, hres, hpay, -, -⟩ := priceWith_seq_closed p (fun n => Dbl.fin (zr n)) 0
  have hpay' : res.payoffs = [Dbl.fin 10, Dbl.fin 10] := by
    rw [hpay, hn, hsurv]
    simp only [List.map_cons, List.map_nil, hp1, hp2]
    rw [hws 1 (le_refl 1), hws 101 (by omega)]
  refine ⟨res, hres, ?_, hpay'⟩
  have hc := priceWith_count p _ 0 res hres
  rw [hpay', hn] at hc
  simp only [List.length_cons, List.length_nil] at hc
  omega

/-! ### Runs whose step factor does not depend on the draw -/

section SameFactor

variable {α : Type} [DoubleOps α]

theorem walk_eq_constWalk (p : BarrierOption α) (z : Nat → α) (off : Nat) (f : α)
    (h : ∀ n, stepFactor p (z n) = f) : ∀ k, walk p z off k = constWalk p.S0 f k := by
  intro k
  induction k with
  | zero => rfl
  | succ k ih => rw [walk, ih, h]; rfl

theorem breached_congr (p : BarrierOption α) (z z' : Nat → α) (off off' : Nat)
    (hw : ∀ k, walk p z off k = walk p z' off' k) :
    ∀ n k, breached p z off n k = breached p z' off' n k := by
  intro n
  induction n with
  | zero => intro k; rfl
  | succ n ih => intro k; simp only [breached, hw, ih]

theorem stopStep_congr (p : BarrierOption α) (z z' : Nat → α) (off off' : Nat)
    (hw : ∀ k, walk p z off k = walk p z' off' k) :
    ∀ n k, stopStep p z off n k = stopStep p z' off' n k := by
  intro n
  induction n with
  | zero => intro k; rfl
  | succ n ih => intro k; simp only [stopStep, hw, ih]

theorem visited_congr (p : BarrierOption α) (z z' : Nat → α) (off off' : Nat)
    (hw : ∀ k, walk p z off k = walk p z' off' k) (m : Nat) :
    visited p z off m = visited p z' off' m := by
  simp only [visited, hw]

/-- When the step factor is the same for all draws, an iteration of the outer loop does
not depend on the sequence of draws. -/
theorem pathIter_seq_congr (p : BarrierOption α) (z z' : Nat → α) (f : α)
    (h : ∀ n, stepFactor p (z n) = f) (h' : ∀ n, stepFactor p (z' n) = f)
    (i : Nat) (st : SimState α Nat) :
    pathIter p (seqDraw z) i st = pathIter p (seqDraw z') i st := by
  have hw : ∀ k, walk p z st.gen k = walk p z' st.gen k := fun k => by
    rw [walk_eq_constWalk p z st.gen f h, walk_eq_constWalk p z' st.gen f h']
  rw [pathIter_seq, pathIter_seq, breached_congr p z z' _ _ hw, stopStep_congr p z z' _ _ hw,
    visited_congr p z z' _ _ hw, hw]

theorem simLoop_seq_congr (p : BarrierOption α) (z z' : Nat → α) (f : α)
    (h : ∀ n, stepFactor p (z n) = f) (h' : ∀ n, stepFactor p (z' n) = f) :
    ∀ (n i : Nat) (st : SimState α Nat),
      simLoop p (seqDraw z) n i st = simLoop p (seqDraw z') n i st := by
  intro n
  induction n with
  | zero => intro i st; rfl
  | succ n ih =>
    intro i st
    simp only [simLoop, pathIter_seq_congr p z z' f h h' i st]
    cases pathIter p (seqDraw z') i st with
    | none => rfl
    | some st1 => exact ih (i + 1) st1

/-- When the step factor is the same for all draws, the run does not depend on the
sequence of draws. -/
theorem priceWith_seq_congr (p : BarrierOption α) (z z' : Nat → α) (f : α)
    (h : ∀ n, stepFactor p (z n) = f) (h' : ∀ n, stepFactor p (z' n) = f) (g : Nat) :
    p.priceWith (seqDraw z) g = p.priceWith (seqDraw z') g := by
  unfold BarrierOption.priceWith
  simp only [simLoop_seq_congr p z z' f h h']

/-- A run whose step factor is `f` for every draw and none of whose spots
`S0 * f * ... * f` reaches the barrier: no hit, and `nSim` times the same payoff. -/
theorem priceWith_same_factor (p : BarrierOption α) (z : Nat → α) (f : α)
    (h : ∀ n, stepFactor p (z n) = f)
    (hb : ∀ k, 1 ≤ k → k ≤ 100 → ge (constWalk p.S0 f k) p.b = false) (g : Nat) :
    ∃ res, p.priceWith (seqDraw z) g = some res ∧ res.barrierHits = 0 ∧
      res.payoffs = List.replicate p.nSim.toNat (dmax (constWalk p.S0 f 100 - p.K) (ofNat 0)) ∧
      res.gen = g + 100 * p.nSim.toNat := by
  obtain ⟨res, h1, h2, h3, h4⟩ := priceWith_all_survive p z g
    (fun j _ => (breached_false_iff_steps p z _).2
      (fun k hk1 hk2 => by rw [walk_eq_constWalk p z _ f h]; exact hb k hk1 hk2))
  refine ⟨res, h1, h2, ?_, h4⟩
  rw [h3]
  simp only [walk_eq_constWalk p z _ f h]
  apply List.ext_get
  · simp
  · intro i hi1 hi2
    simp

end SameFactor

/-- Without volatility, for a finite `T >= 0` and a finite draw, the step factor is
`exp(r * dt)` whatever the draw: the volatility term is `0 * sqrt(dt) * z = 0`. -/
theorem stepFactor_zero_vol (p : BarrierOption Dbl) (t : ℝ) (hsig : p.sigma = Dbl.fin 0)
    (hT : p.T = Dbl.fin t) (ht : 0 ≤ t) (x : ℝ) :
    stepFactor p (Dbl.fin x) = exp (p.r * (p.T / ofNat 100)) := by
  have h100 : ((100 : Nat) : ℝ) ≠ 0 := by norm_num
  have hdt : (0 : ℝ) ≤ t / ((100 : Nat) : ℝ) := by positivity
  have h1 : (half : Dbl) * p.sigma * p.sigma = Dbl.fin 0 := by
    rw [hsig]
    simp
  have h2 : ∀ v : Dbl, v - Dbl.fin 0 = v := by
    intro v
    cases v <;> simp [Dbl.add]
  have h3 : p.sigma * sqrt (p.T / ofNat 100) * Dbl.fin x = Dbl.fin 0 := by
    rw [hsig, hT]
    simp only [Dbl.ofNat_def, Dbl.div_def, Dbl.div_fin _ _ h100, Dbl.sqrt_def,
      Dbl.sqrt_fin _ hdt, Dbl.mul_def, Dbl.mul_fin, zero_mul]
  have h4 : ∀ v : Dbl, v + Dbl.fin 0 = v := by
    intro v
    cases v <;> simp [Dbl.add]
  unfold stepFactor
  rw [h1, h2, h3, h4]

theorem constWalk_fin (a f : ℝ) (k : Nat) :
    constWalk (Dbl.fin a) (Dbl.fin f) k = Dbl.fin (a * f ^ k) := by
  induction k with
  | zero => simp [constWalk]
  | succ k ih =>
    rw [constWalk, ih]
    simp only [Dbl.mul_def, Dbl.mul_fin]
    rw [pow_succ, mul_assoc]

/-! ### Signs of the outputs -/

section PayoffForm

variable {α : Type} [DoubleOps α]

/-- Every payoff stored by an iteration of the outer loop is `std::max(s - K, 0.0)` for the
final spot `s` of its path; a property of all such values holds for all stored payoffs. -/
theorem pathIter_payoffs_all {σ : Type} (P : α → Prop) (p : BarrierOption α)
    (hP : ∀ s, P (dmax (s - p.K) (ofNat 0))) (draw : σ → Option (α × σ)) (i : Nat)
    (st st' : SimState α σ) (h : pathIter p draw i st = some st')
    (hst : ∀ x ∈ st.payoffs, P x) : ∀ x ∈ st'.payoffs, P x := by
  unfold pathIter at h
  split at h
  · simp at h
  · rename_i ps _
    by_cases hb : ps.hitBarrier = false
    · rw [if_pos hb, Option.some.injEq] at h
      subst h
      intro x hx
      rcases List.mem_append.mp hx with hx | hx
      · exact hst x hx
      · rw [List.mem_singleton.mp hx]
        exact hP _
    · rw [if_neg hb, Option.some.injEq] at h
      subst h
      exact hst

theorem simLoop_payoffs_all {σ : Type} (P : α → Prop) (p : BarrierOption α)
    (hP : ∀ s, P (dmax (s - p.K) (ofNat 0))) (draw : σ → Option (α × σ)) :
    ∀ (n i : Nat) (st st' : SimState α σ), simLoop p draw n i st = some st' →
      (∀ x ∈ st.payoffs, P x) → ∀ x ∈ st'.payoffs, P x := by
  intro n
  induction n with
  | zero =>
    intro i st st' h hst
    simp only [simLoop, Option.some.injEq] at h
    subst h; exact hst
  | succ n ih =>
    intro i st st' h hst
    simp only [simLoop] at h
    split at h
    · simp at h
    · rename_i st1 h1
      exact ih (i + 1) st1 st' h (pathIter_payoffs_all P p hP draw i st st1 h1 hst)

theorem priceWith_payoffs_all {σ : Type} (P : α → Prop) (p : BarrierOption α)
    (hP : ∀ s, P (dmax (s - p.K) (ofNat 0))) (draw : σ → Option (α × σ)) (g : σ)
    (res : PriceResult α σ) (h : p.priceWith draw g = some res) :
    ∀ x ∈ res.payoffs, P x := by
  obtain ⟨st, hst, -, -, -, hp, -⟩ := priceWith_eq p draw g res h
  rw [hp]
  exact simLoop_payoffs_all P p hP draw _ _ _ _ hst (fun x hx => by simp at hx)

end PayoffForm

namespace Dbl

theorem dmax_sign (a : Dbl) :
    dmax a (ofNat 0) = Dbl.nan ∨ Dbl.ge (dmax a (ofNat 0)) (Dbl.fin 0) = true := by
  unfold dmax
  cases a with
  | fin x =>
    by_cases h : x < 0
    · simp [h]
    · simp [h, not_lt.mp h]
  | pinf => simp [Dbl.lt, Dbl.ge]
  | ninf => simp [Dbl.lt]
  | nan => simp [Dbl.lt]

theorem add_sign (a b : Dbl) (ha : a = Dbl.nan ∨ Dbl.ge a (Dbl.fin 0) = true)
    (hb : b = Dbl.nan ∨ Dbl.ge b (Dbl.fin 0) = true) :
    a + b = Dbl.nan ∨ Dbl.ge (a + b) (Dbl.fin 0) = true := by
  rcases ha with rfl | ha
  · simp
  rcases hb with rfl | hb
  · simp
  cases a <;> cases b <;> simp_all [Dbl.add, Dbl.ge]
  exact add_nonneg ha hb

theorem mul_sign (a b : Dbl) (ha : a = Dbl.nan ∨ Dbl.ge a (Dbl.fin 0) = true)
    (hb : b = Dbl.nan ∨ Dbl.ge b (Dbl.fin 0) = true) :
    a * b = Dbl.nan ∨ Dbl.ge (a * b) (Dbl.fin 0) = true := by
  rcases ha with rfl | ha
  · simp
  rcases hb with rfl | hb
  · simp
  cases a with
  | fin x =>
    cases b with
    | fin y =>
      simp only [Dbl.ge_fin, decide_eq_true_eq] at ha hb
      simp only [Dbl.mul_def, Dbl.mul_fin, Dbl.ge_fin, decide_eq_true_eq]
      exact Or.inr (mul_nonneg ha hb)
    | pinf =>
      simp only [Dbl.ge_fin, decide_eq_true_eq] at ha
      rcases ha.lt_or_eq with h | h
      · simp [Dbl.mul, Dbl.infTimes, h, Dbl.ge]
      · subst h; simp [Dbl.mul, Dbl.infTimes]
    | ninf => simp [Dbl.ge] at hb
    | nan => simp
  | pinf =>
    cases b with
    | fin y =>
      simp only [Dbl.ge_fin, decide_eq_true_eq] at hb
      rcases hb.lt_or_eq with h | h
      · simp [Dbl.mul, Dbl.infTimes, h, Dbl.ge]
      · subst h; simp [Dbl.mul, Dbl.infTimes]
    | pinf => simp [Dbl.mul, Dbl.ge]
    | ninf => simp [Dbl.ge] at hb
    | nan => simp
  | ninf => simp [Dbl.ge] at ha
  | nan => simp

theorem div_nat_sign (a : Dbl) (n : Nat) (ha : a = Dbl.nan ∨ Dbl.ge a (Dbl.fin 0) = true) :
    a / ofNat n = Dbl.nan ∨ Dbl.ge (a / ofNat n) (Dbl.fin 0) = true := by
  rcases ha with rfl | ha
  · simp
  have hn : (0 : ℝ) ≤ (n : ℝ) := Nat.cast_nonneg n
  cases a with
  | fin x =>
    simp only [Dbl.ge_fin, decide_eq_true_eq] at ha
    by_cases h0 : (n : ℝ) = 0
    · rcases ha.lt_or_eq with h | h
      · simp [Dbl.div, h0, h, h.ne', Dbl.ge]
      · subst h; simp [Dbl.div, h0]
    · simp only [Dbl.ofNat_def, Dbl.div_def, Dbl.div_fin _ _ h0, Dbl.ge_fin, decide_eq_true_eq]
      exact Or.inr (div_nonneg ha hn)
  | pinf => simp [Dbl.div, not_lt.mpr hn, Dbl.ge]
  | ninf => simp [Dbl.ge] at ha
  | nan => simp

theorem exp_sign (a : Dbl) :
    (exp a : Dbl) = Dbl.nan ∨ Dbl.ge (exp a) (Dbl.fin 0) = true := by
  cases a with
  | fin x =>
    simp only [Dbl.exp_def, Dbl.exp_fin, Dbl.ge_fin, decide_eq_true_eq]
    exact Or.inr (Real.exp_pos x).le
  | pinf => simp [Dbl.exp, Dbl.ge]
  | ninf => simp [Dbl.exp]
  | nan => simp

theorem sqrt_sign (a : Dbl) :
    (sqrt a : Dbl) = Dbl.nan ∨ Dbl.ge (sqrt a) (Dbl.fin 0) = true := by
  cases a with
  | fin x =>
    by_cases h : x < 0
    · simp [Dbl.sqrt, h]
    · simp [Dbl.sqrt, h, Real.sqrt_nonneg]
  | pinf => simp [Dbl.sqrt, Dbl.ge]
  | ninf => simp [Dbl.sqrt]
  | nan => simp

theorem foldl_add_sign (l : List Dbl) :
    ∀ init : Dbl, (init = Dbl.nan ∨ Dbl.ge init (Dbl.fin 0) = true) →
      (∀ x ∈ l, x = Dbl.nan ∨ Dbl.ge x (Dbl.fin 0) = true) →
      l.foldl (fun a x => a + x) init = Dbl.nan
        ∨ Dbl.ge (l.foldl (fun a x => a + x) init) (Dbl.fin 0) = true := by
  induction l with
  | nil => intro init h _; exact h
  | cons y ys ih =>
    intro init h hl
    rw [List.foldl_cons]
    exact ih _ (add_sign _ _ h (hl y (List.mem_cons_self y ys)))
      (fun x hx => hl x (List.mem_cons_of_mem y hx))

/-- A survivor whose final spot is `<= K` has the payoff `0` (or `NaN`, for `inf - inf`). -/
theorem dmax_of_le (s K : Dbl) (h : Dbl.ge K s = true) :
    dmax (s - K) (ofNat 0) = Dbl.fin 0 ∨ dmax (s - K) (ofNat 0) = Dbl.nan := by
  unfold dmax
  cases s with
  | fin x =>
    cases K with
    | fin k =>
      simp only [Dbl.ge_fin, decide_eq_true_eq] at h
      rcases h.lt_or_eq with h1 | h1
      · have : x + -k < 0 := by linarith
        simp [this]
      · subst h1
        simp
    | pinf => simp [Dbl.add, Dbl.neg, Dbl.lt]
    | ninf => simp [Dbl.ge] at h
    | nan => simp at h
  | pinf =>
    cases K with
    | fin k => simp [Dbl.ge] at h
    | pinf => simp [Dbl.add, Dbl.neg, Dbl.lt]
    | ninf => simp [Dbl.ge] at h
    | nan => simp at h
  | ninf =>
    cases K with
    | fin k => simp [Dbl.add, Dbl.neg, Dbl.lt]
    | pinf => simp [Dbl.add, Dbl.neg, Dbl.lt]
    | ninf => simp [Dbl.add, Dbl.neg, Dbl.lt]
    | nan => simp at h
  | nan => simp at h

theorem foldl_add_zero (l : List Dbl) :
    ∀ init : Dbl, (init = Dbl.fin 0 ∨ init = Dbl.nan) →
      (∀ x ∈ l, x = Dbl.fin 0 ∨ x = Dbl.nan) →
      l.foldl (fun a x => a + x) init = Dbl.fin 0
        ∨ l.foldl (fun a x => a + x) init = Dbl.nan := by
  induction l with
  | nil => intro init h _; exact h
  | cons y ys ih =>
    intro init h hl
    rw [List.foldl_cons]
    refine ih _ ?_ (fun x hx => hl x (List.mem_cons_of_mem y hx))
    rcases h with rfl | rfl
    · rcases hl y (List.mem_cons_self y ys) with rfl | rfl
      · left; simp
      · right; simp
    · right; simp

/-- The estimate computed from a sum that is `0` or `NaN` is `0` or `NaN`. -/
theorem estimate_zero (s : Dbl) (n : Nat) (d : Dbl) (h : s = Dbl.fin 0 ∨ s = Dbl.nan) :
    s / ofNat n * d = Dbl.fin 0 ∨ s / ofNat n * d = Dbl.nan := by
  rcases h with rfl | rfl
  · by_cases h0 : (n : ℝ) = 0
    · right; simp [Dbl.div, h0]
    · cases d with
      | fin y => left; simp [Dbl.div, h0]
      | pinf => right; simp [Dbl.div, h0, Dbl.mul, Dbl.infTimes]
      | ninf => right; simp [Dbl.div, h0, Dbl.mul, Dbl.infTimes]
      | nan => right; simp
  · right; simp

end Dbl

/-! ### Overflow and underflow -/

namespace DblRange

@[simp] theorem add_clip (a b : DblRange) : a + b = ⟨Dbl.clip (Dbl.add a.val b.val)⟩ := rfl

@[simp] theorem sub_clip (a b : DblRange) :
    a - b = ⟨Dbl.clip (Dbl.add a.val (Dbl.neg b.val))⟩ := rfl

@[simp] theorem mul_clip (a b : DblRange) : a * b = ⟨Dbl.clip (Dbl.mul a.val b.val)⟩ := rfl

@[simp] theorem div_clip (a b : DblRange) : a / b = ⟨Dbl.clip (Dbl.div a.val b.val)⟩ := rfl

@[simp] theorem neg_val (a : DblRange) : -a = ⟨Dbl.neg a.val⟩ := rfl

@[simp] theorem ofNat_clip (n : Nat) :
    (DoubleOps.ofNat n : DblRange) = ⟨Dbl.clip (Dbl.fin n)⟩ := rfl

@[simp] theorem half_val : (DoubleOps.half : DblRange) = ⟨Dbl.fin (1 / 2)⟩ := rfl

@[simp] theorem exp_clip (a : DblRange) : DoubleOps.exp a = ⟨Dbl.clip (Dbl.exp a.val)⟩ := rfl

@[simp] theorem sqrt_clip (a : DblRange) :
    DoubleOps.sqrt a = ⟨Dbl.clip (Dbl.sqrt a.val)⟩ := rfl

@[simp] theorem ge_val (a b : DblRange) : DoubleOps.ge a b = Dbl.ge a.val b.val := rfl

@[simp] theorem lt_val (a b : DblRange) : DoubleOps.lt a b = Dbl.lt a.val b.val := rfl

end DblRange

/-- A result between `1/4` and `2^1024` is in the range. -/
theorem Dbl.clip_fin_mid (x : ℝ) (h1 : 1 / 4 ≤ x) (h2 : x < 2 ^ 1024) :
    Dbl.clip (Dbl.fin x) = Dbl.fin x := by
  have h3 : ¬ ((2 : ℝ) ^ 1024 ≤ x) := not_le.mpr h2
  have h4 : ¬ (x ≤ -(2 : ℝ) ^ 1024) := by
    have : (0 : ℝ) < 2 ^ 1024 := by positivity
    intro h; linarith
  have h5 : ¬ (-(1 / (2 : ℝ) ^ 1075) ≤ x ∧ x ≤ 1 / (2 : ℝ) ^ 1075) := by
    rintro ⟨-, h⟩
    have : (1 : ℝ) / 2 ^ 1075 < 1 / 4 := by
      rw [div_lt_div_iff₀ (by positivity) (by norm_num)]
      norm_num
    linarith
  simp only [Dbl.clip, if_neg h3, if_neg h4, if_neg h5]

/-- A result of `2^1024` or more overflows. -/
theorem Dbl.clip_overflow (x : ℝ) (h : 2 ^ 1024 ≤ x) : Dbl.clip (Dbl.fin x) = Dbl.pinf := by
  simp only [Dbl.clip, if_pos h]

/-- A positive result of at most `2^(-1075)` underflows. -/
theorem Dbl.clip_underflow (x : ℝ) (h0 : 0 ≤ x) (h : x ≤ 1 / 2 ^ 1075) :
    Dbl.clip (Dbl.fin x) = Dbl.fin 0 := by
  have h3 : ¬ ((2 : ℝ) ^ 1024 ≤ x) := by
    have : (1 : ℝ) / 2 ^ 1075 < 2 ^ 1024 := by
      rw [div_lt_iff₀ (by positivity)]
      norm_num
    intro h'; linarith
  have h4 : ¬ (x ≤ -(2 : ℝ) ^ 1024) := by
    have : (0 : ℝ) < 2 ^ 1024 := by positivity
    intro h'; linarith
  have h5 : -(1 / (2 : ℝ) ^ 1075) ≤ x ∧ x ≤ 1 / (2 : ℝ) ^ 1075 := by
    refine ⟨?_, h⟩
    have : (0 : ℝ) < 1 / 2 ^ 1075 := by positivity
    linarith
  simp only [Dbl.clip, if_neg h3, if_neg h4, if_pos h5]

theorem exp_eight_bounds : (2 : ℝ) ^ 11 ≤ Real.exp 8 ∧ Real.exp 8 < 2 ^ 1024 := by
  have h1 : Real.exp 8 = Real.exp 1 ^ 8 := by
    rw [← Real.exp_nat_mul]; norm_num
  have h2 := Real.exp_one_gt_d9
  have h3 := Real.exp_one_lt_d9
  have h4 : (0 : ℝ) ≤ Real.exp 1 := (Real.exp_pos 1).le
  constructor
  · rw [h1]
    calc (2 : ℝ) ^ 11 ≤ (27 / 10) ^ 8 := by norm_num
      _ ≤ Real.exp 1 ^ 8 := pow_le_pow_left₀ (by norm_num) (by linarith) 8
  · rw [h1]
    calc Real.exp 1 ^ 8 ≤ 3 ^ 8 := pow_le_pow_left₀ h4 (by linarith) 8
      _ < 2 ^ 1024 := by norm_num

/-- `exp(-x)` underflows to `0` for `x >= 1075`. -/
theorem exp_neg_underflow (x : ℝ) (hx : 1075 ≤ x) :
    Dbl.clip (Dbl.fin (Real.exp (-x))) = Dbl.fin 0 := by
  apply Dbl.clip_underflow _ (Real.exp_pos _).le
  have h1 : Real.exp (-x) ≤ Real.exp (-1075) := Real.exp_le_exp.mpr (by linarith)
  have h2 : Real.exp (-1075) = 1 / Real.exp 1 ^ 1075 := by
    rw [Real.exp_neg, ← Real.exp_nat_mul]; norm_num
  have h3 : (2 : ℝ) ^ 1075 ≤ Real.exp 1 ^ 1075 := by
    apply pow_le_pow_left₀ (by norm_num)
    have := Real.exp_one_gt_d9
    linarith
  have h4 : (1 : ℝ) / Real.exp 1 ^ 1075 ≤ 1 / 2 ^ 1075 :=
    one_div_le_one_div_of_le (by positivity) h3
  linarith

/-- The step factor of the run with `sigma = 0, r = 8, T = 100` is `exp(8)`. -/
theorem stepFactor_overflow_example (b : Dbl) :
    stepFactor (BarrierOption.ofRange 100 110 0 8 100 b 3) ⟨Dbl.fin 0⟩
      = ⟨Dbl.fin (Real.exp 8)⟩ := by
  have harg : ((BarrierOption.ofRange 100 110 0 8 100 b 3).r
        - half * (BarrierOption.ofRange 100 110 0 8 100 b 3).sigma
          * (BarrierOption.ofRange 100 110 0 8 100 b 3).sigma)
        * ((BarrierOption.ofRange 100 110 0 8 100 b 3).T / ofNat 100)
      + (BarrierOption.ofRange 100 110 0 8 100 b 3).sigma
        * sqrt ((BarrierOption.ofRange 100 110 0 8 100 b 3).T / ofNat 100) * ⟨Dbl.fin 0⟩
      = (⟨Dbl.fin 8⟩ : DblRange) := by
    norm_num [BarrierOption.ofRange, Dbl.clip, Dbl.div, Dbl.sqrt]
  unfold stepFactor
  rw [harg]
  simp only [DblRange.exp_clip, Dbl.exp_fin]
  rw [Dbl.clip_fin_mid _ (by have := exp_eight_bounds.1; linarith) exp_eight_bounds.2]

/-- With `S0 = 100, sigma = 0, r = 8, T = 100` the spot is multiplied by `exp(8)` at every
step and has overflowed to `+inf` by step 100, whatever the barrier. -/
theorem walk_overflow_example (b : Dbl) (off : Nat) :
    walk (BarrierOption.ofRange 100 110 0 8 100 b 3) (fun _ => ⟨Dbl.fin 0⟩) off 100
      = ⟨Dbl.pinf⟩ := by
  have he := exp_eight_bounds
  have hinv : ∀ k, walk (BarrierOption.ofRange 100 110 0 8 100 b 3)
        (fun _ => ⟨Dbl.fin 0⟩) off k = ⟨Dbl.pinf⟩ ∨
      ∃ v : ℝ, walk (BarrierOption.ofRange 100 110 0 8 100 b 3)
          (fun _ => ⟨Dbl.fin 0⟩) off k = ⟨Dbl.fin v⟩ ∧ 100 * (2 ^ 11) ^ k ≤ v := by
    intro k
    induction k with
    | zero => exact Or.inr ⟨100, rfl, by norm_num⟩
    | succ k ih =>
      rw [walk, stepFactor_overflow_example]
      rcases ih with h | ⟨v, hv, hle⟩
      · left
        rw [h]
        have hpos : (0 : ℝ) < Real.exp 8 := Real.exp_pos 8
        simp [Dbl.mul, Dbl.infTimes, hpos, Dbl.clip]
      · rw [hv]
        simp only [DblRange.mul_clip, Dbl.mul_fin]
        have hk : (0 : ℝ) ≤ 100 * (2 ^ 11) ^ k := by positivity
        have hmul : 100 * (2 ^ 11) ^ (k + 1) ≤ v * Real.exp 8 := by
          rw [pow_succ, ← mul_assoc]
          exact mul_le_mul hle he.1 (by norm_num) (by linarith)
        by_cases hov : (2 : ℝ) ^ 1024 ≤ v * Real.exp 8
        · left
          rw [Dbl.clip_overflow _ hov]
        · right
          refine ⟨v * Real.exp 8, ?_, hmul⟩
          rw [Dbl.clip_fin_mid _ ?_ (not_le.mp hov)]
          have : (1 : ℝ) ≤ (2 ^ 11) ^ (k + 1) := one_le_pow₀ (by norm_num)
          linarith
  rcases hinv 100 with h | ⟨v, hv, hle⟩
  · exact h
  · exfalso
    -- a finite spot at step 100 would be a result of `*` within the range
    have hw : walk (BarrierOption.ofRange 100 110 0 8 100 b 3) (fun _ => ⟨Dbl.fin 0⟩) off 100
        = walk (BarrierOption.ofRange 100 110 0 8 100 b 3) (fun _ => ⟨Dbl.fin 0⟩) off 99
          * ⟨Dbl.fin (Real.exp 8)⟩ := by
      rw [show (100 : Nat) = 99 + 1 from rfl, walk, stepFactor_overflow_example]
    rw [hw] at hv
    have hbig : (2 : ℝ) ^ 1024 ≤ v := by
      have : (2 : ℝ) ^ 1024 ≤ 100 * (2 ^ 11) ^ 100 := by norm_num
      linarith
    rcases hinv 99 with h | ⟨u, hu, -⟩
    · rw [h] at hv
      have hpos : (0 : ℝ) < Real.exp 8 := Real.exp_pos 8
      simp [Dbl.mul, Dbl.infTimes, hpos, Dbl.clip] at hv
    · rw [hu] at hv
      simp only [DblRange.mul_clip, Dbl.mul_fin, DblRange.mk.injEq] at hv
      by_cases hov : (2 : ℝ) ^ 1024 ≤ u * Real.exp 8
      · rw [Dbl.clip_overflow _ hov] at hv
        exact Dbl.noConfusion hv
      · have hclip : Dbl.clip (Dbl.fin (u * Real.exp 8)) = Dbl.fin (u * Real.exp 8)
            ∨ Dbl.clip (Dbl.fin (u * Real.exp 8)) = Dbl.fin 0
            ∨ Dbl.clip (Dbl.fin (u * Real.exp 8)) = Dbl.ninf := by
          simp only [Dbl.clip, if_neg hov]
          split
          · exact Or.inr (Or.inr rfl)
          · split
            · exact Or.inr (Or.inl rfl)
            · exact Or.inl rfl
        rcases hclip with h | h | h
        · rw [h] at hv
          injection hv with hv
          rw [hv] at hov
          exact hov hbig
        · rw [h] at hv
          injection hv with hv
          rw [← hv] at hbig
          have : (0 : ℝ) < 2 ^ 1024 := by positivity
          linarith
        · rw [h] at hv
          exact Dbl.noConfusion hv

/-- With these parameters every path is knocked out, whatever the level of the barrier. -/
theorem priceWith_overflow_example (b : Dbl) (hb : b ≠ Dbl.nan) :
    ∃ res, (BarrierOption.ofRange 100 110 0 8 100 b 3).priceWith
        (seqDraw (fun _ => ⟨Dbl.fin 0⟩)) 0 = some res ∧
      res.barrierHits = 3 ∧ res.payoffs = [] := by
  obtain ⟨res, h1, h2, h3⟩ := priceWith_all_knocked
    (BarrierOption.ofRange 100 110 0 8 100 b 3) (fun _ => ⟨Dbl.fin 0⟩) 0
    (fun off => (breached_iff_steps _ _ off).2 ⟨100, by omega, le_refl _, by
      rw [walk_overflow_example]
      show Dbl.ge Dbl.pinf b = true
      cases b with
      | fin x => rfl
      | pinf => rfl
      | ninf => rfl
      | nan => exact absurd rfl hb⟩)
  exact ⟨res, h1, h3, h2⟩

/-- With `S0 = 100, K = 90, T = 100, b = 130` and `r = sigma^2 / 2` for `sigma = 5` or
`sigma = 6`, on draws `0` the step factor is `exp(0) = 1`, the only path stays at `100` and
survives with payoff `10`, the survivor mean is `10`, and the discount factor
`exp(-r*T)` underflows to `0`. -/
theorem priceWith_underflow_example (sigma r : ℝ)
    (h : (sigma = 5 ∧ r = 12.5) ∨ (sigma = 6 ∧ r = 18)) :
    ∃ res, (BarrierOption.ofRange 100 90 sigma r 100 (Dbl.fin 130) 1).priceWith
        (seqDraw (fun _ => ⟨Dbl.fin 0⟩)) 0 = some res ∧
      res.barrierHits = 0 ∧ res.payoffs = [⟨Dbl.fin 10⟩] ∧
      res.payoffs.foldl (fun a x => a + x) (ofNat 0) / ofNat res.payoffs.length
        = ⟨Dbl.fin 10⟩ ∧
      exp (-(BarrierOption.ofRange 100 90 sigma r 100 (Dbl.fin 130) 1).r
        * (BarrierOption.ofRange 100 90 sigma r 100 (Dbl.fin 130) 1).T) = ⟨Dbl.fin 0⟩ ∧
      res.value = ⟨Dbl.fin 0⟩ := by
  have harg : ((BarrierOption.ofRange 100 90 sigma r 100 (Dbl.fin 130) 1).r
        - half * (BarrierOption.ofRange 100 90 sigma r 100 (Dbl.fin 130) 1).sigma
          * (BarrierOption.ofRange 100 90 sigma r 100 (Dbl.fin 130) 1).sigma)
        * ((BarrierOption.ofRange 100 90 sigma r 100 (Dbl.fin 130) 1).T / ofNat 100)
      + (BarrierOption.ofRange 100 90 sigma r 100 (Dbl.fin 130) 1).sigma
        * sqrt ((BarrierOption.ofRange 100 90 sigma r 100 (Dbl.fin 130) 1).T / ofNat 100)
        * ⟨Dbl.fin 0⟩
      = (⟨Dbl.fin 0⟩ : DblRange) := by
    rcases h with ⟨rfl, rfl⟩ | ⟨rfl, rfl⟩ <;>
      norm_num [BarrierOption.ofRange, Dbl.clip, Dbl.div, Dbl.sqrt]
  have hf : stepFactor (BarrierOption.ofRange 100 90 sigma r 100 (Dbl.fin 130) 1)
      ⟨Dbl.fin 0⟩ = ⟨Dbl.fin 1⟩ := by
    unfold stepFactor
    rw [harg]
    norm_num [Dbl.clip]
  have hS : (BarrierOption.ofRange 100 90 sigma r 100 (Dbl.fin 130) 1).S0 * ⟨Dbl.fin 1⟩
      = (BarrierOption.ofRange 100 90 sigma r 100 (Dbl.fin 130) 1).S0 := by
    norm_num [BarrierOption.ofRange, Dbl.clip]
  have hw := walk_const (BarrierOption.ofRange 100 90 sigma r 100 (Dbl.fin 130) 1)
    (fun _ => ⟨Dbl.fin 0⟩)
  obtain ⟨res, h1, h2, h3, -⟩ := priceWith_all_survive
    (BarrierOption.ofRange 100 90 sigma r 100 (Dbl.fin 130) 1) (fun _ => ⟨Dbl.fin 0⟩) 0
    (fun j _ => (breached_false_iff_steps _ _ _).2 (fun k _ _ => by
      rw [hw _ (fun _ => by rw [hf]; exact hS)]
      norm_num [BarrierOption.ofRange]))
  have hpay : res.payoffs = [⟨Dbl.fin 10⟩] := by
    rw [h3]
    have hn : (BarrierOption.ofRange 100 90 sigma r 100 (Dbl.fin 130) 1).nSim.toNat = 1 := rfl
    have e : List.range 1 = [0] := rfl
    rw [hn, e, List.map_cons, List.map_nil, hw _ (fun _ => by rw [hf]; exact hS)]
    norm_num [BarrierOption.ofRange, dmax, Dbl.clip]
  have hmean : res.payoffs.foldl (fun a x => a + x) (ofNat 0) / ofNat res.payoffs.length
      = (⟨Dbl.fin 10⟩ : DblRange) := by
    rw [hpay]
    norm_num [Dbl.clip, Dbl.div]
  have hd : exp (-(BarrierOption.ofRange 100 90 sigma r 100 (Dbl.fin 130) 1).r
      * (BarrierOption.ofRange 100 90 sigma r 100 (Dbl.fin 130) 1).T)
      = (⟨Dbl.fin 0⟩ : DblRange) := by
    rcases h with ⟨rfl, rfl⟩ | ⟨rfl, rfl⟩
    · have e : -(BarrierOption.ofRange 100 90 5 12.5 100 (Dbl.fin 130) 1).r
          * (BarrierOption.ofRange 100 90 5 12.5 100 (Dbl.fin 130) 1).T
          = (⟨Dbl.fin (-1250)⟩ : DblRange) := by
        norm_num [BarrierOption.ofRange, Dbl.clip]
      rw [e]
      simp only [DblRange.exp_clip, Dbl.exp_fin]
      rw [exp_neg_underflow 1250 (by norm_num)]
    · have e : -(BarrierOption.ofRange 100 90 6 18 100 (Dbl.fin 130) 1).r
          * (BarrierOption.ofRange 100 90 6 18 100 (Dbl.fin 130) 1).T
          = (⟨Dbl.fin (-1800)⟩ : DblRange) := by
        norm_num [BarrierOption.ofRange, Dbl.clip]
      rw [e]
      simp only [DblRange.exp_clip, Dbl.exp_fin]
      rw [exp_neg_underflow 1800 (by norm_num)]
  refine ⟨res, h1, h2, hpay, hmean, hd, ?_⟩
  rw [(priceWith_value _ _ 0 res h1).1, hmean, hd]
  norm_num [Dbl.clip]

theorem Dbl.lt_of_lt_of_not_lt (B : ℝ) (v b : Dbl) (hv : Dbl.lt (Dbl.fin B) v = false)
    (hb : Dbl.lt (Dbl.fin B) b = true) : Dbl.ge v b = false := by
  cases v with
  | fin x =>
    cases b with
    | fin y =>
      simp only [Dbl.lt_fin, decide_eq_false_iff_not, not_lt, decide_eq_true_eq] at hv hb
      simp only [Dbl.ge_fin, decide_eq_false_iff_not, not_le]
      linarith
    | pinf => rfl
    | ninf => simp [Dbl.lt] at hb
    | nan => simp [Dbl.lt] at hb
  | pinf => simp [Dbl.lt] at hv
  | ninf =>
    cases b with
    | fin y => rfl
    | pinf => rfl
    | ninf => simp [Dbl.lt] at hb
    | nan => simp [Dbl.lt] at hb
  | nan => simp

/-- Every value other than `+inf` lies at or below some real level. -/
theorem Dbl.exists_level (v : Dbl) :
    ∃ Bv : ℝ, v ≠ Dbl.pinf → ∀ B : ℝ, Bv ≤ B → Dbl.lt (Dbl.fin B) v = false := by
  cases v with
  | fin x =>
    refine ⟨x, fun _ B hB => ?_⟩
    simp only [Dbl.lt_fin, decide_eq_false_iff_not, not_lt]
    exact hB
  | pinf => exact ⟨0, fun h => absurd rfl h⟩
  | ninf => exact ⟨0, fun _ B _ => rfl⟩
  | nan => exact ⟨0, fun _ B _ => rfl⟩

/-! ### Runs that stay at the initial spot -/

theorem spotAt_flat (S0 sigma r T : ℝ) (zr : Nat → ℝ) (off : Nat)
    (h : ∀ i, logIncrement sigma r T (zr (off + i)) = 0) (k : Nat) :
    spotAt S0 sigma r T zr off k = S0 := by
  unfold spotAt
  simp [h]

/-- With `S0 = 100, K = 90, b = 130`, `T >= 0` and parameters for which the exponent of a
step is `0` at the draw `0`, on draws `0` every path stays at `100` and survives with payoff
`10`. -/
theorem priceWith_flat_example (sigma r T : ℝ) (hT : 0 ≤ T)
    (h0 : logIncrement sigma r T 0 = 0) (n : Int) :
    ∃ res, (BarrierOption.ofReal 100 90 sigma r T 130 n).priceWith
        (seqDraw (fun m => Dbl.fin ((fun _ => (0 : ℝ)) m))) 0 = some res ∧
      res.barrierHits = 0 ∧ res.payoffs = List.replicate n.toNat (Dbl.fin 10) := by
  obtain ⟨res, h1, h2, h3, -⟩ := priceWith_fin_all_survive 100 90 sigma r T 130 n hT
    (fun _ => 0) 0 (fun j _ k _ _ => by
      rw [spotAt_flat _ _ _ _ _ _ (fun _ => h0)]
      norm_num)
  refine ⟨res, h1, h2, ?_⟩
  rw [h3]
  apply List.ext_get
  · simp
  · intro i hi1 hi2
    simp only [List.get_eq_getElem, List.getElem_map, List.getElem_range,
      List.getElem_replicate]
    rw [spotAt_flat _ _ _ _ _ _ (fun _ => h0)]
    norm_num

/-! ## The claims -/

/-- C1. Survivor-count invariant of `BarrierOption::price`: for `nSim >= 1`, on every
sequence of normal draws the run returns, and the returned `barrierHits` plus the
number of stored payoffs equals `nSim`; the same equality holds for every normal
source whenever the run returns.  It holds for every interpretation of the
`double` operations. -/
theorem C1_survivor_count {α : Type} [DoubleOps α] (p : BarrierOption α) (hn : 1 ≤ p.nSim) :
    (∀ (z : Nat → α) (g : Nat), ∃ res, p.priceWith (seqDraw z) g = some res ∧
        res.barrierHits + res.payoffs.length = p.nSim) ∧
    (∀ (σ : Type) (draw : σ → Option (α × σ)) (g : σ) (res : PriceResult α σ),
        p.priceWith draw g = some res → res.barrierHits + res.payoffs.length = p.nSim) := by
  have hcast : ((p.nSim.toNat : Nat) : Int) = p.nSim := Int.toNat_of_nonneg (by omega)
  refine ⟨fun z g => ?_, fun σ draw g res h => ?_⟩
  · obtain ⟨res, hres⟩ := priceWith_seq_some p z g
    exact ⟨res, hres, by rw [priceWith_count p _ g res hres, hcast]⟩
  · rw [priceWith_count p draw g res h, hcast]

/-- C1 at `S0 = 100, K = 110, sigma = 0.25, r = 0.05, T = 0.75, b = 130, nSim = 3`
with all draws equal to `0`. -/
theorem C1_survivor_count_witness :
    (1 : Int) ≤ (BarrierOption.ofReal 100 110 0.25 0.05 0.75 130 3).nSim ∧
    ∃ res, (BarrierOption.ofReal 100 110 0.25 0.05 0.75 130 3).priceWith
        (seqDraw (fun _ => Dbl.fin 0)) 0 = some res ∧
      res.barrierHits + res.payoffs.length = 3 :=
  ⟨by decide,
    (C1_survivor_count (BarrierOption.ofReal 100 110 0.25 0.05 0.75 130 3) (by decide)).1
      (fun _ => Dbl.fin 0) 0⟩

/-- C2 fails for a negative time to maturity: at `S0 = 100, K = 110, sigma = 0.25, r = 0.05,
T = -1, b = 130` with all draws `0`, `sqrt(dt)` is `NaN`, every one of the 100 updated spots
is `NaN`, for which `< b` is false, and yet the path is a survivor: the flag stays unset,
no hit is counted and a payoff is stored. -/
theorem C2_knock_out_classification_counterexample :
    ∃ ps st',
      stepLoop (BarrierOption.ofReal 100 110 0.25 0.05 (-1) 130 1)
          (seqDraw (fun _ => Dbl.fin 0)) 0 100 0
          { hitBarrier := false, this_spot := Dbl.fin 100, trajectory := [], cout := [],
            gen := 0 } = some ps ∧
      pathIter (BarrierOption.ofReal 100 110 0.25 0.05 (-1) 130 1)
          (seqDraw (fun _ => Dbl.fin 0)) 0 (initSim 0) = some st' ∧
      ps.hitBarrier = false ∧ st'.barrierHits = 0 ∧ st'.payoffs.length = 1 ∧
      ps.trajectory.length = 100 ∧
      ∀ x ∈ ps.trajectory, x = Dbl.nan ∧ lt x (Dbl.fin 130) = false := by
  obtain ⟨ps, h1, h2, -, h4, -⟩ := stepLoop_seq_init
    (BarrierOption.ofReal 100 110 0.25 0.05 (-1) 130 1) (fun _ => Dbl.fin 0) 0 0 []
  have hb := breached_neg_T 100 110 0.25 0.05 (-1) 130 1 (by norm_num) (fun _ => Dbl.fin 0)
    0 100 0
  have hstop := (breached_false _ _ _ _ _ hb).1
  have hiter := pathIter_seq (BarrierOption.ofReal 100 110 0.25 0.05 (-1) 130 1)
    (fun _ => Dbl.fin 0) 0 (initSim 0)
  have hg : (initSim 0 : SimState Dbl Nat).gen = 0 := rfl
  rw [hg, if_pos hb] at hiter
  rw [hstop] at h4
  refine ⟨ps, _, h1, hiter, by rw [h2, hb], rfl, rfl, by rw [h4, visited_length], ?_⟩
  intro x hx
  rw [h4] at hx
  simp only [visited, List.mem_map, List.mem_range] at hx
  obtain ⟨k, -, rfl⟩ := hx
  rw [walk_neg_T _ _ _ _ _ _ _ (by norm_num)]
  exact ⟨rfl, rfl⟩

/-- C2, amended. Knock-out classification, for every interpretation of the `double`
operations and every sequence of draws: with `S_0 = S0` and
`S_(k+1) = S_k * exp((r - 0.5*sigma*sigma)*dt + sigma*sqrt(dt)*z_(k+1))`, `dt = T/100`, as
the program computes them, the path is counted as a barrier hit if and only if some step
`k` in `1..100` has `S_k >= b`; the loop then stops at the first such `k` (it has visited
`k` spots, its spot is `S_k`, it has consumed `k` draws and takes no further step); and the
path is a survivor if and only if no step `k` in `1..100` has `S_k >= b`. -/
theorem C2_knock_out_classification {α : Type} [DoubleOps α] (p : BarrierOption α)
    (z : Nat → α) (i : Nat) (st : SimState α Nat) :
    walk p z st.gen 0 = p.S0 ∧
    (∀ k, walk p z st.gen (k + 1) = walk p z st.gen k *
      exp ((p.r - half * p.sigma * p.sigma) * (p.T / ofNat 100)
        + p.sigma * sqrt (p.T / ofNat 100) * z (st.gen + k))) ∧
    ∃ ps st',
      stepLoop p (seqDraw z) i 100 0
          { hitBarrier := false, this_spot := p.S0, trajectory := [], cout := st.cout,
            gen := st.gen } = some ps ∧
      pathIter p (seqDraw z) i st = some st' ∧
      (ps.hitBarrier = true ↔ ∃ k, 1 ≤ k ∧ k ≤ 100 ∧ ge (walk p z st.gen k) p.b = true) ∧
      ((st'.barrierHits = st.barrierHits + 1 ∧ st'.payoffs = st.payoffs)
        ↔ ∃ k, 1 ≤ k ∧ k ≤ 100 ∧ ge (walk p z st.gen k) p.b = true) ∧
      (ps.hitBarrier = true →
        1 ≤ ps.trajectory.length ∧ ps.trajectory.length ≤ 100 ∧
        ge (walk p z st.gen ps.trajectory.length) p.b = true ∧
        (∀ k, 1 ≤ k → k < ps.trajectory.length → ge (walk p z st.gen k) p.b = false) ∧
        ps.this_spot = walk p z st.gen ps.trajectory.length ∧
        ps.gen = st.gen + ps.trajectory.length) ∧
      (ps.hitBarrier = false ↔
        ∀ k, 1 ≤ k → k ≤ 100 → ge (walk p z st.gen k) p.b = false) ∧
      ((st'.barrierHits = st.barrierHits ∧ st'.payoffs.length = st.payoffs.length + 1)
        ↔ ∀ k, 1 ≤ k → k ≤ 100 → ge (walk p z st.gen k) p.b = false) := by
  refine ⟨rfl, fun k => rfl, ?_⟩
  obtain ⟨ps, hps, hflag, hspot, htraj, hgen⟩ := stepLoop_seq_init p z i st.gen st.cout
  have hiter := pathIter_seq p z i st
  have hT1 := breached_iff_steps p z st.gen
  have hF1 := breached_false_iff_steps p z st.gen
  have hlen : ps.trajectory.length = stopStep p z st.gen 100 0 := by
    rw [htraj, visited_length]
  refine ⟨ps, _, hps, hiter, by rw [hflag]; exact hT1, ?_, ?_, by rw [hflag]; exact hF1, ?_⟩
  · rw [← hT1]
    by_cases hb : breached p z st.gen 100 0 = true
    · simp [hb]
    · have hb' : breached p z st.gen 100 0 = false := by simpa using hb
      simp [hb']
  · intro hb
    rw [hflag] at hb
    obtain ⟨h1, h2⟩ := breached_true _ _ _ _ _ hb
    have h3 := stopStep_le p z st.gen 100 0
    rw [hlen]
    exact ⟨by omega, by omega, h2,
      fun k hk1 hk2 => no_breach_before_stop p z st.gen 100 0 k (by omega) hk2, hspot, hgen⟩
  · rw [← hF1]
    by_cases hb : breached p z st.gen 100 0 = true
    · simp [hb]
    · have hb' : breached p z st.gen 100 0 = false := by simpa using hb
      simp [hb']

/-- C4. Estimate, for every interpretation of the `double` operations and every normal
source: whenever the survivor collection is not empty at the end of a run, the returned
value is `(sum of the stored payoffs / number of stored payoffs) * exp(-r*T)`, the sum
taken from `0.0` in simulation order; the divisor is the number of survivors
`nSim - barrierHits` and not `nSim`; and on a sequence of draws the stored payoffs are
exactly those of the paths that were not knocked out, in order. -/
theorem C4_estimate {α : Type} [DoubleOps α] (p : BarrierOption α) {σ : Type}
    (draw : σ → Option (α × σ)) (g : σ) (res : PriceResult α σ)
    (hres : p.priceWith draw g = some res) (hne : res.payoffs ≠ []) :
    res.value = res.payoffs.foldl (fun a x => a + x) (ofNat 0) / ofNat res.payoffs.length
      * exp (-p.r * p.T) ∧
    (res.payoffs.length : Int) = p.nSim - res.barrierHits ∧
    0 ≤ res.barrierHits ∧
    (∀ (z : Nat → α) (g' : Nat), ∃ res', p.priceWith (seqDraw z) g' = some res' ∧
      res'.payoffs = (survivors p z g' p.nSim.toNat).map
        (fun i => dmax (walk p z (pathStart p z g' i) 100 - p.K) (ofNat 0)) ∧
      (∀ i, i ∈ survivors p z g' p.nSim.toNat ↔
        i < p.nSim.toNat ∧ breached p z (pathStart p z g' i) 100 0 = false) ∧
      res'.barrierHits = p.nSim.toNat - (survivors p z g' p.nSim.toNat).length) := by
  have hc := priceWith_count p draw g res hres
  have hb : 0 ≤ res.barrierHits := priceWith_hits_nonneg p draw g res hres
  have hpos : 0 < res.payoffs.length := List.length_pos.mpr hne
  refine ⟨(priceWith_value p draw g res hres).1, by omega, hb, fun z g' => ?_⟩
  obtain ⟨res', h1, h2, -, -⟩ := priceWith_seq_closed p z g'
  have hc' := priceWith_count p _ g' res' h1
  rw [h2, List.length_map] at hc'
  exact ⟨res', h1, h2, fun i => mem_survivors p z g' _ i, by omega⟩

/-- C4 at `S0 = 100, K = 90, sigma = 1, r = 0.5, T = 100, b = 130, nSim = 3` on the draws
`1, 0, 0, ...`: the first path is knocked out, two paths survive with payoff `10`, and the
divisor is `2`. -/
theorem C4_estimate_witness :
    ∃ res : PriceResult Dbl Nat,
      (BarrierOption.ofReal 100 90 1 0.5 100 130 3).priceWith
        (seqDraw (fun n => Dbl.fin ((fun m => if m = 0 then (1 : ℝ) else 0) n))) 0 = some res ∧
      res.barrierHits = 1 ∧ res.payoffs = [Dbl.fin 10, Dbl.fin 10] ∧ res.payoffs ≠ [] ∧
      res.value = res.payoffs.foldl (fun a x => a + x) (ofNat 0) / ofNat res.payoffs.length
        * exp (-(Dbl.fin 0.5) * Dbl.fin 100) ∧
      (res.payoffs.length : Int) = 3 - res.barrierHits := by
  obtain ⟨res, h1, h2, h3⟩ := priceWith_mixed_example
  have hne : res.payoffs ≠ [] := by rw [h3]; simp
  obtain ⟨c1, c2, -⟩ := C4_estimate (BarrierOption.ofReal 100 90 1 0.5 100 130 3) _ 0 res h1 hne
  exact ⟨res, h1, h2, h3, hne, c1, c2⟩

/-- C5. Standard deviation output, for every interpretation of the `double` operations and
every normal source, `nSim` being an `int` (at most `2^31 - 1`): whenever at least two
payoffs `p_1..p_N` are stored at the end of a run, `N - 1` does not wrap, and with
`m = (sum of the p_i) / N` the value written to `stddev_price` is
`sqrt((sum_i (p_i - m)*(p_i - m)) / (N - 1))`, the sums taken from `0.0` in simulation
order. -/
theorem C5_stddev {α : Type} [DoubleOps α] (p : BarrierOption α) {σ : Type}
    (draw : σ → Option (α × σ)) (g : σ) (res : PriceResult α σ)
    (hres : p.priceWith draw g = some res) (hInt : p.nSim ≤ 2147483647)
    (h2 : 2 ≤ res.payoffs.length) :
    size_t_sub res.payoffs.length 1 = res.payoffs.length - 1 ∧
    res.stddev_price = sqrt (res.payoffs.foldl
        (fun acc payoff =>
          acc + (payoff - res.payoffs.foldl (fun a x => a + x) (ofNat 0) / ofNat res.payoffs.length)
            * (payoff - res.payoffs.foldl (fun a x => a + x) (ofNat 0)
                / ofNat res.payoffs.length)) (ofNat 0)
        / ofNat (res.payoffs.length - 1)) := by
  have hc := priceWith_count p draw g res hres
  have hb : 0 ≤ res.barrierHits := priceWith_hits_nonneg p draw g res hres
  have hs : size_t_sub res.payoffs.length 1 = res.payoffs.length - 1 :=
    size_t_sub_one _ (by omega) (by omega)
  refine ⟨hs, ?_⟩
  rw [← hs]
  exact (priceWith_value p draw g res hres).2

/-- C5 at `S0 = 100, K = 90, sigma = 1, r = 0.5, T = 100, b = 130, nSim = 3` on the draws
`1, 0, 0, ...`: the first path is knocked out and two paths survive. -/
theorem C5_stddev_witness :
    ∃ res : PriceResult Dbl Nat,
      (BarrierOption.ofReal 100 90 1 0.5 100 130 3).priceWith
        (seqDraw (fun n => Dbl.fin ((fun m => if m = 0 then (1 : ℝ) else 0) n))) 0 = some res ∧
      (BarrierOption.ofReal 100 90 1 0.5 100 130 3).nSim ≤ 2147483647 ∧
      2 ≤ res.payoffs.length ∧
      size_t_sub res.payoffs.length 1 = res.payoffs.length - 1 ∧
      res.stddev_price = sqrt (res.payoffs.foldl
          (fun acc payoff =>
            acc + (payoff - res.payoffs.foldl (fun a x => a + x) (ofNat 0)
                / ofNat res.payoffs.length)
              * (payoff - res.payoffs.foldl (fun a x => a + x) (ofNat 0)
                  / ofNat res.payoffs.length)) (ofNat 0)
          / ofNat (res.payoffs.length - 1)) := by
  obtain ⟨res, h1, -, h3⟩ := priceWith_mixed_example
  have h2 : 2 ≤ res.payoffs.length := by rw [h3]; simp
  exact ⟨res, h1, by decide, h2,
    C5_stddev (BarrierOption.ofReal 100 90 1 0.5 100 130 3) _ 0 res h1 (by decide) h2⟩

/-- C6. All paths knocked out: when the survivor collection is empty at the end of a
run, the mean is `0 / 0`, so the returned value is `NaN` whatever the discount factor,
and the hit counter is the number of simulated paths; the run itself returns (on a
sequence of draws it always does). -/
theorem C6_all_knocked_out (p : BarrierOption Dbl) {σ : Type}
    (draw : σ → Option (Dbl × σ)) (g : σ) (res : PriceResult Dbl σ)
    (hres : p.priceWith draw g = some res) (hempty : res.payoffs = []) :
    res.value = Dbl.nan ∧ res.barrierHits = p.nSim.toNat := by
  constructor
  · rw [(priceWith_value p draw g res hres).1, hempty]
    simp
  · have hc := priceWith_count p draw g res hres
    rw [hempty] at hc
    simpa using hc

/-- C6 at `S0 = 100, K = 110, sigma = 0, r = 0, T = 1, b = 50, nSim = 2`, all draws `0`:
both paths are knocked out at their first step. -/
theorem C6_all_knocked_out_witness :
    ∃ res : PriceResult Dbl Nat,
      (BarrierOption.ofReal 100 110 0 0 1 50 2).priceWith
        (seqDraw (fun n => Dbl.fin ((fun _ => (0 : ℝ)) n))) 0 = some res ∧
      res.payoffs = [] ∧
      res.value = Dbl.nan ∧
      res.barrierHits = ((BarrierOption.ofReal 100 110 0 0 1 50 2).nSim.toNat : Int) := by
  obtain ⟨res, h1, h2, -⟩ := priceWith_fin_all_knocked 100 110 0 0 1 50 2 (by norm_num)
    (fun _ => 0) 0 (fun off => by simp [spotAt, logIncrement]; norm_num)
  exact ⟨res, h1, h2, C6_all_knocked_out (BarrierOption.ofReal 100 110 0 0 1 50 2) _ 0 res h1 h2⟩

/-- C8. Determinism: the result of `price` (returned value, `stddev_price`, `barrierHits`
and everything else it produces, the generator position included) is a function of
the stored parameters and of the generator outputs the run consumes: a second run with
the same parameters on any output stream that agrees with the first on the consumed
positions `pos, ..., res.gen - 1` returns the identical result and consumes the same
number of outputs; the bound on the rejection loop plays no role once it suffices. -/
theorem C8_determinism {α : Type} [DoubleOps α] (RAND_MAX : Nat) (rand rand' : Nat → Nat)
    (fuel fuel' : Nat) (p : BarrierOption α) (pos : Nat) (res : PriceResult α Nat)
    (hres : p.price RAND_MAX rand fuel pos = some res) (hfuel : fuel ≤ fuel')
    (hag : ∀ n, pos ≤ n → n < res.gen → rand' n = rand n) :
    p.price RAND_MAX rand' fuel' pos = some res ∧ pos ≤ res.gen :=
  price_congr RAND_MAX rand rand' fuel fuel' hfuel p pos res hres hag

/-- C8 at `RAND_MAX = 4`, outputs `3, 3, 3, ...` against outputs `3, 3, 0, 0, ...`, with
`S0 = 100, K = 110, sigma = 0, r = 0, T = 1, b = 50, nSim = 1`: the run consumes two outputs. -/
theorem C8_determinism_witness :
    ∃ res : PriceResult Dbl Nat,
      (BarrierOption.ofReal 100 110 0 0 1 50 1).price 4 (fun _ => 3) 1 0 = some res ∧
      (1 : Nat) ≤ 7 ∧
      (∀ n, 0 ≤ n → n < res.gen → (fun m => if m < 2 then 3 else 0) n = (fun _ => 3) n) ∧
      (BarrierOption.ofReal 100 110 0 0 1 50 1).price 4 (fun m => if m < 2 then 3 else 0) 7 0
        = some res ∧
      0 ≤ res.gen := by
  obtain ⟨res, h1, h2⟩ := price_example
  have hag : ∀ n, 0 ≤ n → n < res.gen →
      (fun m => if m < 2 then 3 else 0) n = (fun _ => 3) n := by
    intro n _ hn
    rw [h2] at hn
    simp [hn]
  exact ⟨res, h1, by decide, hag,
    C8_determinism 4 (fun _ => 3) (fun m => if m < 2 then 3 else 0) 1 7
      (BarrierOption.ofReal 100 110 0 0 1 50 1) 0 res h1 (by decide) hag⟩

/-- C10 fails when the discount factor underflows: in arithmetic with the range of
binary64, at `S0 = 100, K = 90, T = 100, b = 130, nSim = 1` with all draws `0`, the run with
`r1 = 12.5, sigma = 5` and the run with `r2 = 18, sigma = 6` have the same strictly
positive survivor mean `10`, `r1 < r2` and `T > 0`; both discount factors `exp(-1250)`
and `exp(-1800)` underflow to `0`, so both estimates are `0` and the larger rate does
not give the strictly smaller estimate. -/
theorem C10_discount_monotonicity_counterexample :
    ∃ res1 res2,
      (BarrierOption.ofRange 100 90 5 12.5 100 (Dbl.fin 130) 1).priceWith
        (seqDraw (fun _ => ⟨Dbl.fin 0⟩)) 0 = some res1 ∧
      (BarrierOption.ofRange 100 90 6 18 100 (Dbl.fin 130) 1).priceWith
        (seqDraw (fun _ => ⟨Dbl.fin 0⟩)) 0 = some res2 ∧
      lt (BarrierOption.ofRange 100 90 5 12.5 100 (Dbl.fin 130) 1).r
        (BarrierOption.ofRange 100 90 6 18 100 (Dbl.fin 130) 1).r = true ∧
      lt (ofNat 0) (BarrierOption.ofRange 100 90 5 12.5 100 (Dbl.fin 130) 1).T = true ∧
      res1.payoffs.foldl (fun a x => a + x) (ofNat 0) / ofNat res1.payoffs.length
        = ⟨Dbl.fin 10⟩ ∧
      res2.payoffs.foldl (fun a x => a + x) (ofNat 0) / ofNat res2.payoffs.length
        = ⟨Dbl.fin 10⟩ ∧
      exp (-(BarrierOption.ofRange 100 90 5 12.5 100 (Dbl.fin 130) 1).r
        * (BarrierOption.ofRange 100 90 5 12.5 100 (Dbl.fin 130) 1).T) = ⟨Dbl.fin 0⟩ ∧
      exp (-(BarrierOption.ofRange 100 90 6 18 100 (Dbl.fin 130) 1).r
        * (BarrierOption.ofRange 100 90 6 18 100 (Dbl.fin 130) 1).T) = ⟨Dbl.fin 0⟩ ∧
      res1.value = ⟨Dbl.fin 0⟩ ∧ res2.value = ⟨Dbl.fin 0⟩ ∧
      lt res2.value res1.value = false := by
  obtain ⟨res1, a1, -, -, a4, a5, a6⟩ := priceWith_underflow_example 5 12.5
    (Or.inl ⟨rfl, rfl⟩)
  obtain ⟨res2, b1, -, -, b4, b5, b6⟩ := priceWith_underflow_example 6 18
    (Or.inr ⟨rfl, rfl⟩)
  refine ⟨res1, res2, a1, b1, ?_, ?_, a4, b4, a5, b5, a6, b6, ?_⟩
  · norm_num [BarrierOption.ofRange]
  · norm_num [BarrierOption.ofRange, Dbl.clip]
  · rw [a6, b6]
    norm_num

/-- C10, amended. Discount factor: the estimate returned by `BarrierOption::price` is the
survivor mean multiplied by the computed factor `exp(-r*T)`.  For two runs with one and the
same finite, strictly positive survivor mean `m` the estimates are `m * d1` and `m * d2`
with the computed factors `d1`, `d2`: when `d2 <= d1` the second estimate is smaller than
or equal to the first, and when `d2 = d1` (as when both factors underflow to `0`) the two
estimates are equal, so the larger rate need not give a strictly smaller estimate; for
finite rates `r1 <= r2` and one finite `T >= 0`, `d2 <= d1` holds. -/
theorem C10_discount_monotonicity (p1 p2 : BarrierOption Dbl) {σ1 σ2 : Type}
    (draw1 : σ1 → Option (Dbl × σ1)) (draw2 : σ2 → Option (Dbl × σ2)) (g1 : σ1) (g2 : σ2)
    (res1 : PriceResult Dbl σ1) (res2 : PriceResult Dbl σ2) (m : ℝ)
    (h1 : p1.priceWith draw1 g1 = some res1) (h2 : p2.priceWith draw2 g2 = some res2)
    (hm1 : res1.payoffs.foldl (fun a x => a + x) (ofNat 0) / ofNat res1.payoffs.length
      = Dbl.fin m)
    (hm2 : res2.payoffs.foldl (fun a x => a + x) (ofNat 0) / ofNat res2.payoffs.length
      = Dbl.fin m)
    (hm : 0 < m) :
    res1.value = Dbl.fin m * exp (-p1.r * p1.T) ∧
    res2.value = Dbl.fin m * exp (-p2.r * p2.T) ∧
    (ge (exp (-p1.r * p1.T)) (exp (-p2.r * p2.T)) = true →
      ge res1.value res2.value = true) ∧
    (exp (-p2.r * p2.T) = exp (-p1.r * p1.T) → res2.value = res1.value) ∧
    (∀ r1 r2 T : ℝ, p1.r = Dbl.fin r1 → p2.r = Dbl.fin r2 → p1.T = Dbl.fin T →
      p2.T = Dbl.fin T → r1 ≤ r2 → 0 ≤ T →
      ge (exp (-p1.r * p1.T)) (exp (-p2.r * p2.T)) = true) := by
  have v1 : res1.value = Dbl.fin m * exp (-p1.r * p1.T) := by
    rw [(priceWith_value p1 draw1 g1 res1 h1).1, hm1]
  have v2 : res2.value = Dbl.fin m * exp (-p2.r * p2.T) := by
    rw [(priceWith_value p2 draw2 g2 res2 h2).1, hm2]
  refine ⟨v1, v2, fun hge => ?_, fun heq => by rw [v1, v2, heq], ?_⟩
  · rw [v1, v2]
    generalize (exp (-p1.r * p1.T) : Dbl) = d1 at hge
    generalize (exp (-p2.r * p2.T) : Dbl) = d2 at hge
    cases d1 with
    | fin a =>
      cases d2 with
      | fin c =>
        simp only [Dbl.ge_def, Dbl.ge_fin, decide_eq_true_eq] at hge
        simp only [Dbl.ge_def, Dbl.mul_def, Dbl.mul_fin, Dbl.ge_fin, decide_eq_true_eq]
        exact mul_le_mul_of_nonneg_left hge hm.le
      | pinf => simp [Dbl.ge] at hge
      | ninf => simp [Dbl.mul, Dbl.infTimes, hm, Dbl.ge]
      | nan => simp at hge
    | pinf =>
      cases d2 with
      | fin c => simp [Dbl.mul, Dbl.infTimes, hm, Dbl.ge]
      | pinf => simp [Dbl.mul, Dbl.infTimes, hm, Dbl.ge]
      | ninf => simp [Dbl.mul, Dbl.infTimes, hm, Dbl.ge]
      | nan => simp at hge
    | ninf =>
      cases d2 with
      | fin c => simp [Dbl.ge] at hge
      | pinf => simp [Dbl.ge] at hge
      | ninf => simp [Dbl.mul, Dbl.infTimes, hm, Dbl.ge]
      | nan => simp at hge
    | nan => simp at hge
  · intro r1 r2 T e1 e2 e3 e4 hr hT
    rw [e1, e2, e3, e4]
    simp only [Dbl.neg_def, Dbl.neg_fin, Dbl.mul_def, Dbl.mul_fin, Dbl.exp_def, Dbl.exp_fin,
      Dbl.ge_def, Dbl.ge_fin, decide_eq_true_eq]
    apply Real.exp_le_exp.mpr
    nlinarith

/-- C10, amended, at `S0 = 100, K = 90, T = 1, b = 130, nSim = 1` with all draws `0`, for
`r1 = 0, sigma = 0` against `r2 = 0.5, sigma = 1`: both runs have the survivor mean `10`. -/
theorem C10_discount_monotonicity_witness :
    ∃ res1 res2 : PriceResult Dbl Nat,
      (BarrierOption.ofReal 100 90 0 0 1 130 1).priceWith
        (seqDraw (fun m => Dbl.fin ((fun _ => (0 : ℝ)) m))) 0 = some res1 ∧
      (BarrierOption.ofReal 100 90 1 0.5 1 130 1).priceWith
        (seqDraw (fun m => Dbl.fin ((fun _ => (0 : ℝ)) m))) 0 = some res2 ∧
      res1.payoffs.foldl (fun a x => a + x) (ofNat 0) / ofNat res1.payoffs.length
        = Dbl.fin 10 ∧
      res2.payoffs.foldl (fun a x => a + x) (ofNat 0) / ofNat res2.payoffs.length
        = Dbl.fin 10 ∧
      (0 : ℝ) < 10 ∧
      res1.value = Dbl.fin 10 * exp (-(Dbl.fin 0) * Dbl.fin 1) ∧
      res2.value = Dbl.fin 10 * exp (-(Dbl.fin 0.5) * Dbl.fin 1) ∧
      ge (exp (-(Dbl.fin 0) * Dbl.fin 1) : Dbl) (exp (-(Dbl.fin 0.5) * Dbl.fin 1)) = true ∧
      ge res1.value res2.value = true := by
  obtain ⟨res1, a1, -, a3⟩ := priceWith_flat_example 0 0 1 (by norm_num)
    (by simp [logIncrement]) 1
  obtain ⟨res2, b1, -, b3⟩ := priceWith_flat_example 1 0.5 1 (by norm_num)
    (by norm_num [logIncrement]) 1
  have a3' : res1.payoffs = [Dbl.fin 10] := a3
  have b3' : res2.payoffs = [Dbl.fin 10] := b3
  have hm1 : res1.payoffs.foldl (fun a x => a + x) (ofNat 0) / ofNat res1.payoffs.length
      = Dbl.fin 10 := by
    rw [a3']
    simp [Dbl.div]
  have hm2 : res2.payoffs.foldl (fun a x => a + x) (ofNat 0) / ofNat res2.payoffs.length
      = Dbl.fin 10 := by
    rw [b3']
    simp [Dbl.div]
  obtain ⟨c1, c2, c3, -, c5⟩ := C10_discount_monotonicity
    (BarrierOption.ofReal 100 90 0 0 1 130 1) (BarrierOption.ofReal 100 90 1 0.5 1 130 1)
    _ _ 0 0 res1 res2 10 a1 b1 hm1 hm2 (by norm_num)
  have hge := c5 0 0.5 1 rfl rfl rfl rfl (by norm_num) (by norm_num)
  exact ⟨res1, res2, a1, b1, hm1, hm2, by norm_num, c1, c2, hge, c3 hge⟩

/-- C11. Return value of `GetOneGaussianByBoxMuller`, for every interpretation of the
`double` operations: the value of an attempt is `s = x*x + y*y` with
`x = 2.0*rand()/RAND_MAX - 1` and `y` likewise from the next output; when the output
stream contains an attempt `m` whose `s` fails the loop test `s >= 1.0`, there is a first
such attempt `j <= m`, every earlier attempt satisfies `s >= 1.0` and is discarded, and
with fuel for `j + 1` attempts the routine returns the single value
`x * sqrt(-2*log(s)/s)` built from the `x` and `s` of attempt `j`, after consuming exactly
`2 * (j + 1)` outputs (two per attempt); with less fuel it does not return.  For
`RAND_MAX > 0` the value `s` is a number, for which failing `s >= 1.0` is `s < 1.0`. -/
theorem C11_box_muller_return {α : Type} [DoubleOps α] (RAND_MAX : Nat) (rand : Nat → Nat)
    (pos m : Nat)
    (hm : ge (sizeSquaredAt RAND_MAX rand (pos + 2 * m) : α) (ofNat 1) = false) :
    (∀ q, (sizeSquaredAt RAND_MAX rand q : α)
      = (ofNat 2 * ofNat (rand q) / ofNat RAND_MAX - ofNat 1)
          * (ofNat 2 * ofNat (rand q) / ofNat RAND_MAX - ofNat 1)
        + (ofNat 2 * ofNat (rand (q + 1)) / ofNat RAND_MAX - ofNat 1)
          * (ofNat 2 * ofNat (rand (q + 1)) / ofNat RAND_MAX - ofNat 1)) ∧
    (∀ q, (boxMullerValue RAND_MAX rand q : α)
      = (ofNat 2 * ofNat (rand q) / ofNat RAND_MAX - ofNat 1)
          * sqrt (-(ofNat 2) * log (sizeSquaredAt RAND_MAX rand q)
              / sizeSquaredAt RAND_MAX rand q)) ∧
    (∃ j, j ≤ m ∧
      ge (sizeSquaredAt RAND_MAX rand (pos + 2 * j) : α) (ofNat 1) = false ∧
      (∀ i, i < j → ge (sizeSquaredAt RAND_MAX rand (pos + 2 * i) : α) (ofNat 1) = true) ∧
      (∀ fuel, j < fuel →
        GetOneGaussianByBoxMuller RAND_MAX rand fuel pos
          = some ((boxMullerValue RAND_MAX rand (pos + 2 * j) : α), pos + 2 * (j + 1))) ∧
      (∀ fuel, fuel ≤ j →
        (GetOneGaussianByBoxMuller RAND_MAX rand fuel pos : Option (α × Nat)) = none)) ∧
    (∀ q, 0 < RAND_MAX →
      (ge (sizeSquaredAt RAND_MAX rand q : Dbl) (ofNat 1) = false
        ↔ lt (sizeSquaredAt RAND_MAX rand q : Dbl) (ofNat 1) = true)) := by
  classical
  have hex : ∃ j, ge (sizeSquaredAt RAND_MAX rand (pos + 2 * j) : α) (ofNat 1) = false :=
    ⟨m, hm⟩
  have hrej : ∀ i, i < Nat.find hex →
      ge (sizeSquaredAt RAND_MAX rand (pos + 2 * i) : α) (ofNat 1) = true := by
    intro i hi
    simpa using Nat.find_min hex hi
  refine ⟨fun q => rfl, fun q => rfl,
    ⟨Nat.find hex, Nat.find_min' hex hm, Nat.find_spec hex, hrej, fun fuel hf => ?_,
      fun fuel hf => ?_⟩, fun q hR => ?_⟩
  · exact boxMuller_first_accept RAND_MAX rand (Nat.find hex) fuel pos (Nat.find_spec hex)
      hrej hf
  · cases hres : (GetOneGaussianByBoxMuller RAND_MAX rand fuel pos : Option (α × Nat)) with
    | none => rfl
    | some vp =>
      obtain ⟨v, pos'⟩ := vp
      obtain ⟨j, h1, -, h3, -, -⟩ := boxMuller_returns RAND_MAX rand fuel pos v pos' hres
      have := hrej j (by omega)
      rw [h3] at this
      exact absurd this Bool.false_ne_true
  · rw [sizeSquaredAt_fin _ _ _ hR]
    simp

/-- C11 at `RAND_MAX = 2^31 - 1` with outputs `0, 0, 1073741823, 1073741823, ...`: the first
attempt has `x = y = -1` and `s = 2`, the second has `s < 1` and is accepted. -/
theorem C11_box_muller_return_witness :
    ge (sizeSquaredAt 2147483647 (fun n => if n < 2 then 0 else 1073741823) (0 + 2 * 1) : Dbl)
      (ofNat 1) = false ∧
    ∃ j, j ≤ 1 ∧
      ge (sizeSquaredAt 2147483647 (fun n => if n < 2 then 0 else 1073741823) (0 + 2 * j) : Dbl)
        (ofNat 1) = false ∧
      (∀ i, i < j →
        ge (sizeSquaredAt 2147483647 (fun n => if n < 2 then 0 else 1073741823) (0 + 2 * i) : Dbl)
          (ofNat 1) = true) ∧
      (∀ fuel, j < fuel →
        GetOneGaussianByBoxMuller 2147483647 (fun n => if n < 2 then 0 else 1073741823) fuel 0
          = some ((boxMullerValue 2147483647 (fun n => if n < 2 then 0 else 1073741823)
              (0 + 2 * j) : Dbl), 0 + 2 * (j + 1))) ∧
      (∀ fuel, fuel ≤ j →
        (GetOneGaussianByBoxMuller 2147483647 (fun n => if n < 2 then 0 else 1073741823) fuel 0
          : Option (Dbl × Nat)) = none) := by
  have hacc : ge (sizeSquaredAt 2147483647 (fun n => if n < 2 then 0 else 1073741823)
      (0 + 2 * 1) : Dbl) (ofNat 1) = false := by
    rw [ge_sizeSquaredAt _ _ _ (by norm_num)]
    simp [sizeSquaredR, uniformR]
    norm_num
  exact ⟨hacc,
    (C11_box_muller_return 2147483647 (fun n => if n < 2 then 0 else 1073741823) 0 1 hacc).2.2.1⟩

/-- C12 fails at the ends of the range: for `RAND_MAX = 2^31 - 1` the output `u = 0` gives
`x = -1`, which is not strictly greater than `-1`. -/
theorem C12_uniform_range_counterexample :
    (uniformOf 2147483647 0 : Dbl) = Dbl.fin (-1) ∧
    ¬ ∃ x : ℝ, (uniformOf 2147483647 0 : Dbl) = Dbl.fin x ∧ -1 < x ∧ x < 1 := by
  have h : (uniformOf 2147483647 0 : Dbl) = Dbl.fin (-1) := by
    rw [uniformOf_fin _ _ (by norm_num)]
    simp [uniformR]
  refine ⟨h, ?_⟩
  rintro ⟨x, hx, h1, -⟩
  rw [h] at hx
  injection hx with hx
  linarith

/-- C12, amended. For `RAND_MAX > 0` and every output `u` with `0 <= u <= RAND_MAX`, the
value `2*u/RAND_MAX - 1` assigned to `x` (and to `y`) is a real number in the closed
interval `[-1, 1]`; it is `-1` exactly for `u = 0` and `1` exactly for `u = RAND_MAX`. -/
theorem C12_uniform_range (RAND_MAX u : Nat) (hR : 0 < RAND_MAX) (hu : u ≤ RAND_MAX) :
    (uniformOf RAND_MAX u : Dbl) = Dbl.fin (uniformR RAND_MAX u) ∧
    -1 ≤ uniformR RAND_MAX u ∧ uniformR RAND_MAX u ≤ 1 ∧
    (uniformR RAND_MAX u = -1 ↔ u = 0) ∧ (uniformR RAND_MAX u = 1 ↔ u = RAND_MAX) :=
  ⟨uniformOf_fin RAND_MAX u hR, uniformR_range RAND_MAX u hR hu⟩

/-- C12, amended, at `RAND_MAX = 2^31 - 1` and `u = 2^31 - 1`. -/
theorem C12_uniform_range_witness :
    0 < 2147483647 ∧ 2147483647 ≤ 2147483647 ∧
    (uniformOf 2147483647 2147483647 : Dbl) = Dbl.fin (uniformR 2147483647 2147483647) ∧
    -1 ≤ uniformR 2147483647 2147483647 ∧ uniformR 2147483647 2147483647 ≤ 1 ∧
    (uniformR 2147483647 2147483647 = -1 ↔ 2147483647 = 0) ∧
    (uniformR 2147483647 2147483647 = 1 ↔ 2147483647 = 2147483647) :=
  ⟨by norm_num, le_refl _, C12_uniform_range 2147483647 2147483647 (by norm_num) (le_refl _)⟩

/-- C13. Draw consumption of `price` on a sequence of draws, for every interpretation of
the `double` operations: the run returns; path `i` starts at the draw right after the last
draw of path `i - 1` (the first path at the first draw); it takes one draw per simulated
step and none after its last step, which is the breach step (`1..100`) when it is
knocked out and step `100` when it survives; and the whole run consumes the sum over the
paths of these step counts, at most `100 * nSim` draws. -/
theorem C13_draw_consumption {α : Type} [DoubleOps α] (p : BarrierOption α) (z : Nat → α)
    (g : Nat) :
    ∃ res stN, p.priceWith (seqDraw z) g = some res ∧
      simLoop p (seqDraw z) p.nSim.toNat 0 (initSim g) = some stN ∧ res.gen = stN.gen ∧
      res.gen = g + ∑ i in Finset.range p.nSim.toNat, stopStep p z (pathStart p z g i) 100 0 ∧
      res.gen ≤ g + 100 * p.nSim.toNat ∧
      ∀ i, i < p.nSim.toNat → ∃ st ps st',
        simLoop p (seqDraw z) i 0 (initSim g) = some st ∧
        simLoop p (seqDraw z) (p.nSim.toNat - i) i st = some stN ∧
        st.gen = pathStart p z g i ∧
        stepLoop p (seqDraw z) i 100 0
          { hitBarrier := false, this_spot := p.S0, trajectory := [], cout := st.cout,
            gen := st.gen } = some ps ∧
        ps.trajectory.length = stopStep p z (pathStart p z g i) 100 0 ∧
        ps.gen = st.gen + ps.trajectory.length ∧
        1 ≤ ps.trajectory.length ∧ ps.trajectory.length ≤ 100 ∧
        (ps.hitBarrier = false → ps.trajectory.length = 100) ∧
        (ps.hitBarrier = true →
          ge ps.this_spot p.b = true ∧ ps.trajectory.getLast? = some ps.this_spot) ∧
        pathIter p (seqDraw z) i st = some st' ∧
        st'.gen = ps.gen ∧ st'.gen = pathStart p z g (i + 1) := by
  obtain ⟨res, hres⟩ := priceWith_seq_some p z g
  obtain ⟨stN, hN, -, -, -, hg⟩ := priceWith_initSim p _ g res hres
  have hgen : stN.gen = pathStart p z g p.nSim.toNat := by
    obtain ⟨st, h1, -, -, h4⟩ := simLoop_seq_closed p z g p.nSim.toNat
    rw [hN, Option.some.injEq] at h1
    rw [h1]; exact h4
  refine ⟨res, stN, hres, hN, hg, ?_, ?_, ?_⟩
  · rw [hg, hgen, pathStart_eq_sum]
  · rw [hg, hgen]; exact pathStart_le p z g _
  · intro i hi
    obtain ⟨st, h1, -, -, h4⟩ := simLoop_seq_closed p z g i
    obtain ⟨ps, hps, hflag, hspot, htraj, hpg⟩ := stepLoop_seq_init p z i st.gen st.cout
    have hsplit := simLoop_add p (seqDraw z) (p.nSim.toNat - i) i 0 (initSim g)
    have e : i + (p.nSim.toNat - i) = p.nSim.toNat := by omega
    rw [e, hN, h1, Option.some_bind, Nat.zero_add] at hsplit
    have hb := stopStep_bounds p z st.gen
    have hlen : ps.trajectory.length = stopStep p z st.gen 100 0 := by
      rw [htraj, visited_length]
    have hiter := pathIter_seq p z i st
    obtain ⟨ps', hps', hg'⟩ := pathIter_gen p _ i st _ hiter
    rw [hps, Option.some.injEq] at hps'
    subst hps'
    refine ⟨st, ps, _, h1, hsplit.symm, h4, hps, by rw [hlen, h4], by rw [hlen, hpg],
      by omega, by omega, ?_, ?_, hiter, hg', ?_⟩
    · intro hf
      rw [hflag] at hf
      rw [hlen, (breached_false p z st.gen 100 0 hf).1]
    · intro ht
      rw [hflag] at ht
      have := breached_true p z st.gen 100 0 ht
      refine ⟨by rw [hspot]; exact this.2, ?_⟩
      rw [htraj, hspot]
      exact visited_getLast p z st.gen _ hb.1
    · rw [hg', hpg, h4]
      rfl

/-- C14. Unreachability of `ln(0)`: for an odd `RAND_MAX`, the values `x = 2u/RAND_MAX - 1`
and `y = 2v/RAND_MAX - 1` are real numbers different from `0` for all outputs `u`, `v`, so
`x^2 + y^2 > 0`; hence whenever the routine returns, the accepted attempt has
`0 < s < 1`, the quotient `-2*ln(s)/s` under the square root is strictly positive, and
the returned value is the real number `x * sqrt(-2*ln(s)/s)`. -/
theorem C14_log_argument_positive (RAND_MAX : Nat) (rand : Nat → Nat)
    (hodd : RAND_MAX % 2 = 1) :
    (∀ u v : Nat,
      (uniformOf RAND_MAX u : Dbl) = Dbl.fin (uniformR RAND_MAX u) ∧
      (uniformOf RAND_MAX v : Dbl) = Dbl.fin (uniformR RAND_MAX v) ∧
      uniformR RAND_MAX u ≠ 0 ∧ uniformR RAND_MAX v ≠ 0 ∧
      0 < uniformR RAND_MAX u ^ 2 + uniformR RAND_MAX v ^ 2) ∧
    (∀ (fuel pos : Nat) (v : Dbl) (pos' : Nat),
      GetOneGaussianByBoxMuller RAND_MAX rand fuel pos = some (v, pos') →
      ∃ j, pos' = pos + 2 * (j + 1) ∧
        (sizeSquaredAt RAND_MAX rand (pos + 2 * j) : Dbl)
          = Dbl.fin (sizeSquaredR RAND_MAX rand (pos + 2 * j)) ∧
        0 < sizeSquaredR RAND_MAX rand (pos + 2 * j) ∧
        sizeSquaredR RAND_MAX rand (pos + 2 * j) < 1 ∧
        0 < -2 * Real.log (sizeSquaredR RAND_MAX rand (pos + 2 * j))
          / sizeSquaredR RAND_MAX rand (pos + 2 * j) ∧
        v = Dbl.fin (uniformR RAND_MAX (rand (pos + 2 * j))
              * Real.sqrt (-2 * Real.log (sizeSquaredR RAND_MAX rand (pos + 2 * j))
                  / sizeSquaredR RAND_MAX rand (pos + 2 * j)))) := by
  have hR : 0 < RAND_MAX := by omega
  have hpos : ∀ u v : Nat, 0 < uniformR RAND_MAX u ^ 2 + uniformR RAND_MAX v ^ 2 := by
    intro u v
    have := uniformR_ne_zero RAND_MAX u hodd
    positivity
  refine ⟨fun u v => ⟨uniformOf_fin _ _ hR, uniformOf_fin _ _ hR,
    uniformR_ne_zero _ _ hodd, uniformR_ne_zero _ _ hodd, hpos u v⟩, ?_⟩
  intro fuel pos v pos' h
  obtain ⟨j, -, h2, h3, -, h5⟩ := boxMuller_returns RAND_MAX rand fuel pos v pos' h
  rw [ge_sizeSquaredAt _ _ _ hR] at h3
  have hlt : sizeSquaredR RAND_MAX rand (pos + 2 * j) < 1 := by simpa using h3
  have h0 : 0 < sizeSquaredR RAND_MAX rand (pos + 2 * j) := hpos _ _
  obtain ⟨hv, hq⟩ := boxMullerValue_fin RAND_MAX rand (pos + 2 * j) hR h0 hlt
  exact ⟨j, h2, sizeSquaredAt_fin _ _ _ hR, h0, hlt, hq, by rw [h5, hv]⟩

/-- C14 at `RAND_MAX = 2^31 - 1` with all outputs equal to `1073741823`: the first attempt
is accepted. -/
theorem C14_log_argument_positive_witness :
    2147483647 % 2 = 1 ∧
    ∃ v : Dbl,
      GetOneGaussianByBoxMuller 2147483647 (fun _ => 1073741823) 1 0 = some (v, 2) ∧
      ∃ j, 2 = 0 + 2 * (j + 1) ∧
        (sizeSquaredAt 2147483647 (fun _ => 1073741823) (0 + 2 * j) : Dbl)
          = Dbl.fin (sizeSquaredR 2147483647 (fun _ => 1073741823) (0 + 2 * j)) ∧
        0 < sizeSquaredR 2147483647 (fun _ => 1073741823) (0 + 2 * j) ∧
        sizeSquaredR 2147483647 (fun _ => 1073741823) (0 + 2 * j) < 1 ∧
        0 < -2 * Real.log (sizeSquaredR 2147483647 (fun _ => 1073741823) (0 + 2 * j))
          / sizeSquaredR 2147483647 (fun _ => 1073741823) (0 + 2 * j) ∧
        v = Dbl.fin (uniformR 2147483647 ((fun _ => 1073741823) (0 + 2 * j))
              * Real.sqrt (-2 * Real.log
                  (sizeSquaredR 2147483647 (fun _ => 1073741823) (0 + 2 * j))
                  / sizeSquaredR 2147483647 (fun _ => 1073741823) (0 + 2 * j))) := by
  have hacc : ge (sizeSquaredAt 2147483647 (fun _ => 1073741823) (0 + 2 * 0) : Dbl) (ofNat 1)
      = false := by
    rw [ge_sizeSquaredAt _ _ _ (by norm_num)]
    simp [sizeSquaredR, uniformR]
    norm_num
  have hrun := boxMuller_first_accept (α := Dbl) 2147483647 (fun _ => 1073741823) 0 1 0 hacc
    (fun i hi => by omega) (by omega)
  exact ⟨by norm_num, _, hrun,
    (C14_log_argument_positive 2147483647 (fun _ => 1073741823) (by norm_num)).2 1 0 _ 2 hrun⟩

/-- C15 fails for a negative time to maturity: at `S0 = 100, K = 110, sigma = 0.25, r = 0.05,
T = -1, b = 130, nSim = 1` the recorded trajectory of the only path has 100 entries, and
its first entry is `NaN`, not a number `< b`. -/
theorem C15_recorded_trajectories_counterexample :
    ∃ res tr, (BarrierOption.ofReal 100 110 0.25 0.05 (-1) 130 1).priceWith
        (seqDraw (fun _ => Dbl.fin 0)) 0 = some res ∧
      res.printedTrajectories = [tr] ∧ tr.length = 100 ∧ tr[0]? = some Dbl.nan ∧
      ¬ ∃ x : ℝ, tr[0]? = some (Dbl.fin x) ∧ x < 130 := by
  obtain ⟨res, hres⟩ := priceWith_seq_some (BarrierOption.ofReal 100 110 0.25 0.05 (-1) 130 1)
    (fun _ => Dbl.fin 0) 0
  obtain ⟨stN, hN, -, -, hpr, -⟩ := priceWith_initSim _ _ 0 res hres
  obtain ⟨st, h1, -, h3, -⟩ := simLoop_seq_closed
    (BarrierOption.ofReal 100 110 0.25 0.05 (-1) 130 1) (fun _ => Dbl.fin 0) 0 1
  have hn : (BarrierOption.ofReal 100 110 0.25 0.05 (-1) 130 1).nSim.toNat = 1 := rfl
  rw [hn, h1, Option.some.injEq] at hN
  subst hN
  have hb := breached_neg_T 100 110 0.25 0.05 (-1) 130 1 (by norm_num) (fun _ => Dbl.fin 0)
    0 100 0
  have hstop := (breached_false _ _ _ _ _ hb).1
  have htr : res.printedTrajectories
      = [visited (BarrierOption.ofReal 100 110 0.25 0.05 (-1) 130 1) (fun _ => Dbl.fin 0) 0 100] := by
    rw [hpr, h3]
    have e1 : min 1 5 = 1 := rfl
    have e2 : List.range 1 = [0] := rfl
    rw [e1, e2, List.map_cons, List.map_nil]
    simp only [pathStart, hstop, Nat.zero_add]
  have h0 : (visited (BarrierOption.ofReal 100 110 0.25 0.05 (-1) 130 1)
      (fun _ => Dbl.fin 0) 0 100)[0]? = some Dbl.nan := by
    unfold visited
    rw [List.getElem?_map, List.getElem?_range (by norm_num), Option.map_some',
      walk_neg_T _ _ _ _ _ _ _ (by norm_num)]
  refine ⟨res, _, hres, htr, visited_length _ _ _ _, h0, ?_⟩
  rintro ⟨x, hx, -⟩
  rw [h0] at hx
  simp at hx

/-- C15, amended. Recorded trajectories, for every interpretation of the `double`
operations and every sequence of draws: the run records exactly `min(nSim, 5)`
trajectories (none for `nSim <= 0`); the `i`-th is the one of path `i` in simulation
order (whose first draw is `pathStart i`), knocked out or not, and lists the computed
spots `S_1, ..., S_m` of its steps in order, where `m` is `100` for a survivor and the
breach step for a knocked-out path; no entry but the last is `>= b`, and the last entry is
`>= b` if and only if the path was knocked out. -/
theorem C15_recorded_trajectories {α : Type} [DoubleOps α] (p : BarrierOption α)
    (z : Nat → α) (g : Nat) :
    ∃ res, p.priceWith (seqDraw z) g = some res ∧
      res.printedTrajectories.length = min p.nSim.toNat 5 ∧
      ∀ i, i < min p.nSim.toNat 5 → ∃ off m tr,
        off = pathStart p z g i ∧ m = stopStep p z off 100 0 ∧
        res.printedTrajectories[i]? = some tr ∧
        tr.length = m ∧ 1 ≤ m ∧ m ≤ 100 ∧
        (∀ k, k < m → tr[k]? = some (walk p z off (k + 1))) ∧
        tr.getLast? = some (walk p z off m) ∧
        (breached p z off 100 0 = false → m = 100) ∧
        (breached p z off 100 0 = true →
          ∀ j, 1 ≤ j → j ≤ 100 → ge (walk p z off j) p.b = true → m ≤ j) ∧
        (∀ k, 1 ≤ k → k < m → ge (walk p z off k) p.b = false) ∧
        (ge (walk p z off m) p.b = true ↔ breached p z off 100 0 = true) ∧
        (breached p z off 100 0 = true
          ↔ ∃ k, 1 ≤ k ∧ k ≤ 100 ∧ ge (walk p z off k) p.b = true) := by
  obtain ⟨res, hres, -, hpr, -⟩ := priceWith_seq_closed p z g
  refine ⟨res, hres, by rw [hpr]; simp, fun i hi => ?_⟩
  have hb := stopStep_bounds p z (pathStart p z g i)
  refine ⟨_, _, _, rfl, rfl, ?_, visited_length _ _ _ _, hb.1, hb.2, fun k hk => ?_,
    visited_getLast p z _ _ hb.1, fun h => ?_, fun _ j hj1 _ hge => ?_, fun k hk1 hk2 => ?_,
    ⟨fun h => ?_, fun h => (breached_true p z _ 100 0 h).2⟩, breached_iff_steps p z _⟩
  · rw [hpr, List.getElem?_map, List.getElem?_range hi, Option.map_some']
  · unfold visited
    rw [List.getElem?_map, List.getElem?_range hk, Option.map_some']
  · rw [(breached_false p z _ 100 0 h).1]
  · exact stopStep_le_of_ge p z _ 100 0 j (by omega) hge
  · exact no_breach_before_stop p z _ 100 0 k (by omega) hk2
  · exact (breached_iff_steps p z _).2 ⟨_, hb.1, hb.2, h⟩

/-- C16. Standard deviation when every path is knocked out: with an empty survivor
collection the denominator `payoffs.size() - 1` wraps to `2^64 - 1`, the numerator is `0`,
so `stddev_price = sqrt(0 / (2^64 - 1)) = 0`, an ordinary number, while the returned value
of the same call is the `NaN` of `0 / 0`. -/
theorem C16_stddev_all_knocked_out (p : BarrierOption Dbl) {σ : Type}
    (draw : σ → Option (Dbl × σ)) (g : σ) (res : PriceResult Dbl σ)
    (hres : p.priceWith draw g = some res) (hempty : res.payoffs = []) :
    size_t_sub res.payoffs.length 1 = 2 ^ 64 - 1 ∧
    res.stddev_price = Dbl.sqrt (Dbl.div (Dbl.fin 0) (Dbl.fin ((2 ^ 64 - 1 : Nat) : ℝ))) ∧
    res.stddev_price = Dbl.fin 0 ∧
    res.value = Dbl.nan := by
  have hs : size_t_sub 0 1 = 2 ^ 64 - 1 := by unfold size_t_sub SIZE_MOD; norm_num
  have hne : (((2 ^ 64 - 1 : Nat) : Nat) : ℝ) ≠ 0 := by norm_num
  have hsd : res.stddev_price
      = Dbl.sqrt (Dbl.div (Dbl.fin 0) (Dbl.fin ((2 ^ 64 - 1 : Nat) : ℝ))) := by
    rw [(priceWith_value p draw g res hres).2, hempty]
    simp only [List.length_nil, hs, List.foldl_nil, Dbl.ofNat_def, Dbl.div_def, Dbl.sqrt_def,
      Nat.cast_zero]
  refine ⟨by rw [hempty]; exact hs, hsd, ?_, ?_⟩
  · rw [hsd, Dbl.div_fin _ _ hne, zero_div, Dbl.sqrt_fin _ (le_refl 0), Real.sqrt_zero]
  · rw [(priceWith_value p draw g res hres).1, hempty]
    simp

/-- C16 at `S0 = 100, K = 110, sigma = 0, r = 0, T = 1, b = 50, nSim = 2`, all draws `0`:
both paths are knocked out at their first step. -/
theorem C16_stddev_all_knocked_out_witness :
    ∃ res : PriceResult Dbl Nat,
      (BarrierOption.ofReal 100 110 0 0 1 50 2).priceWith
        (seqDraw (fun n => Dbl.fin ((fun _ => (0 : ℝ)) n))) 0 = some res ∧
      res.payoffs = [] ∧
      size_t_sub res.payoffs.length 1 = 2 ^ 64 - 1 ∧
      res.stddev_price = Dbl.sqrt (Dbl.div (Dbl.fin 0) (Dbl.fin ((2 ^ 64 - 1 : Nat) : ℝ))) ∧
      res.stddev_price = Dbl.fin 0 ∧
      res.value = Dbl.nan := by
  obtain ⟨res, h1, h2, -⟩ := priceWith_fin_all_knocked 100 110 0 0 1 50 2 (by norm_num)
    (fun _ => 0) 0 (fun off => by simp [spotAt, logIncrement]; norm_num)
  exact ⟨res, h1, h2,
    C16_stddev_all_knocked_out (BarrierOption.ofReal 100 110 0 0 1 50 2) _ 0 res h1 h2⟩

/-- C17 fails for a negative time to maturity: at `sigma = 0, S0 = 100, K = 90, r = 0,
T = -1, b = 130, nSim = 1` the hypotheses of the claim hold, but `sqrt(dt)` is `NaN`, so
the only path survives with payoff `NaN` and the returned value is `NaN`, not
`max(S0 * exp(r*T) - K, 0) * exp(-r*T) = 10`. -/
theorem C17_zero_volatility_counterexample :
    (0 : ℝ) < 100 ∧ (1 : Int) ≤ 1 ∧
    (∀ k : Nat, 1 ≤ k → k ≤ 100 → (100 : ℝ) * Real.exp (0 * (-1) * k / 100) < 130) ∧
    ∃ res, (BarrierOption.ofReal 100 90 0 0 (-1) 130 1).priceWith
        (seqDraw (fun _ => Dbl.fin 0)) 0 = some res ∧
      res.barrierHits = 0 ∧ res.payoffs = [Dbl.nan] ∧ res.value = Dbl.nan ∧
      res.payoffs ≠ [Dbl.fin (max (100 * Real.exp (0 * (-1)) - 90) 0)] ∧
      res.value ≠ Dbl.fin (max (100 * Real.exp (0 * (-1)) - 90) 0 * Real.exp (-0 * (-1))) := by
  refine ⟨by norm_num, by decide, fun k _ _ => by simp; norm_num, ?_⟩
  obtain ⟨res, h1, h2, h3, h4⟩ := priceWith_neg_T 100 90 0 0 (-1) 130 1 (by norm_num)
    (by decide) (fun _ => Dbl.fin 0) 0
  have h3' : res.payoffs = [Dbl.nan] := h3
  refine ⟨res, h1, h2, h3', h4, ?_, ?_⟩
  · rw [h3']; simp
  · rw [h4]; simp

/-- C17, amended. Zero volatility: for `sigma = 0`, a finite `T >= 0` and finite draws, the
step factor is `f = exp(r * dt)` whatever the draw, and `BarrierOption::price` does not
depend on the draws.  When moreover none of the computed spots `S_k = S0 * f * ... * f`
(`k` factors, `k` in `1..100`) is `>= b`, then `barrierHits = 0`, every one of the `nSim`
stored payoffs is `std::max(S_100 - K, 0.0)`, the run consumes `100 * nSim` draws, and the
returned estimate and `stddev_price` are the mean and the sample standard deviation that
the program computes from `nSim` copies of that payoff. -/
theorem C17_zero_volatility (p : BarrierOption Dbl) (t : ℝ) (hsig : p.sigma = Dbl.fin 0)
    (hT : p.T = Dbl.fin t) (ht : 0 ≤ t) (z : Nat → ℝ) (g : Nat) :
    (∀ x : ℝ, stepFactor p (Dbl.fin x) = exp (p.r * (p.T / ofNat 100))) ∧
    (∀ (off k : Nat), walk p (fun n => Dbl.fin (z n)) off k
      = constWalk p.S0 (exp (p.r * (p.T / ofNat 100))) k) ∧
    ∃ res, p.priceWith (seqDraw (fun n => Dbl.fin (z n))) g = some res ∧
      (∀ z' : Nat → ℝ, p.priceWith (seqDraw (fun n => Dbl.fin (z' n))) g = some res) ∧
      ((∀ k, 1 ≤ k → k ≤ 100 →
          ge (constWalk p.S0 (exp (p.r * (p.T / ofNat 100))) k) p.b = false) →
        res.barrierHits = 0 ∧
        res.payoffs = List.replicate p.nSim.toNat
          (dmax (constWalk p.S0 (exp (p.r * (p.T / ofNat 100))) 100 - p.K) (ofNat 0)) ∧
        res.gen = g + 100 * p.nSim.toNat ∧
        res.value = (List.replicate p.nSim.toNat
            (dmax (constWalk p.S0 (exp (p.r * (p.T / ofNat 100))) 100 - p.K) (ofNat 0))).foldl
              (fun a x => a + x) (ofNat 0) / ofNat p.nSim.toNat * exp (-p.r * p.T) ∧
        res.stddev_price = sqrt ((List.replicate p.nSim.toNat
            (dmax (constWalk p.S0 (exp (p.r * (p.T / ofNat 100))) 100 - p.K) (ofNat 0))).foldl
              (fun acc payoff =>
                acc + (payoff - (List.replicate p.nSim.toNat
                    (dmax (constWalk p.S0 (exp (p.r * (p.T / ofNat 100))) 100 - p.K)
                      (ofNat 0))).foldl (fun a x => a + x) (ofNat 0) / ofNat p.nSim.toNat)
                  * (payoff - (List.replicate p.nSim.toNat
                    (dmax (constWalk p.S0 (exp (p.r * (p.T / ofNat 100))) 100 - p.K)
                      (ofNat 0))).foldl (fun a x => a + x) (ofNat 0) / ofNat p.nSim.toNat))
              (ofNat 0)
            / ofNat (size_t_sub p.nSim.toNat 1))) := by
  have hf : ∀ (zr : Nat → ℝ) (n : Nat), stepFactor p ((fun m => Dbl.fin (zr m)) n)
      = exp (p.r * (p.T / ofNat 100)) :=
    fun zr n => stepFactor_zero_vol p t hsig hT ht (zr n)
  obtain ⟨res, hres⟩ := priceWith_seq_some p (fun n => Dbl.fin (z n)) g
  refine ⟨stepFactor_zero_vol p t hsig hT ht,
    fun off k => walk_eq_constWalk p _ off _ (hf z) k, res, hres, fun z' => ?_, fun hb => ?_⟩
  · rw [← hres]
    exact priceWith_seq_congr p _ _ _ (hf z') (hf z) g
  · obtain ⟨res', h1, h2, h3, h4⟩ := priceWith_same_factor p _ _ (hf z) hb g
    rw [hres, Option.some.injEq] at h1
    subst h1
    have hv := priceWith_value p _ g res hres
    rw [h3, List.length_replicate] at hv
    exact ⟨h2, h3, h4, hv.1, hv.2⟩

/-- C17, amended, at `sigma = 0, S0 = 100, K = 90, r = 0.05, T = 1, b = 130, nSim = 3` with
all draws `0`: the factor is `exp(0.0005)` and the spots `100 * exp(0.0005)^k` stay below
`130`. -/
theorem C17_zero_volatility_witness :
    (BarrierOption.ofReal 100 90 0 0.05 1 130 3).sigma = Dbl.fin 0 ∧
    (BarrierOption.ofReal 100 90 0 0.05 1 130 3).T = Dbl.fin 1 ∧ (0 : ℝ) ≤ 1 ∧
    (∀ k, 1 ≤ k → k ≤ 100 →
      ge (constWalk (Dbl.fin 100) (exp (Dbl.fin 0.05 * (Dbl.fin 1 / ofNat 100))) k)
        (Dbl.fin 130) = false) ∧
    ∃ res, (BarrierOption.ofReal 100 90 0 0.05 1 130 3).priceWith
        (seqDraw (fun n => Dbl.fin ((fun _ => (0 : ℝ)) n))) 0 = some res ∧
      (∀ z' : Nat → ℝ, (BarrierOption.ofReal 100 90 0 0.05 1 130 3).priceWith
        (seqDraw (fun n => Dbl.fin (z' n))) 0 = some res) ∧
      res.barrierHits = 0 ∧
      res.payoffs = List.replicate 3
        (dmax (constWalk (Dbl.fin 100) (exp (Dbl.fin 0.05 * (Dbl.fin 1 / ofNat 100))) 100
          - Dbl.fin 90) (ofNat 0)) ∧
      res.gen = 0 + 100 * 3 := by
  have h100 : ((100 : Nat) : ℝ) ≠ 0 := by norm_num
  have hb : ∀ k, 1 ≤ k → k ≤ 100 →
      ge (constWalk (Dbl.fin 100) (exp (Dbl.fin 0.05 * (Dbl.fin 1 / ofNat 100))) k)
        (Dbl.fin 130) = false := by
    intro k _ hk
    have hf : (exp (Dbl.fin 0.05 * (Dbl.fin 1 / ofNat 100)) : Dbl)
        = Dbl.fin (Real.exp (0.05 * (1 / ((100 : Nat) : ℝ)))) := by
      simp only [Dbl.ofNat_def, Dbl.div_def, Dbl.div_fin _ _ h100, Dbl.mul_def, Dbl.mul_fin,
        Dbl.exp_def, Dbl.exp_fin]
    rw [hf, constWalk_fin]
    simp only [Dbl.ge_def, Dbl.ge_fin, decide_eq_false_iff_not, not_le]
    rw [← Real.exp_nat_mul]
    have h1 : Real.exp ((k : ℝ) * (0.05 * (1 / ((100 : Nat) : ℝ)))) ≤ Real.exp (1 / 20) := by
      apply Real.exp_le_exp.mpr
      have : (k : ℝ) ≤ 100 := by exact_mod_cast hk
      push_cast
      linarith
    have h2 : Real.exp (1 / 20) < 1 / (1 - 1 / 20) :=
      Real.exp_bound_div_one_sub_of_interval' (by norm_num) (by norm_num)
    have h3 : (1 : ℝ) / (1 - 1 / 20) < 13 / 10 := by norm_num
    linarith
  obtain ⟨-, -, res, c1, c2, c3⟩ := C17_zero_volatility
    (BarrierOption.ofReal 100 90 0 0.05 1 130 3) 1 rfl rfl (by norm_num) (fun _ => 0) 0
  obtain ⟨c4, c5, c6, -, -⟩ := c3 hb
  exact ⟨rfl, rfl, by norm_num, hb, res, c1, c2, c4, c5, c6⟩

/-- C18 fails for a negative time to maturity: at `S0 = 100, K = 90, sigma = 0.25, r = 0.05,
T = -1, b = 130, nSim = 1` the only path survives, its stored payoff is `NaN` and not a
number `>= 0`, and the returned value is `NaN`, for which `>= 0` is false. -/
theorem C18_sign_and_range_counterexample :
    ∃ res, (BarrierOption.ofReal 100 90 0.25 0.05 (-1) 130 1).priceWith
        (seqDraw (fun _ => Dbl.fin 0)) 0 = some res ∧
      res.payoffs.length = 1 ∧ res.payoffs = [Dbl.nan] ∧ res.value = Dbl.nan ∧
      (¬ ∃ y : ℝ, res.payoffs = [Dbl.fin y] ∧ 0 ≤ y) ∧
      ge res.value (Dbl.fin 0) = false ∧
      ¬ ∃ v : ℝ, res.value = Dbl.fin v ∧ 0 ≤ v := by
  obtain ⟨res, h1, -, h3, h4⟩ := priceWith_neg_T 100 90 0.25 0.05 (-1) 130 1 (by norm_num)
    (by decide) (fun _ => Dbl.fin 0) 0
  have h3' : res.payoffs = [Dbl.nan] := h3
  refine ⟨res, h1, by rw [h3']; rfl, h3', h4, ?_, by rw [h4]; simp, ?_⟩
  · rintro ⟨y, hy, -⟩
    rw [h3'] at hy
    simp at hy
  · rintro ⟨v, hv, -⟩
    rw [h4] at hv
    simp at hv

/-- C18, amended. Sign and range of the outputs, for all parameters and draws, the special
values included: every stored payoff is `>= 0` or `NaN`; the returned estimate is `>= 0`
or `NaN`; `stddev_price` is `>= 0` or `NaN`; `0 <= barrierHits`, and
`barrierHits <= nSim` for `nSim >= 0`; when all stored payoffs are `0` the estimate is `0`
or `NaN`, and on a sequence of draws this is the case when every survivor finishes with
spot `<= K` (a survivor with spot `<= K` has payoff `0`, or `NaN` for `inf - inf`). -/
theorem C18_sign_and_range (p : BarrierOption Dbl) {σ : Type}
    (draw : σ → Option (Dbl × σ)) (g : σ) (res : PriceResult Dbl σ)
    (hres : p.priceWith draw g = some res) :
    (∀ x ∈ res.payoffs, x = Dbl.nan ∨ ge x (Dbl.fin 0) = true) ∧
    (res.value = Dbl.nan ∨ ge res.value (Dbl.fin 0) = true) ∧
    (res.stddev_price = Dbl.nan ∨ ge res.stddev_price (Dbl.fin 0) = true) ∧
    0 ≤ res.barrierHits ∧ (0 ≤ p.nSim → res.barrierHits ≤ p.nSim) ∧
    ((∀ x ∈ res.payoffs, x = Dbl.fin 0) → res.value = Dbl.fin 0 ∨ res.value = Dbl.nan) ∧
    (∀ (z : Nat → Dbl) (g' : Nat), ∃ res', p.priceWith (seqDraw z) g' = some res' ∧
      res'.payoffs = (survivors p z g' p.nSim.toNat).map
        (fun i => dmax (walk p z (pathStart p z g' i) 100 - p.K) (ofNat 0)) ∧
      ((∀ i ∈ survivors p z g' p.nSim.toNat,
          ge p.K (walk p z (pathStart p z g' i) 100) = true) →
        res'.value = Dbl.fin 0 ∨ res'.value = Dbl.nan)) := by
  have hpay := priceWith_payoffs_all
    (fun x : Dbl => x = Dbl.nan ∨ ge x (Dbl.fin 0) = true) p (fun s => Dbl.dmax_sign _)
    draw g res hres
  have hv := priceWith_value p draw g res hres
  have h0 : (ofNat 0 : Dbl) = Dbl.nan ∨ Dbl.ge (ofNat 0) (Dbl.fin 0) = true := by
    right; simp
  have hc := priceWith_count p draw g res hres
  have hh := priceWith_hits_nonneg p draw g res hres
  refine ⟨hpay, ?_, ?_, hh, fun hn => by omega, fun hz => ?_, fun z g' => ?_⟩
  · rw [hv.1]
    exact Dbl.mul_sign _ _ (Dbl.div_nat_sign _ _ (Dbl.foldl_add_sign _ _ h0 hpay))
      (Dbl.exp_sign _)
  · rw [hv.2]
    exact Dbl.sqrt_sign _
  · rw [hv.1]
    exact Dbl.estimate_zero _ _ _
      (Dbl.foldl_add_zero _ _ (Or.inl (by simp)) (fun x hx => Or.inl (hz x hx)))
  · obtain ⟨res', h1, h2, -, -⟩ := priceWith_seq_closed p z g'
    refine ⟨res', h1, h2, fun hle => ?_⟩
    rw [(priceWith_value p _ g' res' h1).1]
    refine Dbl.estimate_zero _ _ _ (Dbl.foldl_add_zero _ _ (Or.inl (by simp)) (fun x hx => ?_))
    rw [h2] at hx
    obtain ⟨i, hi, rfl⟩ := List.mem_map.mp hx
    exact Dbl.dmax_of_le _ _ (hle i hi)

/-- C18, amended, at `S0 = 100, K = 90, sigma = 1, r = 0.5, T = 100, b = 130, nSim = 3` on
the draws `1, 0, 0, ...`: one path is knocked out and two survive with payoff `10`. -/
theorem C18_sign_and_range_witness :
    ∃ res : PriceResult Dbl Nat,
      (BarrierOption.ofReal 100 90 1 0.5 100 130 3).priceWith
        (seqDraw (fun n => Dbl.fin ((fun m => if m = 0 then (1 : ℝ) else 0) n))) 0 = some res ∧
      res.payoffs = [Dbl.fin 10, Dbl.fin 10] ∧
      (∀ x ∈ res.payoffs, x = Dbl.nan ∨ ge x (Dbl.fin 0) = true) ∧
      (res.value = Dbl.nan ∨ ge res.value (Dbl.fin 0) = true) ∧
      (res.stddev_price = Dbl.nan ∨ ge res.stddev_price (Dbl.fin 0) = true) ∧
      0 ≤ res.barrierHits ∧ res.barrierHits ≤ 3 := by
  obtain ⟨res, h1, -, h3⟩ := priceWith_mixed_example
  obtain ⟨c1, c2, c3, c4, c5, -⟩ := C18_sign_and_range
    (BarrierOption.ofReal 100 90 1 0.5 100 130 3) _ 0 res h1
  exact ⟨res, h1, h3, c1, c2, c3, c4, c5 (by decide)⟩

/-- C19. Per-path monotonicity in the barrier: for fixed `S0, K, sigma, r, T` and a fixed
sequence of draws fed to one path, with barriers `b1 <= b2`: if the path is knocked out
under `b2` then it is knocked out under `b1`, at a step that is not later; and if it
survives under `b1` then it survives under `b2` with the same final spot and the same
stored payoff. -/
theorem C19_barrier_monotonicity (S0 K sigma r T : Dbl) (n1 n2 : Int) (b1 b2 : ℝ)
    (hb : b1 ≤ b2) (z : Nat → Dbl) (i : Nat) (st : SimState Dbl Nat) :
    ∃ ps1 ps2 st1 st2,
      stepLoop { S0 := S0, K := K, sigma := sigma, r := r, T := T, b := Dbl.fin b1, nSim := n1 }
          (seqDraw z) i 100 0
          { hitBarrier := false, this_spot := S0, trajectory := [], cout := st.cout,
            gen := st.gen } = some ps1 ∧
      stepLoop { S0 := S0, K := K, sigma := sigma, r := r, T := T, b := Dbl.fin b2, nSim := n2 }
          (seqDraw z) i 100 0
          { hitBarrier := false, this_spot := S0, trajectory := [], cout := st.cout,
            gen := st.gen } = some ps2 ∧
      pathIter { S0 := S0, K := K, sigma := sigma, r := r, T := T, b := Dbl.fin b1, nSim := n1 }
          (seqDraw z) i st = some st1 ∧
      pathIter { S0 := S0, K := K, sigma := sigma, r := r, T := T, b := Dbl.fin b2, nSim := n2 }
          (seqDraw z) i st = some st2 ∧
      (ps2.hitBarrier = true →
        ps1.hitBarrier = true ∧ ps1.trajectory.length ≤ ps2.trajectory.length) ∧
      (ps1.hitBarrier = false →
        ps2.hitBarrier = false ∧ ps2.this_spot = ps1.this_spot ∧
        ps1.trajectory.length = 100 ∧ ps2.trajectory.length = 100 ∧
        st1.payoffs = st.payoffs ++ [dmax (ps1.this_spot - K) (ofNat 0)] ∧
        st2.payoffs = st1.payoffs) := by
  have hw := walk_barrier_indep
    { S0 := S0, K := K, sigma := sigma, r := r, T := T, b := Dbl.fin b1, nSim := n1 }
    { S0 := S0, K := K, sigma := sigma, r := r, T := T, b := Dbl.fin b2, nSim := n2 }
    rfl rfl rfl rfl z st.gen
  obtain ⟨ps1, e1, f1, s1, t1, -⟩ := stepLoop_seq_init
    { S0 := S0, K := K, sigma := sigma, r := r, T := T, b := Dbl.fin b1, nSim := n1 }
    z i st.gen st.cout
  obtain ⟨ps2, e2, f2, s2, t2, -⟩ := stepLoop_seq_init
    { S0 := S0, K := K, sigma := sigma, r := r, T := T, b := Dbl.fin b2, nSim := n2 }
    z i st.gen st.cout
  have hi1 := pathIter_seq
    { S0 := S0, K := K, sigma := sigma, r := r, T := T, b := Dbl.fin b1, nSim := n1 } z i st
  have hi2 := pathIter_seq
    { S0 := S0, K := K, sigma := sigma, r := r, T := T, b := Dbl.fin b2, nSim := n2 } z i st
  have hdown : breached
        { S0 := S0, K := K, sigma := sigma, r := r, T := T, b := Dbl.fin b2, nSim := n2 }
        z st.gen 100 0 = true →
      breached
        { S0 := S0, K := K, sigma := sigma, r := r, T := T, b := Dbl.fin b1, nSim := n1 }
        z st.gen 100 0 = true ∧
      stopStep
        { S0 := S0, K := K, sigma := sigma, r := r, T := T, b := Dbl.fin b1, nSim := n1 }
        z st.gen 100 0 ≤
      stopStep
        { S0 := S0, K := K, sigma := sigma, r := r, T := T, b := Dbl.fin b2, nSim := n2 }
        z st.gen 100 0 := by
    intro h2
    obtain ⟨k1, k2⟩ := breached_true _ _ _ _ _ h2
    have k3 := stopStep_le
      { S0 := S0, K := K, sigma := sigma, r := r, T := T, b := Dbl.fin b2, nSim := n2 }
      z st.gen 100 0
    rw [← hw] at k2
    have k4 : ge (walk
        { S0 := S0, K := K, sigma := sigma, r := r, T := T, b := Dbl.fin b1, nSim := n1 }
        z st.gen (stopStep
          { S0 := S0, K := K, sigma := sigma, r := r, T := T, b := Dbl.fin b2, nSim := n2 }
          z st.gen 100 0)) (Dbl.fin b1) = true :=
      Dbl.ge_fin_mono _ b1 b2 hb k2
    exact ⟨(breached_iff _ _ _ _ _).2 ⟨_, k1, k3, k4⟩,
      stopStep_le_of_ge _ z st.gen 100 0 _ k1 k4⟩
  refine ⟨ps1, ps2, _, _, e1, e2, hi1, hi2, fun h => ?_, fun h => ?_⟩
  · rw [f2] at h
    rw [f1, t1, t2, visited_length, visited_length]
    exact hdown h
  · rw [f1] at h
    have h2 : breached
        { S0 := S0, K := K, sigma := sigma, r := r, T := T, b := Dbl.fin b2, nSim := n2 }
        z st.gen 100 0 = false := by
      by_contra hc
      have hc' := (hdown (by simpa using hc)).1
      rw [h] at hc'
      simp at hc'
    have a1 := (breached_false _ _ _ _ _ h).1
    have a2 := (breached_false _ _ _ _ _ h2).1
    refine ⟨by rw [f2]; exact h2, by rw [s1, s2, a1, a2, hw], by rw [t1, visited_length, a1],
      by rw [t2, visited_length, a2], ?_, ?_⟩
    · rw [if_pos h, s1]
    · rw [if_pos h, if_pos h2, a1, a2, hw]

/-- C19 at `S0 = 100, K = 110, sigma = 0.25, r = 0.05, T = 0.75`, all draws `0`, with the
barriers `120 <= 130`, for the first path of a run. -/
theorem C19_barrier_monotonicity_witness :
    (120 : ℝ) ≤ 130 ∧
    ∃ (ps1 ps2 : PathState Dbl Nat) (st1 st2 : SimState Dbl Nat),
      stepLoop { S0 := Dbl.fin 100, K := Dbl.fin 110, sigma := Dbl.fin 0.25, r := Dbl.fin 0.05,
                 T := Dbl.fin 0.75, b := Dbl.fin 120, nSim := 1 }
          (seqDraw (fun _ => Dbl.fin 0)) 0 100 0
          { hitBarrier := false, this_spot := Dbl.fin 100, trajectory := [],
            cout := (initSim 0 : SimState Dbl Nat).cout,
            gen := (initSim 0 : SimState Dbl Nat).gen } = some ps1 ∧
      stepLoop { S0 := Dbl.fin 100, K := Dbl.fin 110, sigma := Dbl.fin 0.25, r := Dbl.fin 0.05,
                 T := Dbl.fin 0.75, b := Dbl.fin 130, nSim := 1 }
          (seqDraw (fun _ => Dbl.fin 0)) 0 100 0
          { hitBarrier := false, this_spot := Dbl.fin 100, trajectory := [],
            cout := (initSim 0 : SimState Dbl Nat).cout,
            gen := (initSim 0 : SimState Dbl Nat).gen } = some ps2 ∧
      pathIter { S0 := Dbl.fin 100, K := Dbl.fin 110, sigma := Dbl.fin 0.25, r := Dbl.fin 0.05,
                 T := Dbl.fin 0.75, b := Dbl.fin 120, nSim := 1 }
          (seqDraw (fun _ => Dbl.fin 0)) 0 (initSim 0) = some st1 ∧
      pathIter { S0 := Dbl.fin 100, K := Dbl.fin 110, sigma := Dbl.fin 0.25, r := Dbl.fin 0.05,
                 T := Dbl.fin 0.75, b := Dbl.fin 130, nSim := 1 }
          (seqDraw (fun _ => Dbl.fin 0)) 0 (initSim 0) = some st2 ∧
      (ps2.hitBarrier = true →
        ps1.hitBarrier = true ∧ ps1.trajectory.length ≤ ps2.trajectory.length) ∧
      (ps1.hitBarrier = false →
        ps2.hitBarrier = false ∧ ps2.this_spot = ps1.this_spot ∧
        ps1.trajectory.length = 100 ∧ ps2.trajectory.length = 100 ∧
        st1.payoffs = (initSim 0 : SimState Dbl Nat).payoffs
          ++ [dmax (ps1.this_spot - Dbl.fin 110) (ofNat 0)] ∧
        st2.payoffs = st1.payoffs) :=
  ⟨by norm_num,
    C19_barrier_monotonicity (Dbl.fin 100) (Dbl.fin 110) (Dbl.fin 0.25) (Dbl.fin 0.05)
      (Dbl.fin 0.75) 1 1 120 130 (by norm_num) (fun _ => Dbl.fin 0) 0 (initSim 0)⟩

end BarrierMC
